import Mathlib

/-!
# Priority queue on a binary search tree with duplicate chains

A verification development for `priorityqueue.h`.  The C++ class keeps its
nodes on the free store and links them through raw pointers (`parent`, `link`,
`left`, `right`).  The embedding keeps that shape: a queue carries an explicit
node store, pointers are optional addresses, every dereference is checked, and
every loop and recursion of the source is a function with a step budget.  The
budget is the number of cells of the node store plus one: a walk over links
that takes more steps than there are nodes has come back to a node it has
seen, so the budget runs out only where the source does not terminate.
-/

namespace PQ

/-! ## Node store -/

/-- Ways in which a member function can end other than by a normal return. -/
inductive Err where
  /-- `logic_error`, thrown by `dequeue` on `root == nullptr`. -/
  | emptyQueue
  /-- A null or freed pointer is dereferenced or deleted (undefined behaviour). -/
  | badDeref
  /-- A loop or recursion does not come to an end within its step budget. -/
  | diverge
  deriving DecidableEq, Repr

/-- A `NODE*`: `none` is `nullptr`, `some a` is the address `a`. -/
abbrev Ptr := Option Nat

/-- The `struct NODE` of the class. -/
structure NODE (T : Type) where
  priority : Int
  value : T
  dup : Bool
  parent : Ptr
  link : Ptr
  left : Ptr
  right : Ptr
  deriving DecidableEq, Repr

/-- The free store: cell `a` holds `some n` while the node at address `a` is
alive and `none` once it has been deleted.  `new` takes the next unused address. -/
abbrev Heap (T : Type) := List (Option (NODE T))

/-- The class `priorityqueue<T>`: its three data members and the nodes it has
allocated.  `size` is the C++ `int` member: an integer that `size++` and
`size--` keep in the range of `int`, see `wrapInt`. -/
structure priorityqueue (T : Type) where
  heap : Heap T
  root : Ptr
  size : Int
  curr : Ptr
  deriving DecidableEq, Repr

variable {T : Type}

/-- Reading through a pointer: `p->...`. -/
def deref (h : Heap T) : Ptr → Except Err (NODE T)
  | none => .error .badDeref
  | some a =>
    match h[a]? with
    | some (some n) => .ok n
    | _ => .error .badDeref

/-- Writing through a pointer: `p->field = ...`, as a change `f` of the node. -/
def update (h : Heap T) (p : Ptr) (f : NODE T → NODE T) : Except Err (Heap T) :=
  match p with
  | none => .error .badDeref
  | some a =>
    match h[a]? with
    | some (some n) => .ok (h.set a (some (f n)))
    | _ => .error .badDeref

/-- The statement `delete p` for a pointer to a node. -/
def free (h : Heap T) (p : Ptr) : Except Err (Heap T) :=
  match p with
  | none => .error .badDeref
  | some a =>
    match h[a]? with
    | some (some _) => .ok (h.set a none)
    | _ => .error .badDeref

/-! ## Constructor, `Size` -/

/-- The default constructor `priorityqueue()`. -/
def new : priorityqueue T :=
  { heap := [], root := none, size := 0, curr := none }

/-- The member function `Size()`. -/
def Size (q : priorityqueue T) : Int := q.size

/-- The value a C++ `int` holds for the arithmetic result `x`: `x` taken modulo
`2 ^ 32` into the range from `-2 ^ 31` to `2 ^ 31 - 1`.  (Signed overflow is
undefined behaviour in C++; the model takes the two's complement result of the
usual compilers.) -/
def wrapInt (x : Int) : Int := (x + 2147483648) % 4294967296 - 2147483648

/-! ## `enqueue` -/

/-- The inner loop of `enqueue`:
`while (currNode->link != nullptr) currNode = currNode->link;`. -/
def chainTail (h : Heap T) : Nat → Ptr → Except Err Ptr
  | 0, _ => .error .diverge
  | fuel + 1, currNode => do
    let n ← deref h currNode
    if n.link ≠ none then chainTail h fuel n.link else pure currNode

/-- The `while (currNode != nullptr)` loop of `enqueue` together with the
attachment of `newNode` that follows it. -/
def enqueueLoop (newNode : Ptr) (priority : Int) :
    Nat → Heap T → Ptr → Ptr → Except Err (Heap T)
  | _, h, none, prevNode => do
    let h1 ← update h newNode (fun n => { n with parent := prevNode })
    let pn ← deref h1 prevNode
    if priority < pn.priority then
      update h1 prevNode (fun n => { n with left := newNode })
    else
      update h1 prevNode (fun n => { n with right := newNode })
  | 0, _, some _, _ => .error .diverge
  | fuel + 1, h, some c, _ => do
    let cn ← deref h (some c)
    if priority = cn.priority then
      let h1 ← update h newNode (fun n => { n with dup := true })
      let tl ← chainTail h1 (h1.length + 1) (some c)
      update h1 tl (fun n => { n with link := newNode })
    else if priority < cn.priority then
      enqueueLoop newNode priority fuel h cn.left (some c)
    else
      enqueueLoop newNode priority fuel h cn.right (some c)

/-- The node `enqueue` creates: `new NODE` and the seven assignments to its
fields. -/
def freshNODE (value : T) (priority : Int) : NODE T :=
  { priority := priority, value := value, dup := false, parent := none,
    link := none, left := none, right := none }

/-- The member function `enqueue(value, priority)`. -/
def enqueue (q : priorityqueue T) (value : T) (priority : Int) :
    Except Err (priorityqueue T) :=
  let newNode : Ptr := some q.heap.length
  let h : Heap T := q.heap ++ [some (freshNODE value priority)]
  if q.root = none then
    pure { q with heap := h, root := newNode, size := wrapInt (q.size + 1) }
  else do
    let h1 ← enqueueLoop newNode priority (h.length + 1) h q.root none
    pure { q with heap := h1, size := wrapInt (q.size + 1) }

/-! ## `dequeue` and `removeNode` -/

/-- The loop `while (node->left != nullptr) node = node->left;` (in `dequeue`,
`peek`, `begin`, `next` and `leftmostNode`). -/
def leftmost (h : Heap T) : Nat → Ptr → Except Err Ptr
  | 0, _ => .error .diverge
  | fuel + 1, node => do
    let n ← deref h node
    if n.left ≠ none then leftmost h fuel n.left else pure node

/-- The loop `while (successorNode->right != nullptr) successorNode = successorNode->right;`
of `removeNode`. -/
def rightmost (h : Heap T) : Nat → Ptr → Except Err Ptr
  | 0, _ => .error .diverge
  | fuel + 1, node => do
    let n ← deref h node
    if n.right ≠ none then rightmost h fuel n.right else pure node

/-- The member function `removeNode(node)`; it returns the node store and the
member `root` as it leaves them. -/
def removeNode : Nat → Heap T → Ptr → Ptr → Except Err (Heap T × Ptr)
  | 0, _, _, _ => .error .diverge
  | fuel + 1, h, root, node =>
    if node = root then do
      let n ← deref h node
      if n.right ≠ none then pure (h, n.right) else pure (h, root)
    else do
      let n ← deref h node
      if n.left = none ∧ n.right = none then
        if n.parent = none then do
          let h1 ← free h node
          pure (h1, none)
        else do
          let pn ← deref h n.parent
          let h1 ← if pn.left = node then update h n.parent (fun m => { m with left := none })
            else update h n.parent (fun m => { m with right := none })
          let h2 ← free h1 node
          pure (h2, root)
      else if n.left = none ∨ n.right = none then do
        let childNode := if n.left = none then n.right else n.left
        let h1 ← update h childNode (fun m => { m with parent := n.parent })
        let n1 ← deref h1 node
        if n1.parent = none then do
          let h2 ← free h1 node
          pure (h2, childNode)
        else do
          let pn ← deref h1 n1.parent
          let h2 ← if pn.left = node then
              update h1 n1.parent (fun m => { m with left := childNode })
            else update h1 n1.parent (fun m => { m with right := childNode })
          let h3 ← free h2 node
          pure (h3, root)
      else do
        let successorNode ← rightmost h (h.length + 1) n.left
        let sn ← deref h successorNode
        let h1 ← update h node (fun m => { m with priority := sn.priority, value := sn.value })
        removeNode fuel h1 root successorNode

/-- The statements of `dequeue()` behind its descent, `node` being the node
the descent has stopped at: the returned value and the queue after the call. -/
def dequeueAt (q : priorityqueue T) (node : Ptr) : Except Err (T × priorityqueue T) := do
  let n ← deref q.heap node
  if n.link ≠ none then
    if node = q.root then do
      let h1 ← free q.heap node
      pure (n.value, { q with heap := h1, root := n.link, size := wrapInt (q.size - 1) })
    else do
      let pn ← deref q.heap n.parent
      let h1 ← if pn.left = node then update q.heap n.parent (fun m => { m with left := n.link })
        else update q.heap n.parent (fun m => { m with right := n.link })
      let n1 ← deref h1 node
      let h2 ← update h1 n1.link (fun m => { m with parent := n1.parent })
      let n2 ← deref h2 node
      let h3 ← free h2 node
      pure (n2.value, { q with heap := h3, size := wrapInt (q.size - 1) })
  else do
    let res ← removeNode (q.heap.length + 1) q.heap q.root node
    pure (n.value, { q with heap := res.1, root := res.2, size := wrapInt (q.size - 1) })

/-- The member function `dequeue()`: the test of `root`, the descent to the
leftmost node, and the removal. -/
def dequeue (q : priorityqueue T) : Except Err (T × priorityqueue T) :=
  if q.root = none then .error .emptyQueue
  else do
    let node ← leftmost q.heap (q.heap.length + 1) q.root
    dequeueAt q node

/-! ## `toString` -/

/-- One output line `ss << priority << " value: " << value << endl`; `render`
is the stream insertion of the element type. -/
def line (render : T → String) (priority : Int) (value : T) : String :=
  toString priority ++ " value: " ++ render value ++ "\n"

/-- The chain loop of `inorderPrint`; it prints the priority of the tree node. -/
def chainPrint (render : T → String) (h : Heap T) (priority : Int) :
    Nat → Ptr → Except Err String
  | _, none => pure ""
  | 0, some _ => .error .diverge
  | fuel + 1, some c => do
    let cn ← deref h (some c)
    let rest ← chainPrint render h priority fuel cn.link
    pure (line render priority cn.value ++ rest)

/-- The member function `inorderPrint(node, ss)`; the result is the text it
appends to the stream. -/
def inorderPrint (render : T → String) (h : Heap T) : Nat → Ptr → Except Err String
  | _, none => pure ""
  | 0, some _ => .error .diverge
  | fuel + 1, some a => do
    let n ← deref h (some a)
    let l ← inorderPrint render h fuel n.left
    let c ← chainPrint render h n.priority (h.length + 1) n.link
    let r ← inorderPrint render h fuel n.right
    pure (l ++ (line render n.priority n.value ++ (c ++ r)))

/-- The member function `toString()`. -/
def toString (render : T → String) (q : priorityqueue T) : Except Err String :=
  inorderPrint render q.heap (q.heap.length + 1) q.root

/-! ## `peek` -/

/-- The member function `peek()`; there is no test of `root` before the
descent.  The queue is returned as the call leaves it. -/
def peek (q : priorityqueue T) : Except Err (T × priorityqueue T) := do
  let currNode ← leftmost q.heap (q.heap.length + 1) q.root
  let n ← deref q.heap currNode
  pure (n.value, q)

/-! ## `clear` -/

/-- The loop of `clearHelper` that deletes a duplicate chain. -/
def clearChain : Nat → Heap T → Ptr → Except Err (Heap T)
  | _, h, none => pure h
  | 0, _, some _ => .error .diverge
  | fuel + 1, h, some c => do
    let cn ← deref h (some c)
    let h1 ← free h (some c)
    clearChain fuel h1 cn.link

/-- The member function `clearHelper(node)`. -/
def clearHelper : Nat → Heap T → Ptr → Except Err (Heap T)
  | _, h, none => pure h
  | 0, _, some _ => .error .diverge
  | fuel + 1, h, some a => do
    let n ← deref h (some a)
    let h1 ← clearHelper fuel h n.left
    let n1 ← deref h1 (some a)
    let h2 ← clearHelper fuel h1 n1.right
    let n2 ← deref h2 (some a)
    let h3 ← clearChain (h2.length + 1) h2 n2.link
    free h3 (some a)

/-- The member function `clear()`. -/
def clear (q : priorityqueue T) : Except Err (priorityqueue T) := do
  let h ← clearHelper (q.heap.length + 1) q.heap q.root
  pure { heap := h, root := none, size := 0, curr := none }

/-! ## `operator=` -/

/-- The loop of `copyTree` over the duplicate chain of the other node. -/
def copyChain (oh : Heap T) : Nat → Ptr → priorityqueue T → Except Err (priorityqueue T)
  | _, none, q => pure q
  | 0, some _, _ => .error .diverge
  | fuel + 1, some c, q => do
    let cn ← deref oh (some c)
    let q1 ← enqueue q cn.value cn.priority
    copyChain oh fuel cn.link q1

/-- The member function `copyTree(otherNode)`; `oh` is the node store of the
other queue and `q` the queue being filled. -/
def copyTree (oh : Heap T) : Nat → Ptr → priorityqueue T → Except Err (priorityqueue T)
  | _, none, q => pure q
  | 0, some _, _ => .error .diverge
  | fuel + 1, some a, q => do
    let o ← deref oh (some a)
    let q1 ← enqueue q o.value o.priority
    let q2 ← if o.dup then copyChain oh (oh.length + 1) o.link q1 else pure q1
    let q3 ← copyTree oh fuel o.left q2
    copyTree oh fuel o.right q3

/-- The member function `findNode(node, priority)`. -/
def findNode (h : Heap T) (priority : Int) : Nat → Ptr → Except Err Ptr
  | _, none => pure none
  | 0, some _ => .error .diverge
  | fuel + 1, some a => do
    let n ← deref h (some a)
    if n.priority = priority then pure (some a)
    else if priority < n.priority then findNode h priority fuel n.left
    else findNode h priority fuel n.right

/-- The assignment `this = other` for two different objects (on
`this == &other` the operator does nothing). -/
def assign (this other : priorityqueue T) : Except Err (priorityqueue T) := do
  let q0 ← clear this
  let q1 ← copyTree other.heap (other.heap.length + 1) other.root q0
  let q2 : priorityqueue T := { q1 with size := other.size }
  if other.curr ≠ none then do
    let cn ← deref other.heap other.curr
    let c ← findNode q2.heap cn.priority (q2.heap.length + 1) q2.root
    pure { q2 with curr := c }
  else
    pure { q2 with curr := none }

/-! ## `begin` and `next` -/

/-- The member function `begin()`. -/
def begin (q : priorityqueue T) : Except Err (priorityqueue T) :=
  if q.root = none then pure { q with curr := none }
  else do
    let c ← leftmost q.heap (q.heap.length + 1) q.root
    pure { q with curr := c }

/-- The loop of `next` that walks up:
`while (parentNode != nullptr && curr == parentNode->right)` with the body
`curr = parentNode; parentNode = parentNode->parent;`.  It returns the member
`curr` and the local `parentNode` as the loop leaves them. -/
def nextClimb (h : Heap T) : Nat → Ptr → Ptr → Except Err (Ptr × Ptr)
  | 0, _, _ => .error .diverge
  | fuel + 1, curr, parentNode =>
    if parentNode ≠ none then do
      let pn ← deref h parentNode
      if curr = pn.right then nextClimb h fuel parentNode pn.parent
      else pure (curr, parentNode)
    else pure (curr, parentNode)

/-- The part of `next` that finds `nextNode` for a cursor that is not null: the
member `curr` and the local `nextNode` behind the `if`/`else` of the source. -/
def nextTarget (h : Heap T) (curr : Ptr) : Except Err (Ptr × Ptr) := do
  let cn ← deref h curr
  if cn.right ≠ none then do
    let nextNode ← leftmost h (h.length + 1) cn.right
    pure (curr, nextNode)
  else
    nextClimb h (h.length + 1) curr cn.parent

/-- The member function `next(value, priority)`: `some (value, priority)` when
it returns true with these outputs written, `none` when it returns false and
writes nothing; and the queue after the call. -/
def next (q : priorityqueue T) : Except Err (Option (T × Int) × priorityqueue T) :=
  if q.root = none then pure (none, q)
  else if q.curr = none then do
    let c ← leftmost q.heap (q.heap.length + 1) q.root
    let cn ← deref q.heap c
    pure (some (cn.value, cn.priority), { q with curr := c })
  else do
    let r ← nextTarget q.heap q.curr
    if r.2 = none then pure (none, { q with curr := r.1 })
    else do
      let cn ← deref q.heap r.2
      pure (some (cn.value, cn.priority), { q with curr := r.2 })

/-! ## `operator==` -/

/-- The loop of `operator==` over two duplicate chains with the test behind
it: `false` when the operator returns false there, `true` when it goes on.
The values are compared with `neq`, the `operator!=` of the element type `T`
that the source calls; nothing is assumed about it. -/
def linkCompare (neq : T → T → Bool) (th oh : Heap T) : Nat → Ptr → Ptr → Except Err Bool
  | 0, thisLink, otherLink =>
    if thisLink ≠ none ∧ otherLink ≠ none then .error .diverge
    else pure (decide (thisLink = none ∧ otherLink = none))
  | fuel + 1, thisLink, otherLink =>
    if thisLink ≠ none ∧ otherLink ≠ none then do
      let tn ← deref th thisLink
      let o ← deref oh otherLink
      if tn.priority ≠ o.priority then pure false
      else if neq tn.value o.value then pure false
      else linkCompare neq th oh fuel tn.link o.link
    else pure (decide (thisLink = none ∧ otherLink = none))

/-- The comparison of the duplicate chains of two nodes in `operator==`, or of
their `dup` flags when one of them has no chain: `false` when the operator
returns false there. -/
def chainCheck (neq : T → T → Bool) (th oh : Heap T) (tn o : NODE T) : Except Err Bool :=
  if tn.link ≠ none ∧ o.link ≠ none then linkCompare neq th oh (th.length + 1) tn.link o.link
  else pure (decide (tn.dup = o.dup))

/-- The loop of `operator==` that walks up:
`while (thisPtr->parent != nullptr && thisPtr == thisPtr->parent->right)` with
the body `thisPtr = thisPtr->parent; otherPtr = otherPtr->parent;`. -/
def climb (th oh : Heap T) : Nat → Ptr → Ptr → Except Err (Ptr × Ptr)
  | 0, _, _ => .error .diverge
  | fuel + 1, thisPtr, otherPtr => do
    let tn ← deref th thisPtr
    if tn.parent ≠ none then do
      let pn ← deref th tn.parent
      if thisPtr = pn.right then do
        let o ← deref oh otherPtr
        climb th oh fuel tn.parent o.parent
      else pure (thisPtr, otherPtr)
    else pure (thisPtr, otherPtr)

/-- The move of `operator==` from a pair of nodes to the next pair, behind the
comparison of the two nodes: `none` when the operator returns false there. -/
def advance (th oh : Heap T) (thisPtr otherPtr : Ptr) (tn o : NODE T) :
    Except Err (Option (Ptr × Ptr)) :=
  if tn.right ≠ none ∧ o.right ≠ none then do
    let t1 ← leftmost th (th.length + 1) tn.right
    let o1 ← leftmost oh (oh.length + 1) o.right
    pure (some (t1, o1))
  else if tn.right ≠ none ∨ o.right ≠ none then pure none
  else do
    let r ← climb th oh (th.length + 1) thisPtr otherPtr
    let t1 ← deref th r.1
    let o1 ← deref oh r.2
    pure (some (t1.parent, o1.parent))

/-- The main loop of `operator==` with the test behind it.  The test
`thisPtr->value != otherPtr->value` calls `neq`, the `operator!=` of the
element type `T`. -/
def eqWalk (neq : T → T → Bool) (th oh : Heap T) : Nat → Ptr → Ptr → Except Err Bool
  | 0, thisPtr, otherPtr =>
    if thisPtr ≠ none ∧ otherPtr ≠ none then .error .diverge
    else pure (decide (thisPtr = none ∧ otherPtr = none))
  | fuel + 1, thisPtr, otherPtr =>
    if thisPtr ≠ none ∧ otherPtr ≠ none then do
      let tn ← deref th thisPtr
      let o ← deref oh otherPtr
      if tn.priority ≠ o.priority then pure false
      else if neq tn.value o.value then pure false
      else do
        let same ← chainCheck neq th oh tn o
        if same = false then pure false
        else do
          let r ← advance th oh thisPtr otherPtr tn o
          match r with
          | none => pure false
          | some pq => eqWalk neq th oh fuel pq.1 pq.2
    else pure (decide (thisPtr = none ∧ otherPtr = none))

/-- The member function `operator==`, `this == other`, for an element type
whose `operator!=` is `neq`.  The budget of the main loop is the number of
pairs of cells of the two node stores: the loop has no other state than its
two pointers. -/
def equals (neq : T → T → Bool) (this other : priorityqueue T) : Except Err Bool :=
  if this.size ≠ other.size then pure false
  else eqWalk neq this.heap other.heap ((this.heap.length + 1) * (other.heap.length + 1))
    this.root other.root

/-- An element type in which a value is unequal to itself, as `double` is:
whole numbers and the value NaN. -/
inductive Flt where
  | nan
  | num (x : Int)
  deriving DecidableEq, Repr

/-- The `operator!=` of `Flt`, as the one of `double`: NaN differs from every
value, itself included. -/
def Flt.neq : Flt → Flt → Bool
  | .num x, .num y => decide (x ≠ y)
  | _, _ => true

/-! ## Counting nodes -/

/-- The number of nodes of the chain that starts at `p`. -/
def chainCount (h : Heap T) : Nat → Ptr → Except Err Nat
  | _, none => pure 0
  | 0, some _ => .error .diverge
  | fuel + 1, some c => do
    let cn ← deref h (some c)
    let k ← chainCount h fuel cn.link
    pure (k + 1)

/-- The number of nodes reachable from `p` over `left`, `right` and `link`:
the tree nodes below `p` and the members of their duplicate chains. -/
def nodeCount (h : Heap T) : Nat → Ptr → Except Err Nat
  | _, none => pure 0
  | 0, some _ => .error .diverge
  | fuel + 1, some a => do
    let n ← deref h (some a)
    let l ← nodeCount h fuel n.left
    let c ← chainCount h (h.length + 1) n.link
    let r ← nodeCount h fuel n.right
    pure (l + 1 + c + r)

/-! ## Runs of calls -/

/-- A run of `enqueue` calls, the entries given as `(value, priority)` in
call order. -/
def enqueueAll : priorityqueue T → List (T × Int) → Except Err (priorityqueue T)
  | q, [] => pure q
  | q, e :: es => do
    let q1 ← enqueue q e.1 e.2
    enqueueAll q1 es

/-- The queue after a run of `enqueue` calls on a new queue. -/
def build (es : List (T × Int)) : Except Err (priorityqueue T) :=
  enqueueAll new es

/-- A run of `n` successive `dequeue` calls: the values in the order returned
and the queue after the last call. -/
def dequeueN : Nat → priorityqueue T → Except Err (List T × priorityqueue T)
  | 0, q => pure ([], q)
  | n + 1, q => do
    let r ← dequeue q
    let rs ← dequeueN n r.2
    pure (r.1 :: rs.1, rs.2)

/-- The loop `while (pq.next(value, priority))` of the usage example of `next`:
the successive calls of `next` up to the first one that returns false, with the
outputs `(value, priority)` of the calls that returned true, in call order, and
the queue after the call that returned false. -/
def nextRun : Nat → priorityqueue T → Except Err (List (T × Int) × priorityqueue T)
  | 0, _ => .error .diverge
  | fuel + 1, q => do
    let r ← next q
    match r.1 with
    | none => pure ([], r.2)
    | some e => do
      let rs ← nextRun fuel r.2
      pure (e :: rs.1, rs.2)

/-! ## Abstract view of the node store

The tree a queue owns, read off the node store: every tree node with its
address, its fields and its duplicate chain.  The view is used to state what
the pointer code does; the operations above never look at it. -/

/-- A tree of nodes with their addresses: `node a l p v d c r` is the node at
address `a` with priority `p`, value `v`, flag `dup = d`, duplicate chain `c`
(address and value of each member, in chain order) and subtrees `l`, `r`. -/
inductive ATree (T : Type) where
  | nil : ATree T
  | node (a : Nat) (l : ATree T) (p : Int) (v : T) (d : Bool) (c : List (Nat × T))
      (r : ATree T) : ATree T

/-- The pointer to the root node of a tree. -/
def ATree.ptr : ATree T → Ptr
  | .nil => none
  | .node a _ _ _ _ _ _ => some a

/-- The pointer to the first member of a chain. -/
def chainPtr : List (Nat × T) → Ptr
  | [] => none
  | e :: _ => some e.1

/-- The address of the last node of the chain `c` that starts at the node `a`. -/
def lastAddr (a : Nat) : List (Nat × T) → Nat
  | [] => a
  | e :: c => lastAddr e.1 c

/-- The addresses of all nodes of a tree, chain members included. -/
def ATree.addrs : ATree T → List Nat
  | .nil => []
  | .node a l _ _ _ c r => a :: (c.map Prod.fst ++ (l.addrs ++ r.addrs))

/-- The number of nodes on the longest path from the root. -/
def ATree.height : ATree T → Nat
  | .nil => 0
  | .node _ l _ _ _ _ r => max l.height r.height + 1

/-- The node store holds the chain `c` of a node of priority `p`: each member
carries that priority, `dup = true`, no parent and no children, and links to
the next member. -/
def ChainR (h : Heap T) (p : Int) : List (Nat × T) → Prop
  | [] => True
  | e :: c =>
    h[e.1]? = some (some
      { priority := p, value := e.2, dup := true, parent := none,
        link := chainPtr c, left := none, right := none }) ∧ ChainR h p c

/-- The node store holds the tree `t` below a node whose `parent` field is
`par`: every node is alive at its address with exactly the fields of the view. -/
def Realizes (h : Heap T) : Ptr → ATree T → Prop
  | _, .nil => True
  | par, .node a l p v d c r =>
    h[a]? = some (some
      { priority := p, value := v, dup := d, parent := par,
        link := chainPtr c, left := l.ptr, right := r.ptr }) ∧
    ChainR h p c ∧ Realizes h (some a) l ∧ Realizes h (some a) r

/-- The priorities at the tree positions. -/
def ATree.prios : ATree T → List Int
  | .nil => []
  | .node _ l p _ _ _ r => l.prios ++ p :: r.prios

/-- The search-tree ordering: left subtree strictly smaller, right subtree
strictly greater, at every node. -/
def ATree.BST : ATree T → Prop
  | .nil => True
  | .node _ l p _ _ _ r =>
    (∀ x ∈ l.prios, x < p) ∧ (∀ x ∈ r.prios, p < x) ∧ l.BST ∧ r.BST

/-- The stored entries `(value, priority)` in the order of the in-order walk:
left subtree, the node, its chain, right subtree. -/
def ATree.entries : ATree T → List (T × Int)
  | .nil => []
  | .node _ l p v _ c r =>
    l.entries ++ ((v, p) :: (c.map (fun e => (e.2, p)) ++ r.entries))

/-- The tree after `enqueue(value, priority)` has put its node at address `a`. -/
def ATree.ins (a : Nat) (value : T) (priority : Int) : ATree T → ATree T
  | .nil => .node a .nil priority value false [] .nil
  | .node b l p v d c r =>
    if priority = p then .node b l p v d (c ++ [(a, value)]) r
    else if priority < p then .node b (ATree.ins a value priority l) p v d c r
    else .node b l p v d c (ATree.ins a value priority r)

/-- The tree after a run of `enqueue` calls whose nodes take the addresses
`n`, `n + 1`, ... -/
def ATree.insAll : Nat → ATree T → List (T × Int) → ATree T
  | _, t, [] => t
  | n, t, e :: es => ATree.insAll (n + 1) (ATree.ins n e.1 e.2 t) es

/-- The address of the leftmost node. -/
def ATree.minAddr : ATree T → Ptr
  | .nil => none
  | .node a .nil _ _ _ _ _ => some a
  | .node _ l _ _ _ _ _ => l.minAddr

/-- The value of the leftmost node. -/
def ATree.minVal : ATree T → Option T
  | .nil => none
  | .node _ .nil _ v _ _ _ => some v
  | .node _ l _ _ _ _ _ => l.minVal

/-- What `dequeue` leaves of a subtree that hangs below a parent: the leftmost
node gives way to the head of its chain, which has no children, or, without a
chain, to its right subtree. -/
def ATree.cutMin : ATree T → ATree T
  | .nil => .nil
  | .node _ .nil _ _ _ [] r => r
  | .node _ .nil p _ _ (e :: c) _ => .node e.1 .nil p e.2 true c .nil
  | .node a l p v d c r => .node a l.cutMin p v d c r

/-- What `dequeue` leaves of the whole tree: as `cutMin`, except that a root
without left child, chain and right child stays where it is. -/
def ATree.deq : ATree T → ATree T
  | .nil => .nil
  | .node a .nil p v d [] .nil => .node a .nil p v d [] .nil
  | t => t.cutMin

/-- The text `toString` gives for a list of entries. -/
def renderEntries (render : T → String) : List (T × Int) → String
  | [] => ""
  | e :: es => line render e.2 e.1 ++ renderEntries render es

/-- An entry put into a list ordered by priority: behind every entry whose
priority is not greater than its own. -/
def insertEntry (e : T × Int) : List (T × Int) → List (T × Int)
  | [] => [e]
  | x :: xs => if e.2 < x.2 then e :: x :: xs else x :: insertEntry e xs

/-- The entries `(value, priority)` of a run of `enqueue` calls in ascending
priority and, within one priority, in call order. -/
def sortedEntries (es : List (T × Int)) : List (T × Int) :=
  es.foldl (fun acc e => insertEntry e acc) []

/-- The entry of smallest priority of a run of `enqueue` calls and, among
several of that priority, the one enqueued first. -/
def firstMin (es : List (T × Int)) : Option (T × Int) :=
  es.find? (fun e => es.all (fun x => decide (e.2 ≤ x.2)))

/-- The queue owns a well-formed tree: the node store holds some tree at
`root`, no address occurs twice in it, and the cursor is null. -/
def WF (q : priorityqueue T) : Prop :=
  ∃ (par : Ptr) (t : ATree T),
    Realizes q.heap par t ∧ t.addrs.Nodup ∧ q.root = t.ptr ∧ q.curr = none

/-- The tree positions alone: the tree with every duplicate chain left out. -/
def ATree.skeleton : ATree T → ATree T
  | .nil => .nil
  | .node a l p v d _ r => .node a l.skeleton p v d [] r.skeleton

/-- The duplicate chain of the tree node of priority `p`, found by the search
of `enqueue` and `findNode`; empty when the search finds no such node. -/
def ATree.chainOf (p : Int) : ATree T → List (Nat × T)
  | .nil => []
  | .node _ l pr _ _ c r =>
    if p = pr then c else if p < pr then ATree.chainOf p l else ATree.chainOf p r

/-- The duplicate chain of the leftmost node. -/
def ATree.minChain : ATree T → List (Nat × T)
  | .nil => []
  | .node _ .nil _ _ _ c _ => c
  | .node _ l _ _ _ _ _ => l.minChain

/-- The tree without its leftmost node, as the removal of a node with at most
one child asks for: a leaf is detached, a node with a right child gives its
place to that child; every other node stays where it is. -/
def ATree.dropMin : ATree T → ATree T
  | .nil => .nil
  | .node _ .nil _ _ _ _ r => r
  | .node a l p v d c r => .node a l.dropMin p v d c r

/-- A step from a node to its left or to its right child. -/
inductive Dir where
  | L
  | R
  deriving DecidableEq, Repr

/-- The left or the right subtree of a tree. -/
def ATree.child : Dir → ATree T → ATree T
  | _, .nil => .nil
  | .L, .node _ l _ _ _ _ _ => l
  | .R, .node _ _ _ _ _ _ r => r

/-- The subtree at a position.  A position is the list of the steps that lead
from the root to a node, the last step first: the parent of the position
`d :: c` is the position `c`. -/
def ATree.sub (t : ATree T) : List Dir → ATree T
  | [] => t
  | d :: c => (ATree.sub t c).child d

/-- The position of the leftmost node of a subtree that stands at position `c`. -/
def ATree.lmPos : ATree T → List Dir → List Dir
  | .nil, c => c
  | .node _ .nil _ _ _ _ _, c => c
  | .node _ l _ _ _ _ _, c => l.lmPos (.L :: c)

/-- The number of tree nodes. -/
def ATree.size : ATree T → Nat
  | .nil => 0
  | .node _ l _ _ _ _ r => l.size + 1 + r.size

/-- The number of steps to the right at the head of a position: the number of
times the walking-up loop of `operator==` runs from there. -/
def rightRun : List Dir → Nat
  | .R :: c => rightRun c + 1
  | _ => 0

/-- The position of the parent, none at the root. -/
def parentPos : List Dir → Option (List Dir)
  | [] => none
  | _ :: c => some c

/-- The pointer to the node at a position, null for no position. -/
def ATree.ptrAt (t : ATree T) : Option (List Dir) → Ptr
  | none => none
  | some c => (t.sub c).ptr

/-- The `parent` field of the node at a position, in a tree whose root has the
parent field `par`. -/
def ATree.parAt (t : ATree T) (par : Ptr) : List Dir → Ptr
  | [] => par
  | _ :: c => (t.sub c).ptr

/-- The comparison of the values of two duplicate chains in `operator==`:
true when the chains have the same length and `neq` is false on every pair. -/
def chainSame (neq : T → T → Bool) : List T → List T → Bool
  | [], [] => true
  | x :: xs, y :: ys => !(neq x y) && chainSame neq xs ys
  | _, _ => false

/-- The tests `operator==` makes on a pair of nodes before it moves on:
priority, value, and the duplicate chains when both nodes have one, else the
`dup` flags. -/
def sameNode (neq : T → T → Bool) : ATree T → ATree T → Bool
  | .node _ _ p v d c _, .node _ _ p' v' d' c' _ =>
    decide (p = p') && (!(neq v v') &&
      (if chainPtr c ≠ none ∧ chainPtr c' ≠ none then
        chainSame neq (c.map Prod.snd) (c'.map Prod.snd)
      else decide (d = d')))
  | _, _ => false

/-- The move of `operator==` from the pair of nodes at the positions `c` and
`cb`: none when it returns false, else the next pair of positions. -/
def move (ta tb : ATree T) (c cb : List Dir) :
    Option (Option (List Dir) × Option (List Dir)) :=
  if (ta.sub (.R :: c)).ptr ≠ none ∧ (tb.sub (.R :: cb)).ptr ≠ none then
    some (some ((ta.sub (.R :: c)).lmPos (.R :: c)), some ((tb.sub (.R :: cb)).lmPos (.R :: cb)))
  else if (ta.sub (.R :: c)).ptr ≠ none ∨ (tb.sub (.R :: cb)).ptr ≠ none then none
  else some (parentPos (c.drop (rightRun c)), parentPos (cb.drop (rightRun c)))

/-- The number of tree nodes that follow the position `c` in the in-order
walk from above: for every step to the left on the way to `c`, the node the
step starts from and its right subtree. -/
def ATree.above (t : ATree T) : List Dir → Nat
  | [] => 0
  | .L :: c => (t.sub (.R :: c)).size + 1 + ATree.above t c
  | .R :: c => ATree.above t c

/-- The number of tree nodes that follow the node at position `c` in the
in-order walk. -/
def ATree.after (t : ATree T) (c : List Dir) : Nat :=
  (t.sub (.R :: c)).size + t.above c

/-- The tree without its addresses: shape, priorities, values, flags and the
values of the chains. -/
def ATree.anon : ATree T → ATree T
  | .nil => .nil
  | .node _ l p v d c r => .node 0 l.anon p v d (c.map (fun e => (0, e.2))) r.anon

/-- The entry `(value, priority)` of the root node, as a list: empty for the
empty tree. -/
def ATree.here : ATree T → List (T × Int)
  | .nil => []
  | .node _ _ p v _ _ _ => [(v, p)]

/-- The entries `(value, priority)` of the tree nodes, without the duplicate
chains, in the order of the in-order walk. -/
def ATree.nodes : ATree T → List (T × Int)
  | .nil => []
  | .node _ l p v _ _ r => l.nodes ++ (v, p) :: r.nodes

/-- The entries of the tree nodes that follow the subtree at position `c` in
the in-order walk. -/
def ATree.restAbove (t : ATree T) : List Dir → List (T × Int)
  | [] => []
  | .L :: c => (t.sub c).here ++ (t.sub (.R :: c)).nodes ++ ATree.restAbove t c
  | .R :: c => ATree.restAbove t c

/-- The entries of the tree nodes that follow the node at position `c` in the
in-order walk. -/
def ATree.rest (t : ATree T) (c : List Dir) : List (T × Int) :=
  (t.sub (.R :: c)).nodes ++ t.restAbove c

/-- The entries `(value, priority)` of the tree nodes in the order in which
`copyTree` visits them: the node, its left subtree, its right subtree. -/
def ATree.pre : ATree T → List (T × Int)
  | .nil => []
  | .node _ l p v _ _ r => (v, p) :: (l.pre ++ r.pre)

/-- No tree node has a duplicate chain, and the `dup` flag of every tree node
is false. -/
def ATree.plain : ATree T → Prop
  | .nil => True
  | .node _ l _ _ d c r => d = false ∧ c = [] ∧ l.plain ∧ r.plain

/-- The queue owns a well-formed tree in which the search-tree ordering holds
at every node. -/
def Ordered (q : priorityqueue T) : Prop :=
  ∃ (par : Ptr) (t : ATree T),
    Realizes q.heap par t ∧ t.addrs.Nodup ∧ q.root = t.ptr ∧ q.curr = none ∧ t.BST

/-- The queue after `enqueue("a", 1)`, `enqueue("b", 0)`, `enqueue("c", -1)` and
one `dequeue()` on a new queue, with the cells of its node store. -/
def exampleQueue : priorityqueue String :=
  { heap := [some { priority := 1, value := "a", dup := false, parent := none, link := none,
                    left := some 1, right := none },
             some { priority := 0, value := "b", dup := false, parent := some 0, link := none,
                    left := none, right := none },
             none],
    root := some 0, size := 2, curr := none }

/-- The queue that holds one node, the root, with value `a` and priority 1 and
without children and chain, and whose `size` is `s`: for `s = 1` the queue
after `enqueue("a", 1)` on a new queue. -/
def loneRoot (s : Int) : priorityqueue String :=
  { heap := [some (freshNODE "a" 1)], root := some 0, size := s, curr := none }

/-- The calls of a run of `enqueue` and `dequeue` calls. -/
inductive Op (T : Type) where
  | enq (value : T) (priority : Int)
  | deq

/-- One call of a run. -/
def step (q : priorityqueue T) : Op T → Except Err (priorityqueue T)
  | .enq v p => enqueue q v p
  | .deq => do
    let r ← dequeue q
    pure r.2

/-- A run of calls, from left to right; the run ends with the first call that
does not return normally, so it ends with `emptyQueue` exactly when one of its
`dequeue` calls throws. -/
def run : priorityqueue T → List (Op T) → Except Err (priorityqueue T)
  | q, [] => pure q
  | q, o :: os => do
    let q1 ← step q o
    run q1 os

/-- The queues a program can reach from a new queue with calls of `enqueue`,
`dequeue`, `clear` and assignments from queues reached the same way. -/
inductive Reachable : priorityqueue T → Prop where
  | new : Reachable new
  | enqueue {q q' : priorityqueue T} (v : T) (p : Int) :
      Reachable q → enqueue q v p = .ok q' → Reachable q'
  | dequeue {q q' : priorityqueue T} {v : T} :
      Reachable q → dequeue q = .ok (v, q') → Reachable q'
  | clear {q q' : priorityqueue T} : Reachable q → clear q = .ok q' → Reachable q'
  | assign {q o q' : priorityqueue T} :
      Reachable q → Reachable o → assign q o = .ok q' → Reachable q'

/-- The number of `enqueue` calls of a run. -/
def countEnq : List (Op T) → Int
  | [] => 0
  | .enq _ _ :: os => countEnq os + 1
  | _ :: os => countEnq os

/-- The number of `dequeue` calls of a run. -/
def countDeq : List (Op T) → Int
  | [] => 0
  | .deq :: os => countDeq os + 1
  | _ :: os => countDeq os

/-! ## The node store: reading and writing -/

theorem deref_of {h : Heap T} {a : Nat} {n : NODE T} (e : h[a]? = some (some n)) :
    deref h (some a) = .ok n := by
  simp [deref, e]

theorem update_of {h : Heap T} {a : Nat} {n : NODE T} (e : h[a]? = some (some n))
    (f : NODE T → NODE T) : update h (some a) f = .ok (h.set a (some (f n))) := by
  simp [update, e]

theorem free_of {h : Heap T} {a : Nat} {n : NODE T} (e : h[a]? = some (some n)) :
    free h (some a) = .ok (h.set a none) := by
  simp [free, e]

theorem lt_of_get {h : Heap T} {a : Nat} {x : Option (NODE T)} (e : h[a]? = some x) :
    a < h.length := by
  rcases List.getElem?_eq_some_iff.mp e with ⟨hlt, _⟩
  exact hlt

theorem get_set_same {h : Heap T} {a : Nat} {x y : Option (NODE T)} (e : h[a]? = some x) :
    (h.set a y)[a]? = some y := by
  simp [lt_of_get e]

theorem get_set_ne {h : Heap T} {a b : Nat} (y : Option (NODE T)) (ne : a ≠ b) :
    (h.set a y)[b]? = h[b]? := by
  simp [ne]

/-! ## The abstract view: frame properties -/

theorem ChainR.frame {h h' : Heap T} {p : Int} {c : List (Nat × T)}
    (same : ∀ b ∈ c.map Prod.fst, h'[b]? = h[b]?) (R : ChainR h p c) : ChainR h' p c := by
  induction c with
  | nil => trivial
  | cons e c ih =>
    obtain ⟨R1, R2⟩ := R
    refine ⟨?_, ih (fun b hb => same b (by simp at hb ⊢; exact Or.inr hb)) R2⟩
    rw [same e.1 (by simp)]
    exact R1

theorem Realizes.congr {h h' : Heap T} {t : ATree T} :
    ∀ {par : Ptr}, (∀ b ∈ t.addrs, h'[b]? = h[b]?) → Realizes h par t → Realizes h' par t := by
  induction t with
  | nil => intro _ _ _; trivial
  | node a l p v d c r ihl ihr =>
    intro par same R
    obtain ⟨R1, R2, R3, R4⟩ := R
    refine ⟨?_, ?_, ?_, ?_⟩
    · rw [same a (by simp [ATree.addrs])]
      exact R1
    · exact R2.frame (fun b hb => same b (by simp [ATree.addrs] at hb ⊢; exact Or.inr (Or.inl hb)))
    · exact ihl (fun b hb => same b (by simp [ATree.addrs]; exact Or.inr (Or.inr (Or.inl hb)))) R3
    · exact ihr (fun b hb => same b (by simp [ATree.addrs]; exact Or.inr (Or.inr (Or.inr hb)))) R4

theorem ChainR.live {h : Heap T} {p : Int} {c : List (Nat × T)} (R : ChainR h p c) :
    ∀ b ∈ c.map Prod.fst, b < h.length := by
  induction c with
  | nil => intro b hb; simp at hb
  | cons e c ih =>
    intro b hb
    obtain ⟨R1, R2⟩ := R
    simp only [List.map_cons, List.mem_cons] at hb
    rcases hb with rfl | hb
    · exact lt_of_get R1
    · exact ih R2 b hb

theorem Realizes.addr_lt {h : Heap T} {t : ATree T} :
    ∀ {par : Ptr}, Realizes h par t → ∀ b ∈ t.addrs, b < h.length := by
  induction t with
  | nil => intro _ _ b hb; simp [ATree.addrs] at hb
  | node a l p v d c r ihl ihr =>
    intro par R b hb
    obtain ⟨R1, R2, R3, R4⟩ := R
    simp only [ATree.addrs, List.mem_cons, List.mem_append] at hb
    rcases hb with rfl | hb | hb | hb
    · exact lt_of_get R1
    · exact R2.live b hb
    · exact ihl R3 b hb
    · exact ihr R4 b hb

theorem length_le_of_nodup_lt {L : List Nat} {n : Nat} (nd : L.Nodup) (lt : ∀ b ∈ L, b < n) :
    L.length ≤ n := by
  have sub : L ⊆ List.range n := fun b hb => List.mem_range.mpr (lt b hb)
  have := (List.subperm_of_subset nd sub).length_le
  simpa using this

theorem ATree.height_le_addrs (t : ATree T) : t.height ≤ t.addrs.length := by
  induction t with
  | nil => simp [ATree.height, ATree.addrs]
  | node a l p v d c r ihl ihr =>
    simp only [ATree.height, ATree.addrs, List.length_cons, List.length_append, List.length_map]
    omega

theorem Realizes.height_le {h : Heap T} {t : ATree T} {par : Ptr} (R : Realizes h par t)
    (nd : t.addrs.Nodup) : t.height ≤ h.length :=
  le_trans t.height_le_addrs (length_le_of_nodup_lt nd R.addr_lt)

/-! ## `enqueue` on the abstract view -/

theorem lastAddr_mem (c : List (Nat × T)) : ∀ a, lastAddr a c ∈ a :: c.map Prod.fst := by
  induction c with
  | nil => intro a; simp [lastAddr]
  | cons e c ih =>
    intro a
    have := ih e.1
    simp only [lastAddr, List.map_cons, List.mem_cons] at this ⊢
    exact Or.inr this

theorem chainTail_spec {h : Heap T} {p : Int} :
    ∀ (c : List (Nat × T)) (a : Nat) (n : NODE T) (fuel : Nat),
      h[a]? = some (some n) → n.link = chainPtr c → ChainR h p c → c.length < fuel →
      chainTail h fuel (some a) = .ok (some (lastAddr a c)) := by
  intro c
  induction c with
  | nil =>
    intro a n fuel ha hl _ hf
    obtain ⟨f, rfl⟩ : ∃ f, fuel = f + 1 := ⟨fuel - 1, by simp at hf; omega⟩
    simp [chainTail, deref_of ha, hl, chainPtr, lastAddr, bind, Except.bind, pure, Except.pure]
  | cons e c ih =>
    intro a n fuel ha hl R hf
    obtain ⟨f, rfl⟩ : ∃ f, fuel = f + 1 := ⟨fuel - 1, by simp at hf; omega⟩
    obtain ⟨R1, R2⟩ := R
    have := ih e.1 _ f R1 rfl R2 (by simp at hf; omega)
    simp [chainTail, deref_of ha, hl, chainPtr, lastAddr, bind, Except.bind, this]

theorem chain_append {h : Heap T} {p : Int} (new : Nat) (val : T) :
    ∀ (c : List (Nat × T)) (a : Nat) (n : NODE T),
      h[a]? = some (some n) → n.link = chainPtr c → ChainR h p c →
      (new :: a :: c.map Prod.fst).Nodup →
      h[new]? = some (some
        { priority := p, value := val, dup := true, parent := none,
          link := none, left := none, right := none }) →
      ∃ tn, h[lastAddr a c]? = some (some tn) ∧
        (h.set (lastAddr a c) (some { tn with link := some new }))[a]? =
          some (some { n with link := chainPtr (c ++ [(new, val)]) }) ∧
        ChainR (h.set (lastAddr a c) (some { tn with link := some new })) p
          (c ++ [(new, val)]) := by
  intro c
  induction c with
  | nil =>
    intro a n ha _ _ nd hnew
    have hne : a ≠ new := by
      intro e; subst e; simp at nd
    refine ⟨n, ha, ?_, ?_⟩
    · simp [lastAddr, chainPtr, lt_of_get ha]
    · simp only [lastAddr, List.nil_append, ChainR, chainPtr, and_true]
      rw [get_set_ne _ hne]
      exact hnew
  | cons e c ih =>
    intro a n ha hl R nd hnew
    obtain ⟨R1, R2⟩ := R
    have nd' : (new :: e.1 :: c.map Prod.fst).Nodup := by
      simp only [List.map_cons, List.nodup_cons, List.mem_cons, not_or] at nd ⊢
      tauto
    obtain ⟨tn, h1, h2, h3⟩ := ih e.1 _ R1 rfl R2 nd' hnew
    have hmem := lastAddr_mem c e.1
    have hne : lastAddr e.1 c ≠ a := by
      intro e'
      rw [e'] at hmem
      simp only [List.map_cons, List.nodup_cons, List.mem_cons, not_or] at nd hmem
      tauto
    refine ⟨tn, h1, ?_, ?_⟩
    · simp only [lastAddr]
      rw [get_set_ne _ hne, ha]
      have : chainPtr ((e :: c) ++ [(new, val)]) = n.link := by
        rw [hl]; rfl
      rw [this]
    · exact ⟨h2, h3⟩

theorem ATree.ins_ptr (new : Nat) (val : T) (pr : Int) (t : ATree T) (ne : t ≠ .nil) :
    (t.ins new val pr).ptr = t.ptr := by
  cases t with
  | nil => exact absurd rfl ne
  | node a l p v d c r =>
    simp only [ATree.ins]
    split_ifs <;> rfl

theorem Realizes.mk {h : Heap T} {par : Ptr} {a : Nat} {l r : ATree T} {p : Int} {v : T}
    {d : Bool} {c : List (Nat × T)}
    (Ra : h[a]? = some (some
      { priority := p, value := v, dup := d, parent := par,
        link := chainPtr c, left := l.ptr, right := r.ptr }))
    (Rc : ChainR h p c) (Rl : Realizes h (some a) l) (Rr : Realizes h (some a) r) :
    Realizes h par (.node a l p v d c r) :=
  ⟨Ra, Rc, Rl, Rr⟩

theorem ATree.ins_eq (new : Nat) (val : T) (a : Nat) (l r : ATree T) (p : Int) (v : T)
    (d : Bool) (c : List (Nat × T)) :
    (ATree.node a l p v d c r).ins new val p = .node a l p v d (c ++ [(new, val)]) r := by
  simp [ATree.ins]

theorem ATree.ins_lt (new : Nat) (val : T) {pr : Int} (a : Nat) (l r : ATree T) {p : Int}
    (v : T) (d : Bool) (c : List (Nat × T)) (lt : pr < p) :
    (ATree.node a l p v d c r).ins new val pr = .node a (l.ins new val pr) p v d c r := by
  simp [ATree.ins, lt, ne_of_lt lt]

theorem ATree.ins_gt (new : Nat) (val : T) {pr : Int} (a : Nat) (l r : ATree T) {p : Int}
    (v : T) (d : Bool) (c : List (Nat × T)) (ne : pr ≠ p) (nlt : ¬ pr < p) :
    (ATree.node a l p v d c r).ins new val pr = .node a l p v d c (r.ins new val pr) := by
  simp [ATree.ins, ne, nlt]

theorem ATree.mem_addrs_node {b a : Nat} {l r : ATree T} {p : Int} {v : T} {d : Bool}
    {c : List (Nat × T)} :
    b ∈ (ATree.node a l p v d c r).addrs ↔
      b = a ∨ b ∈ c.map Prod.fst ∨ b ∈ l.addrs ∨ b ∈ r.addrs := by
  simp [ATree.addrs]

theorem enqueueLoop_spec (new : Nat) (val : T) (pr : Int) :
    ∀ (t : ATree T) (h : Heap T) (par prev : Ptr) (fuel : Nat),
      t ≠ .nil → Realizes h par t → (new :: t.addrs).Nodup →
      h[new]? = some (some
        { priority := pr, value := val, dup := false, parent := none,
          link := none, left := none, right := none }) →
      t.height ≤ fuel →
      ∃ h', enqueueLoop (some new) pr fuel h t.ptr prev = .ok h' ∧
        Realizes h' par (t.ins new val pr) ∧ h'.length = h.length ∧
        (∀ b, b ∉ new :: t.addrs → h'[b]? = h[b]?) := by
  intro t
  induction t with
  | nil => intro h par prev fuel ne; exact absurd rfl ne
  | node a l p v d c r ihl ihr =>
    intro h par prev fuel _ R nd hnew hf
    obtain ⟨Ra, Rc, Rl, Rr⟩ := R
    obtain ⟨f, rfl⟩ : ∃ f, fuel = f + 1 := ⟨fuel - 1, by simp [ATree.height] at hf; omega⟩
    simp only [ATree.height] at hf
    simp only [ATree.addrs, List.nodup_cons, List.mem_cons, List.mem_append, not_or,
      List.nodup_append, List.Disjoint] at nd
    obtain ⟨⟨hna, hnc, hnl, hnr⟩, ⟨hac, hal, har⟩, ndc, ⟨ndl, ndr, dlr⟩, dc⟩ := nd
    have hna' : new ≠ a := hna
    by_cases e1 : pr = p
    · -- the priority is in the tree: the node goes to the end of the chain
      subst e1
      have hnew1 : (h.set new (some
          { priority := pr, value := val, dup := true, parent := none,
            link := none, left := none, right := none }))[new]? = some (some
          { priority := pr, value := val, dup := true, parent := none,
            link := none, left := none, right := none }) := get_set_same hnew
      have Ra1 := (get_set_ne (h := h) (some
          { priority := pr, value := val, dup := true, parent := none,
            link := none, left := none, right := none }) hna').trans Ra
      have Rc1 : ChainR (h.set new (some
          { priority := pr, value := val, dup := true, parent := none,
            link := none, left := none, right := none })) pr c :=
        Rc.frame (fun b hb => get_set_ne _ (fun e => hnc (e ▸ hb)))
      have clen : c.length < (h.set new (some
          { priority := pr, value := val, dup := true, parent := none,
            link := none, left := none, right := none })).length + 1 := by
        have := length_le_of_nodup_lt ndc Rc.live
        simp at this ⊢
        omega
      have ndchain : (new :: a :: c.map Prod.fst).Nodup := by
        simp only [List.nodup_cons, List.mem_cons, not_or]
        exact ⟨⟨hna, hnc⟩, hac, ndc⟩
      obtain ⟨tn, t1, t2, t3⟩ := chain_append new val c a _ Ra1 rfl Rc1 ndchain hnew1
      have hmem := lastAddr_mem c a
      rw [ATree.ins_eq]
      refine ⟨_, (by
        simp only [ATree.ptr, enqueueLoop, deref_of Ra, bind, Except.bind, if_true,
          update_of hnew, chainTail_spec c a _ _ Ra1 rfl Rc1 clen, update_of t1]
        rfl), Realizes.mk ?_ ?_ ?_ ?_, ?_, ?_⟩
      · exact t2
      · exact t3
      · refine Rl.congr (fun b hb => ?_)
        rw [get_set_ne, get_set_ne]
        · exact fun e => hnl (e ▸ hb)
        · intro e
          rw [e] at hmem
          simp only [List.mem_cons] at hmem
          rcases hmem with rfl | hmem
          · exact hal hb
          · exact dc hmem (Or.inl hb)
      · refine Rr.congr (fun b hb => ?_)
        rw [get_set_ne, get_set_ne]
        · exact fun e => hnr (e ▸ hb)
        · intro e
          rw [e] at hmem
          simp only [List.mem_cons] at hmem
          rcases hmem with rfl | hmem
          · exact har hb
          · exact dc hmem (Or.inr hb)
      · simp
      · intro b hb
        simp only [ATree.addrs, List.mem_cons, List.mem_append, not_or] at hb
        rw [get_set_ne, get_set_ne]
        · exact fun e => hb.1 e.symm
        · intro e
          rw [e] at hmem
          simp only [List.mem_cons] at hmem
          rcases hmem with rfl | hmem
          · exact hb.2.1 rfl
          · exact hb.2.2.1 hmem
    · by_cases e2 : pr < p
      · -- descent to the left
        cases l with
        | nil =>
          have Ra1 := (get_set_ne (h := h) (some
            { priority := pr, value := val, dup := false, parent := some a,
              link := none, left := none, right := none }) hna').trans Ra
          rw [ATree.ins_lt _ _ _ _ _ _ _ _ e2]
          refine ⟨_, (by
            simp only [ATree.ptr, enqueueLoop, deref_of Ra, bind, Except.bind, e1, e2, if_true,
              if_false, update_of hnew, deref_of Ra1, update_of Ra1]
            rfl), Realizes.mk ?_ ?_ ?_ ?_, ?_, ?_⟩
          · rw [get_set_same Ra1]
            rfl
          · exact Rc.frame (fun b hb => by
              rw [get_set_ne, get_set_ne]
              · exact fun e => hnc (e ▸ hb)
              · exact fun e => hac (e ▸ hb))
          · refine Realizes.mk ?_ trivial trivial trivial
            rw [get_set_ne _ hna'.symm, get_set_same hnew]
            rfl
          · exact Rr.congr (fun b hb => by
              rw [get_set_ne, get_set_ne]
              · exact fun e => hnr (e ▸ hb)
              · exact fun e => har (e ▸ hb))
          · simp
          · intro b hb
            simp only [ATree.addrs, List.mem_cons, List.mem_append, not_or] at hb
            rw [get_set_ne, get_set_ne]
            · exact fun e => hb.1 e.symm
            · exact fun e => hb.2.1 e.symm
        | node a2 l2 p2 v2 d2 c2 r2 =>
          obtain ⟨h', q1, q2, q3, q4⟩ := ihl h (some a) (some a) f (by simp) Rl
            (List.nodup_cons.mpr ⟨hnl, ndl⟩) hnew (by omega)
          have Ra' : h'[a]? = _ := (q4 a (by
            simp only [List.mem_cons, not_or]
            exact ⟨hna'.symm, hal⟩)).trans Ra
          rw [ATree.ins_lt _ _ _ _ _ _ _ _ e2]
          refine ⟨h', ?_, Realizes.mk ?_ ?_ ?_ ?_, q3, ?_⟩
          · simp only [ATree.ptr, enqueueLoop, deref_of Ra, bind, Except.bind, e1, e2, if_true,
              if_false]
            exact q1
          · rw [Ra', ATree.ins_ptr _ _ _ _ (by simp)]
          · exact Rc.frame (fun b hb => q4 b (by
              simp only [List.mem_cons, not_or]
              exact ⟨fun e => hnc (e ▸ hb), fun hb' => dc hb (Or.inl hb')⟩))
          · exact q2
          · exact Rr.congr (fun b hb => q4 b (by
              simp only [List.mem_cons, not_or]
              exact ⟨fun e => hnr (e ▸ hb), fun hb' => dlr hb' hb⟩))
          · intro b hb
            rw [List.mem_cons, ATree.mem_addrs_node, not_or, not_or, not_or, not_or] at hb
            exact q4 b (by
              simp only [List.mem_cons, not_or]
              exact ⟨hb.1, hb.2.2.2.1⟩)
      · -- descent to the right
        cases r with
        | nil =>
          have Ra1 := (get_set_ne (h := h) (some
            { priority := pr, value := val, dup := false, parent := some a,
              link := none, left := none, right := none }) hna').trans Ra
          rw [ATree.ins_gt _ _ _ _ _ _ _ _ e1 e2]
          refine ⟨_, (by
            simp only [ATree.ptr, enqueueLoop, deref_of Ra, bind, Except.bind, e1, e2, if_true,
              if_false, update_of hnew, deref_of Ra1, update_of Ra1]
            rfl), Realizes.mk ?_ ?_ ?_ ?_, ?_, ?_⟩
          · rw [get_set_same Ra1]
            rfl
          · exact Rc.frame (fun b hb => by
              rw [get_set_ne, get_set_ne]
              · exact fun e => hnc (e ▸ hb)
              · exact fun e => hac (e ▸ hb))
          · exact Rl.congr (fun b hb => by
              rw [get_set_ne, get_set_ne]
              · exact fun e => hnl (e ▸ hb)
              · exact fun e => hal (e ▸ hb))
          · refine Realizes.mk ?_ trivial trivial trivial
            rw [get_set_ne _ hna'.symm, get_set_same hnew]
            rfl
          · simp
          · intro b hb
            simp only [ATree.addrs, List.mem_cons, List.mem_append, not_or] at hb
            rw [get_set_ne, get_set_ne]
            · exact fun e => hb.1 e.symm
            · exact fun e => hb.2.1 e.symm
        | node a2 l2 p2 v2 d2 c2 r2 =>
          obtain ⟨h', q1, q2, q3, q4⟩ := ihr h (some a) (some a) f (by simp) Rr
            (List.nodup_cons.mpr ⟨hnr, ndr⟩) hnew (by omega)
          have Ra' : h'[a]? = _ := (q4 a (by
            simp only [List.mem_cons, not_or]
            exact ⟨hna'.symm, har⟩)).trans Ra
          rw [ATree.ins_gt _ _ _ _ _ _ _ _ e1 e2]
          refine ⟨h', ?_, Realizes.mk ?_ ?_ ?_ ?_, q3, ?_⟩
          · simp only [ATree.ptr, enqueueLoop, deref_of Ra, bind, Except.bind, e1, e2, if_true,
              if_false]
            exact q1
          · rw [Ra', ATree.ins_ptr _ _ _ _ (by simp)]
          · exact Rc.frame (fun b hb => q4 b (by
              simp only [List.mem_cons, not_or]
              exact ⟨fun e => hnc (e ▸ hb), fun hb' => dc hb (Or.inr hb')⟩))
          · exact Rl.congr (fun b hb => q4 b (by
              simp only [List.mem_cons, not_or]
              exact ⟨fun e => hnl (e ▸ hb), fun hb' => dlr hb hb'⟩))
          · exact q2
          · intro b hb
            rw [List.mem_cons, ATree.mem_addrs_node, not_or, not_or, not_or, not_or] at hb
            exact q4 b (by
              simp only [List.mem_cons, not_or]
              exact ⟨hb.1, hb.2.2.2.2⟩)

theorem ATree.ins_addrs_perm (new : Nat) (val : T) (pr : Int) (t : ATree T) :
    (t.ins new val pr).addrs.Perm (new :: t.addrs) := by
  induction t with
  | nil => simp [ATree.ins, ATree.addrs]
  | node a l p v d c r ihl ihr =>
    by_cases e1 : pr = p
    · subst e1
      rw [ATree.ins_eq]
      simp only [ATree.addrs, List.map_append, List.map_cons, List.map_nil, List.append_assoc,
        List.singleton_append]
      refine (List.Perm.cons a ?_).trans (List.Perm.swap _ _ _)
      exact List.perm_middle
    · by_cases e2 : pr < p
      · rw [ATree.ins_lt _ _ _ _ _ _ _ _ e2]
        simp only [ATree.addrs]
        refine (List.Perm.cons a ?_).trans (List.Perm.swap _ _ _)
        refine (List.Perm.append_left _ (List.Perm.append_right _ ihl)).trans ?_
        simp only [List.cons_append]
        exact List.perm_middle
      · rw [ATree.ins_gt _ _ _ _ _ _ _ _ e1 e2]
        simp only [ATree.addrs]
        refine (List.Perm.cons a ?_).trans (List.Perm.swap _ _ _)
        refine (List.Perm.append_left _ (List.Perm.append_left _ ihr)).trans ?_
        rw [← List.append_assoc]
        exact List.perm_middle.trans (by simp)

theorem ATree.ins_nodup {n : Nat} (val : T) (pr : Int) {t : ATree T} (nd : t.addrs.Nodup)
    (lt : ∀ b ∈ t.addrs, b < n) : (t.ins n val pr).addrs.Nodup := by
  rw [(ATree.ins_addrs_perm n val pr t).nodup_iff, List.nodup_cons]
  exact ⟨fun hm => Nat.lt_irrefl _ (lt n hm), nd⟩

/-- The call `enqueue(val, pr)` on a queue that owns the tree `t` returns and
leaves the queue owning `t.ins` with the new node at the next address. -/
theorem enqueue_spec {q : priorityqueue T} {par : Ptr} {t : ATree T}
    (R : Realizes q.heap par t) (nd : t.addrs.Nodup) (hr : q.root = t.ptr) (val : T) (pr : Int) :
    ∃ q', enqueue q val pr = .ok q' ∧ q'.root = (t.ins q.heap.length val pr).ptr ∧
      q'.size = wrapInt (q.size + 1) ∧ q'.curr = q.curr ∧ q'.heap.length = q.heap.length + 1 ∧
      (t.ins q.heap.length val pr).addrs.Nodup ∧
      ∃ par', Realizes q'.heap par' (t.ins q.heap.length val pr) ∧ (par = none → par' = none) := by
  have nd' := ATree.ins_nodup val pr nd R.addr_lt
  cases t with
  | nil =>
    refine ⟨({ q with
        heap := q.heap ++ [some (freshNODE val pr)],
        root := some q.heap.length, size := wrapInt (q.size + 1) } : priorityqueue T),
      ?_, rfl, rfl, rfl, by simp, nd',
      none, Realizes.mk ?_ trivial trivial trivial, fun _ => rfl⟩
    · simp only [enqueue, hr, ATree.ptr, if_true]
      rfl
    · simp [chainPtr, ATree.ptr, freshNODE]
  | node a l p v d c r =>
    have R0 : Realizes (q.heap ++ [some (freshNODE val pr)]) par (.node a l p v d c r) :=
      R.congr (fun b hb => List.getElem?_append_left (R.addr_lt b hb))
    have hnew := List.getElem?_concat_length q.heap (some (freshNODE val pr))
    have ndn : (q.heap.length :: (ATree.node a l p v d c r).addrs).Nodup :=
      List.nodup_cons.mpr ⟨fun hm => Nat.lt_irrefl _ (R.addr_lt _ hm), nd⟩
    have hf : (ATree.node a l p v d c r).height ≤
        (q.heap ++ [some (freshNODE val pr)]).length + 1 := by
      have := R.height_le nd
      simp
      omega
    obtain ⟨h', q1, q2, q3, _⟩ := enqueueLoop_spec q.heap.length val pr _ _ par none _
      (by simp) R0 ndn hnew hf
    have hr' : q.root = some a := hr
    simp only [ATree.ptr] at q1
    refine ⟨({ q with heap := h', size := wrapInt (q.size + 1) } : priorityqueue T), ?_, ?_, rfl, rfl, ?_,
      nd', par, q2, fun e => e⟩
    · simp only [enqueue, hr', reduceCtorEq, if_false]
      rw [q1]
      rfl
    · rw [ATree.ins_ptr _ _ _ _ (by simp)]
      exact hr
    · simp [q3]

theorem WF_enqueue {q : priorityqueue T} (w : WF q) (val : T) (pr : Int) :
    ∃ q', enqueue q val pr = .ok q' ∧ WF q' ∧ q'.size = wrapInt (q.size + 1) := by
  obtain ⟨par, t, R, nd, hr, hc⟩ := w
  obtain ⟨q', e, r1, r2, r3, _, r5, par', r6, _⟩ := enqueue_spec R nd hr val pr
  exact ⟨q', e, ⟨par', _, r6, r5, r1, r3.trans hc⟩, r2⟩

theorem WF_new : WF (new : priorityqueue T) :=
  ⟨none, .nil, trivial, List.nodup_nil, rfl, rfl⟩

theorem wrapInt_wrapInt (x : Int) : wrapInt (wrapInt x) = wrapInt x := by
  unfold wrapInt
  omega

theorem wrapInt_add (x y : Int) : wrapInt (wrapInt x + y) = wrapInt (x + y) := by
  unfold wrapInt
  omega

theorem wrapInt_of_range {x : Int} (h1 : -2147483648 ≤ x) (h2 : x < 2147483648) :
    wrapInt x = x := by
  unfold wrapInt
  omega

theorem wrapInt_range (x : Int) : -2147483648 ≤ wrapInt x ∧ wrapInt x < 2147483648 := by
  unfold wrapInt
  omega

theorem enqueueAll_spec (es : List (T × Int)) :
    ∀ (q : priorityqueue T) (t : ATree T), Realizes q.heap none t → t.addrs.Nodup →
      q.root = t.ptr →
      ∃ q', enqueueAll q es = .ok q' ∧ q'.root = (ATree.insAll q.heap.length t es).ptr ∧
        (wrapInt q.size = q.size → q'.size = wrapInt (q.size + es.length)) ∧
        q'.curr = q.curr ∧
        (ATree.insAll q.heap.length t es).addrs.Nodup ∧
        Realizes q'.heap none (ATree.insAll q.heap.length t es) := by
  induction es with
  | nil =>
    intro q t R nd hr
    exact ⟨q, rfl, hr, fun h => by simpa using h.symm, rfl, nd, R⟩
  | cons e es ih =>
    intro q t R nd hr
    obtain ⟨q1, e1, r1, r2, r3, r4, r5, par', r6, r7⟩ := enqueue_spec R nd hr e.1 e.2
    obtain rfl := r7 rfl
    obtain ⟨q2, e2, s1, s2, s3, s4, s5⟩ := ih q1 _ r6 r5 r1
    rw [r4] at s1 s4 s5
    refine ⟨q2, ?_, s1, ?_, s3.trans r3, s4, s5⟩
    · simp only [enqueueAll, e1, bind, Except.bind]
      exact e2
    · intro _
      rw [s2 (by rw [r2, wrapInt_wrapInt]), r2, wrapInt_add, List.length_cons]
      congr 1
      push_cast
      ring

/-- A run of `enqueue` calls on a new queue returns; the queue owns the tree
of the successive insertions, every parent link in place and none at the root. -/
theorem build_spec (es : List (T × Int)) :
    ∃ q, build es = .ok q ∧ q.root = (ATree.insAll 0 .nil es).ptr ∧
      q.size = wrapInt es.length ∧
      q.curr = none ∧ (ATree.insAll 0 .nil es).addrs.Nodup ∧
      Realizes q.heap none (ATree.insAll 0 .nil es) := by
  obtain ⟨q, e, r1, r2, r3, r4, r5⟩ :=
    enqueueAll_spec es (new : priorityqueue T) .nil trivial List.nodup_nil rfl
  exact ⟨q, e, r1, by simpa [new] using r2 rfl, r3, r4, r5⟩

theorem chainPtr_nil : chainPtr ([] : List (Nat × T)) = none := rfl

theorem chainPtr_cons (e : Nat × T) (c : List (Nat × T)) : chainPtr (e :: c) = some e.1 := rfl

theorem ATree.ptr_nil : (ATree.nil : ATree T).ptr = none := rfl

theorem ATree.ptr_node (a : Nat) (l r : ATree T) (p : Int) (v : T) (d : Bool)
    (c : List (Nat × T)) : (ATree.node a l p v d c r).ptr = some a := rfl

/-! ## Reading the tree: the leftmost node and the in-order text -/

theorem leftmost_spec {h : Heap T} :
    ∀ (t : ATree T) (par : Ptr) (fuel : Nat), t ≠ .nil → Realizes h par t → t.height ≤ fuel →
      ∃ m n, t.minAddr = some m ∧ leftmost h fuel t.ptr = .ok (some m) ∧
        h[m]? = some (some n) ∧ t.minVal = some n.value ∧ n.left = none := by
  intro t
  induction t with
  | nil => intro par fuel ne; exact absurd rfl ne
  | node a l p v d c r ihl _ =>
    intro par fuel _ R hf
    obtain ⟨Ra, _, Rl, _⟩ := R
    obtain ⟨f, rfl⟩ : ∃ f, fuel = f + 1 := ⟨fuel - 1, by simp [ATree.height] at hf; omega⟩
    simp only [ATree.height] at hf
    cases l with
    | nil =>
      refine ⟨a, _, rfl, ?_, Ra, rfl, rfl⟩
      simp [leftmost, ATree.ptr, deref_of Ra, bind, Except.bind, pure, Except.pure]
    | node a2 l2 p2 v2 d2 c2 r2 =>
      obtain ⟨m, n, q1, q2, q3, q4, q5⟩ := ihl (some a) f (by simp) Rl (by omega)
      refine ⟨m, n, q1, ?_, q3, q4, q5⟩
      simp only [ATree.ptr] at q2
      simp [leftmost, ATree.ptr, deref_of Ra, bind, Except.bind, q2]

theorem renderEntries_append (render : T → String) (xs ys : List (T × Int)) :
    renderEntries render (xs ++ ys) = renderEntries render xs ++ renderEntries render ys := by
  induction xs with
  | nil => simp [renderEntries]
  | cons e xs ih => simp [renderEntries, ih, String.append_assoc]

theorem chainPrint_spec (render : T → String) {h : Heap T} {p : Int} :
    ∀ (c : List (Nat × T)) (fuel : Nat), ChainR h p c → c.length ≤ fuel →
      chainPrint render h p fuel (chainPtr c) =
        .ok (renderEntries render (c.map (fun e => (e.2, p)))) := by
  intro c
  induction c with
  | nil =>
    intro fuel _ _
    cases fuel <;> simp [chainPrint, chainPtr_nil, renderEntries, pure, Except.pure]
  | cons e c ih =>
    intro fuel R hf
    obtain ⟨f, rfl⟩ : ∃ f, fuel = f + 1 := ⟨fuel - 1, by simp at hf; omega⟩
    obtain ⟨R1, R2⟩ := R
    have := ih f R2 (by simp at hf; omega)
    simp [chainPrint, chainPtr_cons, renderEntries, deref_of R1, bind, Except.bind, this, pure,
      Except.pure]

theorem inorderPrint_spec (render : T → String) {h : Heap T} :
    ∀ (t : ATree T) (par : Ptr) (fuel : Nat), Realizes h par t → t.addrs.Nodup →
      t.height ≤ fuel →
      inorderPrint render h fuel t.ptr = .ok (renderEntries render t.entries) := by
  intro t
  induction t with
  | nil =>
    intro par fuel _ _ _
    cases fuel <;>
      simp [inorderPrint, ATree.ptr_nil, ATree.entries, renderEntries, pure, Except.pure]
  | node a l p v d c r ihl ihr =>
    intro par fuel R nd hf
    obtain ⟨Ra, Rc, Rl, Rr⟩ := R
    obtain ⟨f, rfl⟩ : ∃ f, fuel = f + 1 := ⟨fuel - 1, by simp [ATree.height] at hf; omega⟩
    simp only [ATree.height] at hf
    simp only [ATree.addrs, List.nodup_cons, List.nodup_append] at nd
    obtain ⟨_, ndc, ⟨ndl, ndr, _⟩, _⟩ := nd
    have clen : c.length ≤ h.length + 1 := by
      have := length_le_of_nodup_lt ndc Rc.live
      simp at this
      omega
    have e1 := ihl (some a) f Rl ndl (by omega)
    have e2 := ihr (some a) f Rr ndr (by omega)
    have e3 := chainPrint_spec render c _ Rc clen
    simp [inorderPrint, ATree.ptr_node, deref_of Ra, bind, Except.bind, e1, e2, e3, pure,
      Except.pure, ATree.entries, renderEntries_append, renderEntries]

/-- On a queue that owns the tree `t`, `toString` returns the text of the
entries of `t` in in-order sequence. -/
theorem toString_spec (render : T → String) {q : priorityqueue T} {par : Ptr} {t : ATree T}
    (R : Realizes q.heap par t) (nd : t.addrs.Nodup) (hr : q.root = t.ptr) :
    toString render q = .ok (renderEntries render t.entries) := by
  rw [toString, hr]
  exact inorderPrint_spec render t par _ R nd (le_trans (R.height_le nd) (Nat.le_succ _))

/-! ## Entries in priority order -/

theorem insertEntry_perm (e : T × Int) (L : List (T × Int)) : (insertEntry e L).Perm (e :: L) := by
  induction L with
  | nil => simp [insertEntry]
  | cons x xs ih =>
    simp only [insertEntry]
    split_ifs
    · exact List.Perm.refl _
    · exact (List.Perm.cons x ih).trans (List.Perm.swap _ _ _)

theorem insertEntry_sorted (e : T × Int) {L : List (T × Int)}
    (sorted : L.Pairwise (fun x y => x.2 ≤ y.2)) :
    (insertEntry e L).Pairwise (fun x y => x.2 ≤ y.2) := by
  induction L with
  | nil => simp [insertEntry]
  | cons x xs ih =>
    rw [List.pairwise_cons] at sorted
    simp only [insertEntry]
    split_ifs with hlt
    · refine List.pairwise_cons.mpr ⟨?_, List.pairwise_cons.mpr sorted⟩
      intro y hy
      rcases List.mem_cons.mp hy with rfl | hy
      · exact le_of_lt hlt
      · exact le_trans (le_of_lt hlt) (sorted.1 y hy)
    · refine List.pairwise_cons.mpr ⟨?_, ih sorted.2⟩
      intro y hy
      rcases List.mem_cons.mp ((insertEntry_perm e xs).subset hy) with rfl | hy
      · exact not_lt.mp hlt
      · exact sorted.1 y hy

theorem insertEntry_filter (e : T × Int) (p : Int) {L : List (T × Int)}
    (sorted : L.Pairwise (fun x y => x.2 ≤ y.2)) :
    (insertEntry e L).filter (fun x => decide (x.2 = p)) =
      L.filter (fun x => decide (x.2 = p)) ++ (if e.2 = p then [e] else []) := by
  induction L with
  | nil => by_cases h : e.2 = p <;> simp [insertEntry, h]
  | cons x xs ih =>
    rw [List.pairwise_cons] at sorted
    simp only [insertEntry]
    split_ifs with hlt hp hp
    · -- `e` goes to the front and has the priority asked for: nothing behind it has
      have none : (x :: xs).filter (fun y => decide (y.2 = p)) = [] := by
        rw [List.filter_eq_nil_iff]
        intro y hy
        rcases List.mem_cons.mp hy with rfl | hy
        · simp; omega
        · have := sorted.1 y hy
          simp; omega
      rw [List.filter_cons, none]
      simp [hp]
    · rw [List.filter_cons]
      simp [hp]
    · rw [List.filter_cons, ih sorted.2, List.filter_cons]
      by_cases hx : x.2 = p <;> simp [hx, hp]
    · rw [List.filter_cons, ih sorted.2, List.filter_cons]
      by_cases hx : x.2 = p <;> simp [hx, hp]

theorem foldl_insertEntry (es : List (T × Int)) :
    ∀ acc : List (T × Int), acc.Pairwise (fun x y => x.2 ≤ y.2) →
      (es.foldl (fun acc e => insertEntry e acc) acc).Pairwise (fun x y => x.2 ≤ y.2) ∧
      (es.foldl (fun acc e => insertEntry e acc) acc).Perm (acc ++ es) ∧
      ∀ p : Int, (es.foldl (fun acc e => insertEntry e acc) acc).filter
          (fun x => decide (x.2 = p)) =
        acc.filter (fun x => decide (x.2 = p)) ++ es.filter (fun x => decide (x.2 = p)) := by
  induction es with
  | nil => intro acc sorted; simp [sorted]
  | cons e es ih =>
    intro acc sorted
    obtain ⟨h1, h2, h3⟩ := ih (insertEntry e acc) (insertEntry_sorted e sorted)
    refine ⟨h1, ?_, ?_⟩
    · refine h2.trans ?_
      refine (List.Perm.append_right es (insertEntry_perm e acc)).trans ?_
      simp only [List.cons_append]
      exact List.perm_middle.symm
    · intro p
      rw [List.foldl_cons, h3 p, insertEntry_filter e p sorted, List.filter_cons]
      by_cases hp : e.2 = p <;> simp [hp]

/-- The list `sortedEntries es` is the stable sort of `es` by priority: it is
in ascending priority, it is a rearrangement of `es`, and the entries of each
single priority stand in it in the order they have in `es`. -/
theorem sortedEntries_stable (es : List (T × Int)) :
    (sortedEntries es).Pairwise (fun x y => x.2 ≤ y.2) ∧ (sortedEntries es).Perm es ∧
    ∀ p : Int, (sortedEntries es).filter (fun x => decide (x.2 = p)) =
      es.filter (fun x => decide (x.2 = p)) := by
  obtain ⟨h1, h2, h3⟩ := foldl_insertEntry es [] List.Pairwise.nil
  exact ⟨h1, by simpa using h2, fun p => by simpa using h3 p⟩

theorem find?_eq_head?_filter (f : T × Int → Bool) (L : List (T × Int)) :
    L.find? f = (L.filter f).head? := by
  induction L with
  | nil => rfl
  | cons x xs ih =>
    by_cases hx : f x = true
    · simp [List.find?_cons, List.filter_cons, hx]
    · have hx' : f x = false := by simpa using hx
      rw [List.find?_cons, List.filter_cons]
      simp only [hx', Bool.false_eq_true, if_false]
      exact ih

theorem find?_congr_mem {f g : T × Int → Bool} {L : List (T × Int)}
    (same : ∀ x ∈ L, f x = g x) : L.find? f = L.find? g := by
  induction L with
  | nil => rfl
  | cons x xs ih =>
    have hx := same x (List.mem_cons_self _ _)
    have := ih (fun y hy => same y (List.mem_cons_of_mem _ hy))
    simp [List.find?_cons, hx, this]

/-- The first entry of `sortedEntries es` is the entry of smallest priority
that was enqueued first. -/
theorem head?_sortedEntries (es : List (T × Int)) : (sortedEntries es).head? = firstMin es := by
  obtain ⟨sorted, perm, filt⟩ := sortedEntries_stable es
  cases hL : sortedEntries es with
  | nil =>
    rw [hL] at perm
    have : es = [] := List.Perm.eq_nil perm.symm
    subst this
    rfl
  | cons x xs =>
    rw [hL] at sorted perm filt
    rw [List.pairwise_cons] at sorted
    have hmin : ∀ y ∈ es, x.2 ≤ y.2 := by
      intro y hy
      rcases List.mem_cons.mp (perm.symm.subset hy) with rfl | hy
      · exact le_refl _
      · exact sorted.1 y hy
    have hx : x ∈ es := perm.subset (List.mem_cons_self _ _)
    have same : ∀ y ∈ es, (es.all (fun z => decide (y.2 ≤ z.2))) = decide (y.2 = x.2) := by
      intro y hy
      by_cases e : y.2 = x.2
      · simp only [e, decide_True, List.all_eq_true, decide_eq_true_eq]
        exact hmin
      · simp only [e, decide_False, List.all_eq_false, decide_eq_true_eq, not_le]
        exact ⟨x, hx, lt_of_le_of_ne (hmin y hy) (Ne.symm e)⟩
    rw [firstMin, find?_congr_mem same, find?_eq_head?_filter, ← filt x.2]
    simp [List.filter_cons]

/-! ## The tree of a run of `enqueue` calls -/

theorem ATree.ins_prios (new : Nat) (val : T) (pr : Int) (t : ATree T) :
    ∀ x ∈ (t.ins new val pr).prios, x = pr ∨ x ∈ t.prios := by
  induction t with
  | nil => intro x hx; simpa [ATree.ins, ATree.prios] using hx
  | node a l p v d c r ihl ihr =>
    intro x hx
    by_cases e1 : pr = p
    · subst e1
      rw [ATree.ins_eq] at hx
      exact Or.inr hx
    · by_cases e2 : pr < p
      · rw [ATree.ins_lt _ _ _ _ _ _ _ _ e2] at hx
        simp only [ATree.prios, List.mem_append, List.mem_cons] at hx ⊢
        rcases hx with hx | hx | hx
        · rcases ihl x hx with h | h
          · exact Or.inl h
          · exact Or.inr (Or.inl h)
        · exact Or.inr (Or.inr (Or.inl hx))
        · exact Or.inr (Or.inr (Or.inr hx))
      · rw [ATree.ins_gt _ _ _ _ _ _ _ _ e1 e2] at hx
        simp only [ATree.prios, List.mem_append, List.mem_cons] at hx ⊢
        rcases hx with hx | hx | hx
        · exact Or.inr (Or.inl hx)
        · exact Or.inr (Or.inr (Or.inl hx))
        · rcases ihr x hx with h | h
          · exact Or.inl h
          · exact Or.inr (Or.inr (Or.inr h))

theorem ATree.ins_BST (new : Nat) (val : T) (pr : Int) {t : ATree T} (bst : t.BST) :
    (t.ins new val pr).BST := by
  induction t with
  | nil => simp [ATree.ins, ATree.BST, ATree.prios]
  | node a l p v d c r ihl ihr =>
    obtain ⟨b1, b2, b3, b4⟩ := bst
    by_cases e1 : pr = p
    · subst e1
      rw [ATree.ins_eq]
      exact ⟨b1, b2, b3, b4⟩
    · by_cases e2 : pr < p
      · rw [ATree.ins_lt _ _ _ _ _ _ _ _ e2]
        refine ⟨?_, b2, ihl b3, b4⟩
        intro x hx
        rcases ATree.ins_prios _ _ _ _ x hx with rfl | h
        · exact e2
        · exact b1 x h
      · rw [ATree.ins_gt _ _ _ _ _ _ _ _ e1 e2]
        refine ⟨b1, ?_, b3, ihr b4⟩
        intro x hx
        rcases ATree.ins_prios _ _ _ _ x hx with rfl | h
        · exact lt_of_le_of_ne (not_lt.mp e2) (Ne.symm e1)
        · exact b2 x h

theorem ATree.entries_prio_mem (t : ATree T) : ∀ x ∈ t.entries, x.2 ∈ t.prios := by
  induction t with
  | nil => intro x hx; simp [ATree.entries] at hx
  | node a l p v d c r ihl ihr =>
    intro x hx
    simp only [ATree.entries, List.mem_append, List.mem_cons, List.mem_map] at hx
    simp only [ATree.prios, List.mem_append, List.mem_cons]
    rcases hx with hx | rfl | ⟨y, _, rfl⟩ | hx
    · exact Or.inl (ihl x hx)
    · exact Or.inr (Or.inl rfl)
    · exact Or.inr (Or.inl rfl)
    · exact Or.inr (Or.inr (ihr x hx))

theorem insertEntry_append_le (e : T × Int) (ys : List (T × Int)) :
    ∀ xs : List (T × Int), (∀ x ∈ xs, x.2 ≤ e.2) →
      insertEntry e (xs ++ ys) = xs ++ insertEntry e ys := by
  intro xs
  induction xs with
  | nil => intro _; rfl
  | cons x xs ih =>
    intro le
    have hx := le x (List.mem_cons_self _ _)
    simp only [List.cons_append, insertEntry, not_lt.mpr hx, if_false]
    exact congrArg (x :: ·) (ih (fun y hy => le y (List.mem_cons_of_mem _ hy)))

theorem insertEntry_append_lt (e y : T × Int) (ys : List (T × Int)) (lt : e.2 < y.2) :
    ∀ xs : List (T × Int), insertEntry e (xs ++ y :: ys) = insertEntry e xs ++ y :: ys := by
  intro xs
  induction xs with
  | nil => simp [insertEntry, lt]
  | cons x xs ih =>
    simp only [List.cons_append, insertEntry]
    split_ifs
    · rfl
    · exact congrArg (x :: ·) ih

theorem insertEntry_all_lt (e : T × Int) (ys : List (T × Int)) (lt : ∀ y ∈ ys, e.2 < y.2) :
    insertEntry e ys = e :: ys := by
  cases ys with
  | nil => rfl
  | cons y ys => simp [insertEntry, lt y (List.mem_cons_self _ _)]

theorem ATree.ins_entries (new : Nat) (val : T) (pr : Int) {t : ATree T} (bst : t.BST) :
    (t.ins new val pr).entries = insertEntry (val, pr) t.entries := by
  induction t with
  | nil => rfl
  | node a l p v d c r ihl ihr =>
    obtain ⟨b1, b2, b3, b4⟩ := bst
    have hl : ∀ x ∈ l.entries, x.2 < p := fun x hx => b1 _ (l.entries_prio_mem x hx)
    have hr : ∀ x ∈ r.entries, p < x.2 := fun x hx => b2 _ (r.entries_prio_mem x hx)
    by_cases e1 : pr = p
    · subst e1
      rw [ATree.ins_eq]
      have pre : ∀ x ∈ l.entries ++ (v, pr) :: c.map (fun e => (e.2, pr)), x.2 ≤ (val, pr).2 := by
        intro x hx
        simp only [List.mem_append, List.mem_cons, List.mem_map] at hx
        rcases hx with hx | rfl | ⟨y, _, rfl⟩
        · exact le_of_lt (hl x hx)
        · exact le_refl _
        · exact le_refl _
      have := insertEntry_append_le (val, pr) r.entries _ pre
      rw [insertEntry_all_lt (val, pr) r.entries hr] at this
      simp only [ATree.entries, List.map_append, List.map_cons, List.map_nil, List.append_assoc,
        List.cons_append, List.nil_append] at this ⊢
      exact this.symm
    · by_cases e2 : pr < p
      · rw [ATree.ins_lt _ _ _ _ _ _ _ _ e2]
        simp only [ATree.entries]
        rw [ihl b3, insertEntry_append_lt (val, pr) (v, p) _ e2]
      · rw [ATree.ins_gt _ _ _ _ _ _ _ _ e1 e2]
        have pre : ∀ x ∈ l.entries ++ (v, p) :: c.map (fun e => (e.2, p)), x.2 ≤ (val, pr).2 := by
          intro x hx
          simp only [List.mem_append, List.mem_cons, List.mem_map] at hx
          rcases hx with hx | rfl | ⟨y, _, rfl⟩
          · exact le_trans (le_of_lt (hl x hx)) (not_lt.mp e2)
          · exact not_lt.mp e2
          · exact not_lt.mp e2
        have := insertEntry_append_le (val, pr) r.entries _ pre
        simp only [ATree.entries, List.append_assoc, List.cons_append] at this ⊢
        rw [ihr b4]
        exact this.symm

theorem ATree.insAll_spec (es : List (T × Int)) :
    ∀ (n : Nat) (t : ATree T), t.BST →
      (ATree.insAll n t es).BST ∧
      (ATree.insAll n t es).entries = es.foldl (fun acc e => insertEntry e acc) t.entries := by
  induction es with
  | nil => intro n t bst; exact ⟨bst, rfl⟩
  | cons e es ih =>
    intro n t bst
    obtain ⟨h1, h2⟩ := ih (n + 1) _ (ATree.ins_BST n e.1 e.2 bst)
    refine ⟨h1, ?_⟩
    rw [ATree.insAll, h2, ATree.ins_entries n e.1 e.2 bst]
    rfl

/-- The entries of the tree of a run of `enqueue` calls, in in-order sequence,
are the entries of the run in ascending priority and call order. -/
theorem ATree.insAll_entries (es : List (T × Int)) :
    (ATree.insAll 0 .nil es).entries = sortedEntries es :=
  (ATree.insAll_spec es 0 .nil trivial).2

theorem ATree.minVal_eq (t : ATree T) : t.minVal = t.entries.head?.map Prod.fst := by
  induction t with
  | nil => rfl
  | node a l p v d c r ihl _ =>
    cases l with
    | nil => simp [ATree.minVal, ATree.entries]
    | node a2 l2 p2 v2 d2 c2 r2 =>
      have hne : (ATree.node a2 l2 p2 v2 d2 c2 r2).entries ≠ [] := by
        simp [ATree.entries]
      have unfold : (ATree.node a (ATree.node a2 l2 p2 v2 d2 c2 r2) p v d c r).entries =
          (ATree.node a2 l2 p2 v2 d2 c2 r2).entries ++
            ((v, p) :: (c.map (fun e => (e.2, p)) ++ r.entries)) := rfl
      rw [ATree.minVal, ihl, unfold, List.head?_append_of_ne_nil _ hne]
      simp

/-! ## `dequeue` on the abstract view -/

theorem ATree.cutMin_leaf (m : Nat) (p : Int) (v : T) (d : Bool) (r : ATree T) :
    (ATree.node m .nil p v d [] r).cutMin = r := rfl

theorem ATree.cutMin_chain (m : Nat) (p : Int) (v : T) (d : Bool) (e : Nat × T)
    (c : List (Nat × T)) (r : ATree T) :
    (ATree.node m .nil p v d (e :: c) r).cutMin = .node e.1 .nil p e.2 true c .nil := rfl

theorem ATree.cutMin_left (m : Nat) (p : Int) (v : T) (d : Bool) (c : List (Nat × T))
    (l r : ATree T) (ne : l ≠ .nil) :
    (ATree.node m l p v d c r).cutMin = .node m l.cutMin p v d c r := by
  cases l with
  | nil => exact absurd rfl ne
  | node => rfl

theorem update_step {h : Heap T} {a : Nat} {n : NODE T} (e : h[a]? = some (some n))
    (f : NODE T → NODE T) :
    ∃ h', update h (some a) f = .ok h' ∧ h'[a]? = some (some (f n)) ∧ h'.length = h.length ∧
      ∀ b, b ≠ a → h'[b]? = h[b]? :=
  ⟨_, update_of e f, get_set_same e, List.length_set _ _ _, fun _ ne => get_set_ne _ (Ne.symm ne)⟩

theorem free_step {h : Heap T} {a : Nat} {n : NODE T} (e : h[a]? = some (some n)) :
    ∃ h', free h (some a) = .ok h' ∧ h'[a]? = some none ∧ h'.length = h.length ∧
      ∀ b, b ≠ a → h'[b]? = h[b]? :=
  ⟨_, free_of e, get_set_same e, List.length_set _ _ _, fun _ ne => get_set_ne _ (Ne.symm ne)⟩

/-- The leftmost node `m`, left child of `a`, has a chain: its first member
takes its place. -/
theorem dequeueAt_chain (q : priorityqueue T) (a m : Nat) (na : NODE T) (p : Int) (v : T)
    (d : Bool) (e : Nat × T) (c : List (Nat × T)) (rp : Ptr)
    (Rm : q.heap[m]? = some (some
      { priority := p, value := v, dup := d, parent := some a,
        link := some e.1, left := none, right := rp }))
    (Re : q.heap[e.1]? = some (some
      { priority := p, value := e.2, dup := true, parent := none,
        link := chainPtr c, left := none, right := none }))
    (ham : a ≠ m) (hae : a ≠ e.1) (hme : m ≠ e.1)
    (ha : q.heap[a]? = some (some na)) (hl : na.left = some m)
    (hrm : some m ≠ q.root) :
    ∃ h', dequeueAt q (some m) = .ok (v, { q with heap := h', size := wrapInt (q.size - 1) }) ∧
      h'[e.1]? = some (some
        { priority := p, value := e.2, dup := true, parent := some a,
          link := chainPtr c, left := none, right := none }) ∧
      h'[a]? = some (some { na with left := some e.1 }) ∧ h'.length = q.heap.length ∧
      ∀ b, b ≠ a → b ≠ m → b ≠ e.1 → h'[b]? = q.heap[b]? := by
  obtain ⟨h1, u1, s1, l1, f1⟩ := update_step ha (fun x => { x with left := some e.1 })
  have Rm1 := (f1 m ham.symm).trans Rm
  have Re1 := (f1 e.1 hae.symm).trans Re
  obtain ⟨h2, u2, s2, l2, f2⟩ := update_step Re1 (fun x => { x with parent := some a })
  have Rm2 := (f2 m hme).trans Rm1
  obtain ⟨h3, u3, s3, l3, f3⟩ := free_step Rm2
  refine ⟨h3, ?_, ?_, ?_, ?_, ?_⟩
  · simp only [dequeueAt, deref_of Rm, deref_of ha, hl, hrm, bind, Except.bind, ne_eq,
      reduceCtorEq, not_false_eq_true, if_true, if_false, u1, deref_of Rm1, u2, deref_of Rm2, u3]
    rfl
  · exact (f3 _ hme.symm).trans s2
  · exact (f3 _ ham).trans ((f2 _ hae).trans s1)
  · rw [l3, l2, l1]
  · intro b b1 b2 b3
    exact (f3 b b2).trans ((f2 b b3).trans (f1 b b1))
/-- The leftmost node `m`, left child of `a`, has neither chain nor child: it
is detached from `a`. -/
theorem dequeueAt_leaf (q : priorityqueue T) (a m : Nat) (na : NODE T) (p : Int) (v : T)
    (d : Bool)
    (Rm : q.heap[m]? = some (some
      { priority := p, value := v, dup := d, parent := some a,
        link := none, left := none, right := none }))
    (ham : a ≠ m) (ha : q.heap[a]? = some (some na)) (hl : na.left = some m)
    (hrm : some m ≠ q.root) :
    ∃ h', dequeueAt q (some m) = .ok (v, { q with heap := h', size := wrapInt (q.size - 1) }) ∧
      h'[a]? = some (some { na with left := none }) ∧ h'.length = q.heap.length ∧
      ∀ b, b ≠ a → b ≠ m → h'[b]? = q.heap[b]? := by
  obtain ⟨h1, u1, s1, l1, f1⟩ := update_step ha (fun x => { x with left := none })
  have Rm1 := (f1 m ham.symm).trans Rm
  obtain ⟨h2, u2, s2, l2, f2⟩ := free_step Rm1
  refine ⟨h2, ?_, ?_, ?_, ?_⟩
  · simp only [dequeueAt, removeNode, deref_of Rm, deref_of ha, hl, hrm, bind, Except.bind, ne_eq,
      reduceCtorEq, not_false_eq_true, not_true_eq_false, and_self, if_true, if_false, u1, u2]
    rfl
  · exact (f2 _ ham).trans s1
  · rw [l2, l1]
  · intro b b1 b2
    exact (f2 b b2).trans (f1 b b1)

/-- The leftmost node `m`, left child of `a`, has no chain and a right child
`rb`: the child takes its place. -/
theorem dequeueAt_child (q : priorityqueue T) (a m rb : Nat) (na nb : NODE T) (p : Int) (v : T)
    (d : Bool)
    (Rm : q.heap[m]? = some (some
      { priority := p, value := v, dup := d, parent := some a,
        link := none, left := none, right := some rb }))
    (Rb : q.heap[rb]? = some (some nb))
    (ham : a ≠ m) (hab : a ≠ rb) (hmb : m ≠ rb)
    (ha : q.heap[a]? = some (some na)) (hl : na.left = some m)
    (hrm : some m ≠ q.root) :
    ∃ h', dequeueAt q (some m) = .ok (v, { q with heap := h', size := wrapInt (q.size - 1) }) ∧
      h'[rb]? = some (some { nb with parent := some a }) ∧
      h'[a]? = some (some { na with left := some rb }) ∧ h'.length = q.heap.length ∧
      ∀ b, b ≠ a → b ≠ m → b ≠ rb → h'[b]? = q.heap[b]? := by
  obtain ⟨h1, u1, s1, l1, f1⟩ := update_step Rb (fun x => { x with parent := some a })
  have Rm1 := (f1 m hmb).trans Rm
  have ha1 := (f1 a hab).trans ha
  obtain ⟨h2, u2, s2, l2, f2⟩ := update_step ha1 (fun x => { x with left := some rb })
  have Rm2 := (f2 m ham.symm).trans Rm1
  obtain ⟨h3, u3, s3, l3, f3⟩ := free_step Rm2
  refine ⟨h3, ?_, ?_, ?_, ?_, ?_⟩
  · simp only [dequeueAt, removeNode, deref_of Rm, hl, hrm, bind, Except.bind, ne_eq,
      reduceCtorEq, not_false_eq_true, not_true_eq_false, and_false, and_true, true_or, if_true,
      if_false, u1, deref_of Rm1, deref_of ha1, u2, u3]
    rfl
  · exact (f3 _ hmb.symm).trans ((f2 _ hab.symm).trans s1)
  · exact (f3 _ ham).trans s2
  · rw [l3, l2, l1]
  · intro b b1 b2 b3
    exact (f3 b b2).trans ((f2 b b1).trans (f1 b b3))

theorem Realizes.reparent {h h' : Heap T} {par par' : Ptr} {a : Nat} {l r : ATree T} {p : Int}
    {v : T} {d : Bool} {c : List (Nat × T)} {n : NODE T}
    (R : Realizes h par (.node a l p v d c r)) (ha : h[a]? = some (some n))
    (ha' : h'[a]? = some (some { n with parent := par' }))
    (same : ∀ b ∈ (ATree.node a l p v d c r).addrs, b ≠ a → h'[b]? = h[b]?)
    (nd : (ATree.node a l p v d c r).addrs.Nodup) :
    Realizes h' par' (.node a l p v d c r) := by
  obtain ⟨Ra, Rc, Rl, Rr⟩ := R
  simp only [ATree.addrs, List.nodup_cons, List.mem_append, not_or] at nd
  obtain ⟨⟨hac, hal, har⟩, -⟩ := nd
  rw [Ra] at ha
  obtain rfl := Option.some.inj (Option.some.inj ha)
  refine Realizes.mk ha' ?_ ?_ ?_
  · exact Rc.frame (fun b hb => same b (ATree.mem_addrs_node.mpr (Or.inr (Or.inl hb)))
      (fun e => hac (e ▸ hb)))
  · exact Rl.congr (fun b hb => same b (ATree.mem_addrs_node.mpr (Or.inr (Or.inr (Or.inl hb))))
      (fun e => hal (e ▸ hb)))
  · exact Rr.congr (fun b hb => same b (ATree.mem_addrs_node.mpr (Or.inr (Or.inr (Or.inr hb))))
      (fun e => har (e ▸ hb)))

/-- The removal of the leftmost node of a subtree `l` that hangs to the left
of the node `a`: `dequeueAt` returns its value and leaves `l.cutMin` in place
of `l`, everything outside `l` and `a` untouched. -/
theorem dequeueAt_sub (q : priorityqueue T) :
    ∀ (l : ATree T) (a : Nat) (na : NODE T), l ≠ .nil → Realizes q.heap (some a) l →
      (a :: l.addrs).Nodup → q.heap[a]? = some (some na) → na.left = l.ptr →
      (∀ b ∈ l.addrs, some b ≠ q.root) →
      ∃ m v h', l.minAddr = some m ∧ l.minVal = some v ∧
        dequeueAt q (some m) = .ok (v, { q with heap := h', size := wrapInt (q.size - 1) }) ∧
        Realizes h' (some a) l.cutMin ∧
        h'[a]? = some (some { na with left := l.cutMin.ptr }) ∧
        h'.length = q.heap.length ∧ ∀ b, b ∉ a :: l.addrs → h'[b]? = q.heap[b]? := by
  intro l
  induction l with
  | nil => intro a na ne; exact absurd rfl ne
  | node m ll p v d c r ihl _ =>
    intro a na _ R nd ha hl hroot
    have R' := R
    obtain ⟨Rm, Rc, Rl, Rr⟩ := R
    have ndt : (ATree.node m ll p v d c r).addrs.Nodup := (List.nodup_cons.mp nd).2
    rw [List.nodup_cons, ATree.mem_addrs_node, not_or, not_or, not_or] at nd
    obtain ⟨⟨ham, hac, hal, har⟩, nd⟩ := nd
    simp only [ATree.addrs, List.nodup_cons, List.mem_append, not_or, List.nodup_append,
      List.Disjoint] at nd
    obtain ⟨⟨hmc, hml, hmr⟩, ndc, ⟨ndl, ndr, dlr⟩, dc⟩ := nd
    have hrm : some m ≠ q.root := hroot m (ATree.mem_addrs_node.mpr (Or.inl rfl))
    rw [ATree.ptr_node] at hl
    have frame : ∀ b, b ∉ a :: (ATree.node m ll p v d c r).addrs → b ≠ a ∧ b ≠ m ∧
        b ∉ c.map Prod.fst ∧ b ∉ ll.addrs ∧ b ∉ r.addrs := by
      intro b hb
      rw [List.mem_cons, ATree.mem_addrs_node, not_or, not_or, not_or, not_or] at hb
      exact hb
    cases ll with
    | nil =>
      cases c with
      | nil =>
        cases r with
        | nil =>
          obtain ⟨h', e1, e2, e3, e4⟩ := dequeueAt_leaf q a m na p v d Rm ham ha hl hrm
          exact ⟨m, v, h', rfl, rfl, e1, trivial, e2, e3,
            fun b hb => e4 b (frame b hb).1 (frame b hb).2.1⟩
        | node rb rl rp rv rd rc rr =>
          have Rb := Rr.1
          have hab : a ≠ rb := fun e => har (e ▸ ATree.mem_addrs_node.mpr (Or.inl rfl))
          have hmb : m ≠ rb := fun e => hmr (e ▸ ATree.mem_addrs_node.mpr (Or.inl rfl))
          obtain ⟨h', e1, e2, e3, e4, e5⟩ :=
            dequeueAt_child q a m rb na _ p v d Rm Rb ham hab hmb ha hl hrm
          refine ⟨m, v, h', rfl, rfl, e1, ?_, e3, e4, ?_⟩
          · refine Realizes.reparent Rr Rb e2 (fun b hb hne => e5 b ?_ ?_ hne) ndr
            · exact fun e => har (e ▸ hb)
            · exact fun e => hmr (e ▸ hb)
          · intro b hb
            obtain ⟨b1, b2, -, -, b5⟩ := frame b hb
            exact e5 b b1 b2 (fun e => b5 (e ▸ ATree.mem_addrs_node.mpr (Or.inl rfl)))
      | cons e c =>
        obtain ⟨Re, Rc⟩ := Rc
        simp only [List.map_cons, List.mem_cons, not_or, List.nodup_cons] at hac hmc ndc
        obtain ⟨h', e1, e2, e3, e4, e5⟩ :=
          dequeueAt_chain q a m na p v d e c r.ptr Rm Re ham hac.1 hmc.1 ha hl hrm
        refine ⟨m, v, h', rfl, rfl, e1, Realizes.mk e2 ?_ trivial trivial, e3, e4, ?_⟩
        · refine Rc.frame (fun b hb => e5 b ?_ ?_ ?_)
          · exact fun e' => hac.2 (e' ▸ hb)
          · exact fun e' => hmc.2 (e' ▸ hb)
          · exact fun e' => ndc.1 (e' ▸ hb)
        · intro b hb
          obtain ⟨b1, b2, b3, -, -⟩ := frame b hb
          simp only [List.map_cons, List.mem_cons, not_or] at b3
          exact e5 b b1 b2 b3.1
    | node a2 l2 p2 v2 d2 c2 r2 =>
      obtain ⟨m', v', h', e1, e2, e3, e4, e5, e6, e7⟩ := ihl m _ (by simp) Rl
        (List.nodup_cons.mpr ⟨hml, ndl⟩) Rm rfl
        (fun b hb => hroot b (ATree.mem_addrs_node.mpr (Or.inr (Or.inr (Or.inl hb)))))
      have out : ∀ b, b ≠ m → b ∉ (ATree.node a2 l2 p2 v2 d2 c2 r2).addrs →
          h'[b]? = q.heap[b]? := by
        intro b b1 b2
        exact e7 b (by
          rw [List.mem_cons, not_or]
          exact ⟨b1, b2⟩)
      rw [ATree.cutMin_left _ _ _ _ _ _ _ (by simp)]
      refine ⟨m', v', h', e1, e2, e3, Realizes.mk e5 ?_ e4 ?_, ?_, e6, ?_⟩
      · exact Rc.frame (fun b hb => out b (fun e => hmc (e ▸ hb)) (fun hb' => dc hb (Or.inl hb')))
      · exact Rr.congr (fun b hb => out b (fun e => hmr (e ▸ hb)) (fun hb' => dlr hb' hb))
      · rw [out a ham hal, ha, ATree.ptr_node, ← hl]
      · intro b hb
        obtain ⟨-, b2, -, b4, -⟩ := frame b hb
        exact out b b2 b4

theorem ATree.cutMin_addrs (t : ATree T) : t.cutMin.addrs.Sublist t.addrs := by
  induction t with
  | nil => exact List.Sublist.refl _
  | node a l p v d c r ihl _ =>
    cases l with
    | nil =>
      cases c with
      | nil =>
        rw [ATree.cutMin_leaf]
        simp only [ATree.addrs, List.map_nil, List.nil_append]
        exact List.sublist_cons_self _ _
      | cons e c =>
        rw [ATree.cutMin_chain]
        simp only [ATree.addrs, List.map_cons, List.nil_append, List.append_nil, List.cons_append]
        exact (List.Sublist.cons₂ _ (List.sublist_append_left _ _)).cons _
    | node a2 l2 p2 v2 d2 c2 r2 =>
      rw [ATree.cutMin_left _ _ _ _ _ _ _ (by simp)]
      simp only [ATree.addrs] at ihl ⊢
      exact List.Sublist.cons₂ _
        (List.Sublist.append (List.Sublist.refl _) (List.Sublist.append ihl (List.Sublist.refl _)))

theorem ATree.deq_addrs (t : ATree T) : t.deq.addrs.Sublist t.addrs := by
  cases t with
  | nil => exact List.Sublist.refl _
  | node a l p v d c r =>
    cases l with
    | nil =>
      cases c with
      | nil =>
        cases r with
        | nil => exact List.Sublist.refl _
        | node => exact ATree.cutMin_addrs _
      | cons => exact ATree.cutMin_addrs _
    | node => exact ATree.cutMin_addrs _

/-- The call `dequeue()` on a queue that owns the non-empty tree `t` returns
the value of the leftmost node and leaves the queue owning `t.deq`. -/
theorem dequeue_spec {q : priorityqueue T} {par : Ptr} {t : ATree T}
    (R : Realizes q.heap par t) (nd : t.addrs.Nodup) (hr : q.root = t.ptr) (ne : t ≠ .nil) :
    ∃ v q' par', dequeue q = .ok (v, q') ∧ t.minVal = some v ∧ q'.root = t.deq.ptr ∧
      q'.size = wrapInt (q.size - 1) ∧ q'.curr = q.curr ∧ q'.heap.length = q.heap.length ∧
      Realizes q'.heap par' t.deq := by
  obtain ⟨m, n, k1, k2, k3, k4, k5⟩ :=
    leftmost_spec t par (q.heap.length + 1) ne R (le_trans (R.height_le nd) (Nat.le_succ _))
  cases t with
  | nil => exact absurd rfl ne
  | node a l p v d c r =>
    have hr' : q.root = some a := hr
    have start : dequeue q = dequeueAt q (some m) := by
      simp only [dequeue, hr', reduceCtorEq, if_false, bind, Except.bind]
      rw [ATree.ptr_node] at k2
      rw [k2]
    have R' := R
    obtain ⟨Ra, Rc, Rl, Rr⟩ := R
    rw [start]
    cases l with
    | nil =>
      obtain rfl : a = m := Option.some.inj k1
      cases c with
      | nil =>
        cases r with
        | nil =>
          refine ⟨v, ({ q with size := wrapInt (q.size - 1) } : priorityqueue T), par, ?_, rfl, hr', rfl,
            rfl, rfl, R'⟩
          simp only [dequeueAt, removeNode, deref_of Ra, hr', chainPtr_nil, ATree.ptr_nil, bind,
            Except.bind, ne_eq, not_true_eq_false, if_true, if_false]
          rfl
        | node rb rl rp rv rd rc rr =>
          refine ⟨v, ({ q with root := some rb, size := wrapInt (q.size - 1) } : priorityqueue T), some a,
            ?_, rfl, rfl, rfl, rfl, rfl, Rr⟩
          simp only [dequeueAt, removeNode, deref_of Ra, hr', chainPtr_nil, ATree.ptr_node, bind,
            Except.bind, ne_eq, not_true_eq_false, reduceCtorEq, not_false_eq_true, if_true,
            if_false]
          rfl
      | cons e c =>
        obtain ⟨Re, Rc⟩ := Rc
        simp only [ATree.addrs, List.map_cons, List.nodup_cons, List.mem_cons, List.mem_append,
          not_or] at nd
        obtain ⟨⟨⟨hae, hac⟩, -⟩, ⟨⟨hec, -⟩, -⟩, -⟩ := nd
        obtain ⟨h1, u1, s1, l1, f1⟩ := free_step Ra
        refine ⟨v, ({ q with heap := h1, root := some e.1, size := wrapInt (q.size - 1) } :
          priorityqueue T), none, ?_, rfl, rfl, rfl, rfl, l1, Realizes.mk ?_ ?_ trivial trivial⟩
        · simp only [dequeueAt, deref_of Ra, hr', chainPtr_cons, bind, Except.bind, ne_eq,
            reduceCtorEq, not_false_eq_true, if_true, u1]
          rfl
        · exact (f1 _ (Ne.symm hae)).trans Re
        · exact Rc.frame (fun b hb => f1 b (fun e' => hac (e' ▸ hb)))
    | node a2 l2 p2 v2 d2 c2 r2 =>
      have nda : (a :: (ATree.node a2 l2 p2 v2 d2 c2 r2).addrs).Nodup := by
        simp only [ATree.addrs, List.nodup_cons, List.mem_append, List.mem_cons, not_or,
          List.nodup_append] at nd ⊢
        tauto
      have hroot : ∀ b ∈ (ATree.node a2 l2 p2 v2 d2 c2 r2).addrs, some b ≠ q.root := by
        intro b hb e
        rw [hr'] at e
        obtain rfl := Option.some.inj e
        exact (List.nodup_cons.mp nda).1 hb
      obtain ⟨m', v', h', e1, e2, e3, e4, e5, e6, e7⟩ :=
        dequeueAt_sub q _ a _ (by simp) Rl nda Ra rfl hroot
      have hm : m' = m := Option.some.inj (e1.symm.trans k1)
      subst hm
      have out : ∀ b, b ≠ a → b ∉ (ATree.node a2 l2 p2 v2 d2 c2 r2).addrs →
          h'[b]? = q.heap[b]? := by
        intro b b1 b2
        exact e7 b (by
          rw [List.mem_cons, not_or]
          exact ⟨b1, b2⟩)
      simp only [ATree.addrs, List.nodup_cons, List.mem_append, not_or, List.nodup_append,
        List.Disjoint] at nd
      obtain ⟨⟨hac, hal, har⟩, ndc, ⟨ndl, ndr, dlr⟩, dc⟩ := nd
      refine ⟨v', ({ q with heap := h', size := wrapInt (q.size - 1) } : priorityqueue T), par, e3, e2, hr',
        rfl, rfl, e6, Realizes.mk e5 ?_ e4 ?_⟩
      · exact Rc.frame (fun b hb => out b (fun e => hac (e ▸ hb)) (fun hb' => dc hb (Or.inl hb')))
      · exact Rr.congr (fun b hb => out b (fun e => har (e ▸ hb)) (fun hb' => dlr hb' hb))

theorem WF_dequeue {q : priorityqueue T} (w : WF q) :
    (q.root = none ∧ dequeue q = .error .emptyQueue) ∨
    ∃ v q', dequeue q = .ok (v, q') ∧ WF q' ∧ q'.size = wrapInt (q.size - 1) := by
  obtain ⟨par, t, R, nd, hr, hc⟩ := w
  by_cases ne : t = .nil
  · subst ne
    exact Or.inl ⟨hr, by simp [dequeue, hr, ATree.ptr_nil]⟩
  · obtain ⟨v, q', par', e, _, r1, r2, r3, _, r5⟩ := dequeue_spec R nd hr ne
    exact Or.inr ⟨v, q', e, ⟨par', _, r5, (ATree.deq_addrs t).nodup nd, r1, r3.trans hc⟩, r2⟩

/-! ## `clear` and assignment on the abstract view -/

theorem clearChain_spec {p : Int} :
    ∀ (c : List (Nat × T)) (h : Heap T) (fuel : Nat), ChainR h p c → (c.map Prod.fst).Nodup →
      c.length ≤ fuel →
      ∃ h', clearChain fuel h (chainPtr c) = .ok h' ∧ h'.length = h.length ∧
        ∀ b, b ∉ c.map Prod.fst → h'[b]? = h[b]? := by
  intro c
  induction c with
  | nil =>
    intro h fuel _ _ _
    refine ⟨h, ?_, rfl, fun _ _ => rfl⟩
    cases fuel <;> rfl
  | cons e c ih =>
    intro h fuel R nd hf
    obtain ⟨f, rfl⟩ : ∃ f, fuel = f + 1 := ⟨fuel - 1, by simp at hf; omega⟩
    obtain ⟨R1, R2⟩ := R
    simp only [List.map_cons, List.nodup_cons] at nd
    obtain ⟨h1, u1, _, l1, f1⟩ := free_step R1
    have R2' : ChainR h1 p c := R2.frame (fun b hb => f1 b (fun e' => nd.1 (e' ▸ hb)))
    obtain ⟨h2, u2, l2, f2⟩ := ih h1 f R2' nd.2 (by simp at hf; omega)
    refine ⟨h2, ?_, l2.trans l1, ?_⟩
    · simp only [clearChain, chainPtr_cons, deref_of R1, u1, bind, Except.bind]
      exact u2
    · intro b hb
      simp only [List.map_cons, List.mem_cons, not_or] at hb
      exact (f2 b hb.2).trans (f1 b hb.1)

theorem clearHelper_spec :
    ∀ (t : ATree T) (h : Heap T) (par : Ptr) (fuel : Nat), Realizes h par t → t.addrs.Nodup →
      t.height ≤ fuel →
      ∃ h', clearHelper fuel h t.ptr = .ok h' ∧ h'.length = h.length ∧
        ∀ b, b ∉ t.addrs → h'[b]? = h[b]? := by
  intro t
  induction t with
  | nil =>
    intro h par fuel _ _ _
    refine ⟨h, ?_, rfl, fun _ _ => rfl⟩
    cases fuel <;> rfl
  | node a l p v d c r ihl ihr =>
    intro h par fuel R nd hf
    obtain ⟨Ra, Rc, Rl, Rr⟩ := R
    obtain ⟨f, rfl⟩ : ∃ f, fuel = f + 1 := ⟨fuel - 1, by simp [ATree.height] at hf; omega⟩
    simp only [ATree.height] at hf
    simp only [ATree.addrs, List.nodup_cons, List.mem_append, not_or, List.nodup_append,
      List.Disjoint] at nd
    obtain ⟨⟨hac, hal, har⟩, ndc, ⟨ndl, ndr, dlr⟩, dc⟩ := nd
    obtain ⟨h1, u1, l1, f1⟩ := ihl h (some a) f Rl ndl (by omega)
    have Ra1 := (f1 a hal).trans Ra
    have Rr1 : Realizes h1 (some a) r := Rr.congr (fun b hb => f1 b (fun hb' => dlr hb' hb))
    obtain ⟨h2, u2, l2, f2⟩ := ihr h1 (some a) f Rr1 ndr (by omega)
    have Ra2 := (f2 a har).trans Ra1
    have Rc2 : ChainR h2 p c := Rc.frame (fun b hb =>
      (f2 b (fun hb' => dc hb (Or.inr hb'))).trans (f1 b (fun hb' => dc hb (Or.inl hb'))))
    have clen : c.length ≤ h2.length + 1 := by
      have := length_le_of_nodup_lt ndc Rc2.live
      simp at this
      omega
    obtain ⟨h3, u3, l3, f3⟩ := clearChain_spec c h2 _ Rc2 ndc clen
    have Ra3 := (f3 a hac).trans Ra2
    obtain ⟨h4, u4, _, l4, f4⟩ := free_step Ra3
    refine ⟨h4, ?_, ?_, ?_⟩
    · simp only [clearHelper, ATree.ptr_node, deref_of Ra, u1, deref_of Ra1, u2, deref_of Ra2, u3,
        bind, Except.bind]
      exact u4
    · rw [l4, l3, l2, l1]
    · intro b hb
      rw [ATree.mem_addrs_node, not_or, not_or, not_or] at hb
      exact (f4 b hb.1).trans ((f3 b hb.2.1).trans ((f2 b hb.2.2.2).trans (f1 b hb.2.2.1)))

/-- The call `clear()` on a queue that owns a well-formed tree returns and
leaves the members as the constructor sets them. -/
theorem clear_spec {q : priorityqueue T} (w : WF q) :
    ∃ q', clear q = .ok q' ∧ q'.root = none ∧ q'.size = 0 ∧ q'.curr = none ∧ WF q' := by
  obtain ⟨par, t, R, nd, hr, _⟩ := w
  obtain ⟨h', u, _, _⟩ :=
    clearHelper_spec t q.heap par (q.heap.length + 1) R nd
      (le_trans (R.height_le nd) (Nat.le_succ _))
  refine ⟨({ heap := h', root := none, size := 0, curr := none } : priorityqueue T), ?_, rfl, rfl,
    rfl, none, .nil, trivial, List.nodup_nil, rfl, rfl⟩
  simp only [clear, hr, u, bind, Except.bind]
  rfl

theorem copyChain_spec {oh : Heap T} {p : Int} :
    ∀ (c : List (Nat × T)) (fuel : Nat) (q : priorityqueue T), ChainR oh p c → c.length ≤ fuel →
      WF q → ∃ q', copyChain oh fuel (chainPtr c) q = .ok q' ∧ WF q' := by
  intro c
  induction c with
  | nil =>
    intro fuel q _ _ w
    refine ⟨q, ?_, w⟩
    cases fuel <;> rfl
  | cons e c ih =>
    intro fuel q R hf w
    obtain ⟨f, rfl⟩ : ∃ f, fuel = f + 1 := ⟨fuel - 1, by simp at hf; omega⟩
    obtain ⟨R1, R2⟩ := R
    obtain ⟨q1, e1, w1, _⟩ := WF_enqueue w e.2 p
    obtain ⟨q2, e2, w2⟩ := ih f q1 R2 (by simp at hf; omega) w1
    refine ⟨q2, ?_, w2⟩
    simp only [copyChain, chainPtr_cons, deref_of R1, e1, bind, Except.bind]
    exact e2

theorem copyTree_spec {oh : Heap T} :
    ∀ (t : ATree T) (par : Ptr) (fuel : Nat) (q : priorityqueue T), Realizes oh par t →
      t.addrs.Nodup → t.height ≤ fuel → WF q →
      ∃ q', copyTree oh fuel t.ptr q = .ok q' ∧ WF q' := by
  intro t
  induction t with
  | nil =>
    intro par fuel q _ _ _ w
    refine ⟨q, ?_, w⟩
    cases fuel <;> rfl
  | node a l p v d c r ihl ihr =>
    intro par fuel q R nd hf w
    obtain ⟨Ra, Rc, Rl, Rr⟩ := R
    obtain ⟨f, rfl⟩ : ∃ f, fuel = f + 1 := ⟨fuel - 1, by simp [ATree.height] at hf; omega⟩
    simp only [ATree.height] at hf
    simp only [ATree.addrs, List.nodup_cons, List.mem_append, not_or, List.nodup_append] at nd
    obtain ⟨-, ndc, ⟨ndl, ndr, -⟩, -⟩ := nd
    have clen : c.length ≤ oh.length + 1 := by
      have := length_le_of_nodup_lt ndc Rc.live
      simp at this
      omega
    obtain ⟨q1, e1, w1, _⟩ := WF_enqueue w v p
    cases d with
    | false =>
      obtain ⟨q3, e3, w3⟩ := ihl (some a) f q1 Rl ndl (by omega) w1
      obtain ⟨q4, e4, w4⟩ := ihr (some a) f q3 Rr ndr (by omega) w3
      refine ⟨q4, ?_, w4⟩
      simp only [copyTree, ATree.ptr_node, deref_of Ra, e1, e3, bind, Except.bind, pure,
        Except.pure, Bool.false_eq_true, if_false]
      exact e4
    | true =>
      obtain ⟨q2, e2, w2⟩ := copyChain_spec c _ q1 Rc clen w1
      obtain ⟨q3, e3, w3⟩ := ihl (some a) f q2 Rl ndl (by omega) w2
      obtain ⟨q4, e4, w4⟩ := ihr (some a) f q3 Rr ndr (by omega) w3
      refine ⟨q4, ?_, w4⟩
      simp only [copyTree, ATree.ptr_node, deref_of Ra, e1, e2, e3, bind, Except.bind, if_true]
      exact e4

/-- The assignment `this = other` between queues that own well-formed trees
returns and leaves `this` owning a well-formed tree. -/
theorem assign_WF {this other : priorityqueue T} (w : WF this) (wo : WF other) :
    ∃ q', assign this other = .ok q' ∧ WF q' ∧ q'.size = other.size := by
  obtain ⟨q0, e0, _, _, _, w0⟩ := clear_spec w
  obtain ⟨par, t, R, nd, hr, hc⟩ := wo
  obtain ⟨q1, e1, par1, t1, R1, nd1, hr1, hc1⟩ :=
    copyTree_spec t par (other.heap.length + 1) q0 R nd
      (le_trans (R.height_le nd) (Nat.le_succ _)) w0
  refine ⟨({ q1 with size := other.size, curr := none } : priorityqueue T), ?_,
    ⟨par1, t1, R1, nd1, hr1, rfl⟩, rfl⟩
  simp only [assign, e0, hr, e1, hc, bind, Except.bind, ne_eq, not_true_eq_false, if_false]
  rfl

/-- Every reachable queue owns a well-formed tree. -/
theorem Reachable.wf {q : priorityqueue T} (r : Reachable q) : WF q := by
  induction r with
  | new => exact WF_new
  | enqueue v p _ e ih =>
    obtain ⟨q1, e1, w1, _⟩ := WF_enqueue ih v p
    rw [e1] at e
    obtain rfl := Except.ok.inj e
    exact w1
  | dequeue _ e ih =>
    rcases WF_dequeue ih with ⟨_, e1⟩ | ⟨v1, q1, e1, w1, _⟩
    · rw [e1] at e
      cases e
    · rw [e1] at e
      obtain ⟨-, rfl⟩ := Prod.mk.inj (Except.ok.inj e)
      exact w1
  | clear _ e ih =>
    obtain ⟨q1, e1, _, _, _, w1⟩ := clear_spec ih
    rw [e1] at e
    obtain rfl := Except.ok.inj e
    exact w1
  | assign _ _ e ih iho =>
    obtain ⟨q1, e1, w1, _⟩ := assign_WF ih iho
    rw [e1] at e
    obtain rfl := Except.ok.inj e
    exact w1

/-! ## Runs -/

theorem peek_spec {q : priorityqueue T} {par : Ptr} {t : ATree T}
    (R : Realizes q.heap par t) (nd : t.addrs.Nodup) (hr : q.root = t.ptr) (ne : t ≠ .nil) :
    ∃ v, peek q = .ok (v, q) ∧ t.minVal = some v := by
  obtain ⟨m, n, _, k2, k3, k4, _⟩ :=
    leftmost_spec t par (q.heap.length + 1) ne R (le_trans (R.height_le nd) (Nat.le_succ _))
  refine ⟨n.value, ?_, k4⟩
  simp only [peek, hr, k2, deref_of k3, bind, Except.bind]
  rfl

theorem ATree.insAll_ne_nil {es : List (T × Int)} (ne : es ≠ []) :
    ATree.insAll 0 (.nil : ATree T) es ≠ .nil := by
  intro h
  have e := ATree.insAll_entries es
  rw [h] at e
  have perm := (sortedEntries_stable es).2.1
  rw [← e] at perm
  exact ne (List.Perm.eq_nil perm.symm)

/-- On the queue of a non-empty run of `enqueue` calls `peek` and `dequeue`
return the value of the entry of smallest priority enqueued first; `peek`
leaves the queue as it is. -/
theorem build_min {es : List (T × Int)} (ne : es ≠ []) :
    ∃ q v p q', build es = .ok q ∧ firstMin es = some (v, p) ∧ peek q = .ok (v, q) ∧
      dequeue q = .ok (v, q') ∧ q'.size = wrapInt (q.size - 1) := by
  obtain ⟨q, e, r1, _, _, r4, r5⟩ := build_spec es
  have tne := ATree.insAll_ne_nil ne
  obtain ⟨v, q', _, d1, d2, _, d4, _⟩ := dequeue_spec r5 r4 r1 tne
  obtain ⟨v', p1, p2⟩ := peek_spec r5 r4 r1 tne
  obtain rfl : v' = v := Option.some.inj (p2.symm.trans d2)
  rw [ATree.minVal_eq, ATree.insAll_entries, head?_sortedEntries] at d2
  cases hf : firstMin es with
  | none => rw [hf] at d2; cases d2
  | some x =>
    rw [hf] at d2
    obtain rfl : x.1 = v' := Option.some.inj d2
    exact ⟨q, x.1, x.2, q', e, rfl, p1, d1, d4⟩

theorem count_bounds (ops : List (Op T)) :
    0 ≤ countEnq ops ∧ 0 ≤ countDeq ops ∧ countEnq ops + countDeq ops = ops.length := by
  induction ops with
  | nil => simp [countEnq, countDeq]
  | cons o os ih =>
    cases o <;> simp only [countEnq, countDeq, List.length_cons, Nat.cast_add, Nat.cast_one] <;>
      omega

theorem run_spec (ops : List (Op T)) :
    ∀ q : priorityqueue T, WF q → wrapInt q.size = q.size →
      (∃ q', run q ops = .ok q' ∧ WF q' ∧
        q'.size = wrapInt (q.size + countEnq ops - countDeq ops)) ∨
      run q ops = .error .emptyQueue := by
  induction ops with
  | nil =>
    intro q w hq
    exact Or.inl ⟨q, rfl, w, by simpa [countEnq, countDeq] using hq.symm⟩
  | cons o os ih =>
    intro q w hq
    cases o with
    | enq v p =>
      obtain ⟨q1, e1, w1, s1⟩ := WF_enqueue w v p
      rcases ih q1 w1 (by rw [s1, wrapInt_wrapInt]) with ⟨q2, e2, w2, s2⟩ | e2
      · refine Or.inl ⟨q2, ?_, w2, ?_⟩
        · simp only [run, step, e1, bind, Except.bind]
          exact e2
        · rw [s2, s1]
          simp only [countEnq, countDeq]
          unfold wrapInt
          omega
      · refine Or.inr ?_
        simp only [run, step, e1, bind, Except.bind]
        exact e2
    | deq =>
      rcases WF_dequeue w with ⟨_, e1⟩ | ⟨v1, q1, e1, w1, s1⟩
      · refine Or.inr ?_
        simp only [run, step, e1, bind, Except.bind]
      · rcases ih q1 w1 (by rw [s1, wrapInt_wrapInt]) with ⟨q2, e2, w2, s2⟩ | e2
        · refine Or.inl ⟨q2, ?_, w2, ?_⟩
          · simp only [run, step, e1, bind, Except.bind, pure, Except.pure]
            exact e2
          · rw [s2, s1]
            simp only [countEnq, countDeq]
            unfold wrapInt
            omega
        · refine Or.inr ?_
          simp only [run, step, e1, bind, Except.bind, pure, Except.pure]
          exact e2

theorem join_foldl (l : List String) :
    ∀ acc : String, l.foldl (fun r s => r ++ s) acc = acc ++ l.foldl (fun r s => r ++ s) "" := by
  induction l with
  | nil => intro acc; simp
  | cons s l ih =>
    intro acc
    rw [List.foldl_cons, List.foldl_cons, ih (acc ++ s), ih ("" ++ s), String.empty_append,
      String.append_assoc]

theorem renderEntries_eq_join (render : T → String) (L : List (T × Int)) :
    renderEntries render L =
      String.join (L.map (fun e => ToString.toString e.2 ++ " value: " ++ render e.1 ++ "\n")) := by
  induction L with
  | nil => rfl
  | cons e L ih =>
    rw [renderEntries, ih, List.map_cons, String.join, String.join, List.foldl_cons,
      join_foldl _ ("" ++ _), String.empty_append]
    rfl

/-! ## The search-tree ordering in reachable queues -/

theorem ATree.cutMin_prios (t : ATree T) : ∀ x ∈ t.cutMin.prios, x ∈ t.prios := by
  induction t with
  | nil => intro x hx; exact hx
  | node a l p v d c r ihl _ =>
    intro x hx
    cases l with
    | nil =>
      cases c with
      | nil =>
        rw [ATree.cutMin_leaf] at hx
        simp only [ATree.prios, List.nil_append, List.mem_cons]
        exact Or.inr hx
      | cons e c =>
        rw [ATree.cutMin_chain] at hx
        simp only [ATree.prios, List.nil_append, List.mem_cons, List.mem_singleton,
          List.not_mem_nil, or_false] at hx ⊢
        exact Or.inl hx
    | node a2 l2 p2 v2 d2 c2 r2 =>
      rw [ATree.cutMin_left _ _ _ _ _ _ _ (by simp)] at hx
      rw [ATree.prios, List.mem_append, List.mem_cons] at hx
      rw [ATree.prios, List.mem_append, List.mem_cons]
      rcases hx with hx | hx | hx
      · exact Or.inl (ihl x hx)
      · exact Or.inr (Or.inl hx)
      · exact Or.inr (Or.inr hx)

theorem ATree.cutMin_BST {t : ATree T} (bst : t.BST) : t.cutMin.BST := by
  induction t with
  | nil => exact bst
  | node a l p v d c r ihl _ =>
    obtain ⟨b1, b2, b3, b4⟩ := bst
    cases l with
    | nil =>
      cases c with
      | nil => rw [ATree.cutMin_leaf]; exact b4
      | cons e c =>
        rw [ATree.cutMin_chain]
        exact ⟨fun x hx => by simp [ATree.prios] at hx, fun x hx => by simp [ATree.prios] at hx,
          trivial, trivial⟩
    | node a2 l2 p2 v2 d2 c2 r2 =>
      rw [ATree.cutMin_left _ _ _ _ _ _ _ (by simp)]
      exact ⟨fun x hx => b1 x (ATree.cutMin_prios _ x hx), b2, ihl b3, b4⟩

theorem ATree.deq_BST {t : ATree T} (bst : t.BST) : t.deq.BST := by
  cases t with
  | nil => exact bst
  | node a l p v d c r =>
    cases l with
    | nil =>
      cases c with
      | nil =>
        cases r with
        | nil => exact bst
        | node => exact ATree.cutMin_BST bst
      | cons => exact ATree.cutMin_BST bst
    | node => exact ATree.cutMin_BST bst

theorem Ordered_enqueue {q : priorityqueue T} (w : Ordered q) (val : T) (pr : Int) :
    ∃ q', enqueue q val pr = .ok q' ∧ Ordered q' := by
  obtain ⟨par, t, R, nd, hr, hc, bst⟩ := w
  obtain ⟨q', e, r1, _, r3, _, r5, par', r6, _⟩ := enqueue_spec R nd hr val pr
  exact ⟨q', e, par', _, r6, r5, r1, r3.trans hc, ATree.ins_BST _ _ _ bst⟩

theorem copyChain_inv {oh : Heap T} {p : Int} (P : priorityqueue T → Prop)
    (stepP : ∀ (q : priorityqueue T) (v : T) (pr : Int), P q → ∃ q', enqueue q v pr = .ok q' ∧ P q') :
    ∀ (c : List (Nat × T)) (fuel : Nat) (q : priorityqueue T), ChainR oh p c → c.length ≤ fuel →
      P q → ∃ q', copyChain oh fuel (chainPtr c) q = .ok q' ∧ P q' := by
  intro c
  induction c with
  | nil =>
    intro fuel q _ _ w
    refine ⟨q, ?_, w⟩
    cases fuel <;> rfl
  | cons e c ih =>
    intro fuel q R hf w
    obtain ⟨f, rfl⟩ : ∃ f, fuel = f + 1 := ⟨fuel - 1, by simp at hf; omega⟩
    obtain ⟨R1, R2⟩ := R
    obtain ⟨q1, e1, w1⟩ := stepP q e.2 p w
    obtain ⟨q2, e2, w2⟩ := ih f q1 R2 (by simp at hf; omega) w1
    refine ⟨q2, ?_, w2⟩
    simp only [copyChain, chainPtr_cons, deref_of R1, e1, bind, Except.bind]
    exact e2

theorem copyTree_inv {oh : Heap T} (P : priorityqueue T → Prop)
    (stepP : ∀ (q : priorityqueue T) (v : T) (pr : Int), P q → ∃ q', enqueue q v pr = .ok q' ∧ P q') :
    ∀ (t : ATree T) (par : Ptr) (fuel : Nat) (q : priorityqueue T), Realizes oh par t →
      t.addrs.Nodup → t.height ≤ fuel → P q →
      ∃ q', copyTree oh fuel t.ptr q = .ok q' ∧ P q' := by
  intro t
  induction t with
  | nil =>
    intro par fuel q _ _ _ w
    refine ⟨q, ?_, w⟩
    cases fuel <;> rfl
  | node a l p v d c r ihl ihr =>
    intro par fuel q R nd hf w
    obtain ⟨Ra, Rc, Rl, Rr⟩ := R
    obtain ⟨f, rfl⟩ : ∃ f, fuel = f + 1 := ⟨fuel - 1, by simp [ATree.height] at hf; omega⟩
    simp only [ATree.height] at hf
    simp only [ATree.addrs, List.nodup_cons, List.mem_append, not_or, List.nodup_append] at nd
    obtain ⟨-, ndc, ⟨ndl, ndr, -⟩, -⟩ := nd
    have clen : c.length ≤ oh.length + 1 := by
      have := length_le_of_nodup_lt ndc Rc.live
      simp at this
      omega
    obtain ⟨q1, e1, w1⟩ := stepP q v p w
    cases d with
    | false =>
      obtain ⟨q3, e3, w3⟩ := ihl (some a) f q1 Rl ndl (by omega) w1
      obtain ⟨q4, e4, w4⟩ := ihr (some a) f q3 Rr ndr (by omega) w3
      refine ⟨q4, ?_, w4⟩
      simp only [copyTree, ATree.ptr_node, deref_of Ra, e1, e3, bind, Except.bind, pure,
        Except.pure, Bool.false_eq_true, if_false]
      exact e4
    | true =>
      obtain ⟨q2, e2, w2⟩ := copyChain_inv P stepP c _ q1 Rc clen w1
      obtain ⟨q3, e3, w3⟩ := ihl (some a) f q2 Rl ndl (by omega) w2
      obtain ⟨q4, e4, w4⟩ := ihr (some a) f q3 Rr ndr (by omega) w3
      refine ⟨q4, ?_, w4⟩
      simp only [copyTree, ATree.ptr_node, deref_of Ra, e1, e2, e3, bind, Except.bind, if_true]
      exact e4

/-- Every reachable queue owns a well-formed tree with the search-tree
ordering. -/
theorem Reachable_ordered {q : priorityqueue T} (r : Reachable q) : Ordered q := by
  induction r with
  | new => exact ⟨none, .nil, trivial, List.nodup_nil, rfl, rfl, trivial⟩
  | enqueue v p _ e ih =>
    obtain ⟨q1, e1, w1⟩ := Ordered_enqueue ih v p
    rw [e1] at e
    obtain rfl := Except.ok.inj e
    exact w1
  | @dequeue q0 q1 v _ e ih =>
    obtain ⟨par, t, R, nd, hr, hc, bst⟩ := ih
    by_cases ne : t = .nil
    · subst ne
      simp [dequeue, hr, ATree.ptr_nil] at e
    · obtain ⟨v', q', par', e', _, r1, _, r3, _, r5⟩ := dequeue_spec R nd hr ne
      rw [e'] at e
      obtain ⟨-, rfl⟩ := Prod.mk.inj (Except.ok.inj e)
      exact ⟨par', _, r5, (ATree.deq_addrs t).nodup nd, r1, r3.trans hc, ATree.deq_BST bst⟩
  | clear rq e _ =>
    obtain ⟨q1, e1, h1, _, h3, _⟩ := clear_spec rq.wf
    rw [e1] at e
    obtain rfl := Except.ok.inj e
    exact ⟨none, .nil, trivial, List.nodup_nil, h1, h3, trivial⟩
  | @assign q0 o q1 rq ro e _ iho =>
    obtain ⟨q2, e0, h1, _, h3, _⟩ := clear_spec rq.wf
    obtain ⟨par, t, R, nd, hr, hc, _⟩ := iho
    obtain ⟨q3, e3, par3, t3, R3, nd3, hr3, hc3, bst3⟩ :=
      copyTree_inv Ordered (fun q v pr w => Ordered_enqueue w v pr) t par (o.heap.length + 1) q2 R
        nd (le_trans (R.height_le nd) (Nat.le_succ _))
        ⟨none, .nil, trivial, List.nodup_nil, h1, h3, trivial⟩
    have : assign q0 o = .ok ({ q3 with size := o.size, curr := none } : priorityqueue T) := by
      simp only [assign, e0, hr, e3, hc, bind, Except.bind, ne_eq, not_true_eq_false, if_false]
      rfl
    rw [this] at e
    obtain rfl := Except.ok.inj e
    exact ⟨par3, t3, R3, nd3, hr3, rfl, bst3⟩

theorem ATree.BST_prios_sorted {t : ATree T} (bst : t.BST) :
    t.prios.Pairwise (fun x y => x < y) := by
  induction t with
  | nil => exact List.Pairwise.nil
  | node a l p v d c r ihl ihr =>
    obtain ⟨b1, b2, b3, b4⟩ := bst
    rw [ATree.prios, List.pairwise_append]
    refine ⟨ihl b3, List.pairwise_cons.mpr ⟨b2, ihr b4⟩, ?_⟩
    intro x hx y hy
    rcases List.mem_cons.mp hy with rfl | hy
    · exact b1 x hx
    · exact lt_trans (b1 x hx) (b2 y hy)

theorem Reachable_enqueueAll (es : List (T × Int)) :
    ∀ {q q' : priorityqueue T}, Reachable q → enqueueAll q es = .ok q' → Reachable q' := by
  induction es with
  | nil =>
    intro q q' r e
    obtain rfl := Except.ok.inj e
    exact r
  | cons x es ih =>
    intro q q' r e
    obtain ⟨q1, e1, _⟩ := WF_enqueue r.wf x.1 x.2
    simp only [enqueueAll, e1, bind, Except.bind] at e
    exact ih (Reachable.enqueue x.1 x.2 r e1) e

theorem Reachable_build {es : List (T × Int)} {q : priorityqueue T} (e : build es = .ok q) :
    Reachable q :=
  Reachable_enqueueAll es Reachable.new e

theorem Reachable_build_dequeue (es : List (T × Int)) (r : T × priorityqueue T)
    (e : (build es >>= dequeue) = .ok r) : Reachable r.2 := by
  obtain ⟨q, hq, _⟩ := build_spec es
  simp only [hq, bind, Except.bind] at e
  exact Reachable.dequeue (Reachable_build hq) e

theorem exampleQueue_reachable : Reachable exampleQueue :=
  Reachable_build_dequeue [("a", 1), ("b", 0), ("c", -1)] ("c", exampleQueue) (by rfl)

/-! ## `enqueue` of a priority that is in the tree -/

theorem mem_prios_build {es : List (T × Int)} {p : Int} (hp : p ∈ es.map Prod.snd) :
    p ∈ (ATree.insAll 0 (.nil : ATree T) es).prios := by
  obtain ⟨x, hx, rfl⟩ := List.mem_map.mp hp
  have perm := (sortedEntries_stable es).2.1
  have : x ∈ (ATree.insAll 0 (.nil : ATree T) es).entries := by
    rw [ATree.insAll_entries]
    exact perm.symm.subset hx
  exact ATree.entries_prio_mem _ x this

theorem ATree.ins_present (new : Nat) (val : T) (pr : Int) {t : ATree T} (bst : t.BST)
    (hp : pr ∈ t.prios) :
    (t.ins new val pr).skeleton = t.skeleton ∧
    (t.ins new val pr).chainOf pr = t.chainOf pr ++ [(new, val)] ∧
    ∀ p', p' ≠ pr → (t.ins new val pr).chainOf p' = t.chainOf p' := by
  induction t with
  | nil => simp [ATree.prios] at hp
  | node a l p v d c r ihl ihr =>
    obtain ⟨b1, b2, b3, b4⟩ := bst
    by_cases e1 : pr = p
    · subst e1
      rw [ATree.ins_eq]
      refine ⟨rfl, by simp [ATree.chainOf], fun p' hne => ?_⟩
      simp [ATree.chainOf, hne]
    · rw [ATree.prios, List.mem_append, List.mem_cons] at hp
      by_cases e2 : pr < p
      · have hl : pr ∈ l.prios := by
          rcases hp with h | h | h
          · exact h
          · exact absurd h e1
          · exact absurd (b2 pr h) (not_lt.mpr (le_of_lt e2))
        obtain ⟨i1, i2, i3⟩ := ihl b3 hl
        rw [ATree.ins_lt _ _ _ _ _ _ _ _ e2]
        refine ⟨by simp [ATree.skeleton, i1], by simp [ATree.chainOf, e1, e2, i2], fun p' hne => ?_⟩
        simp only [ATree.chainOf]
        split_ifs
        · rfl
        · exact i3 p' hne
        · rfl
      · have hr : pr ∈ r.prios := by
          rcases hp with h | h | h
          · exact absurd (b1 pr h) e2
          · exact absurd h e1
          · exact h
        obtain ⟨i1, i2, i3⟩ := ihr b4 hr
        rw [ATree.ins_gt _ _ _ _ _ _ _ _ e1 e2]
        refine ⟨by simp [ATree.skeleton, i1], by simp [ATree.chainOf, e1, e2, i2], fun p' hne => ?_⟩
        simp only [ATree.chainOf]
        split_ifs
        · rfl
        · rfl
        · exact i3 p' hne

theorem Realizes.chain_realized {h : Heap T} {t : ATree T} (p : Int) :
    ∀ {par : Ptr}, Realizes h par t → ChainR h p (t.chainOf p) := by
  induction t with
  | nil => intro _ _; trivial
  | node a l pr v d c r ihl ihr =>
    intro par R
    obtain ⟨_, Rc, Rl, Rr⟩ := R
    simp only [ATree.chainOf]
    split_ifs with e1 e2
    · rw [e1]; exact Rc
    · exact ihl Rl
    · exact ihr Rr

theorem ChainR.last {h : Heap T} {p : Int} {a : Nat} {v : T} :
    ∀ {c : List (Nat × T)}, ChainR h p (c ++ [(a, v)]) →
      h[a]? = some (some
        { priority := p, value := v, dup := true, parent := none,
          link := none, left := none, right := none }) := by
  intro c
  induction c with
  | nil => intro R; exact R.1
  | cons e c ih => intro R; exact ih R.2

/-! ## `dequeue` of a leftmost node below the root, without chain -/

theorem ATree.cutMin_eq_dropMin (t : ATree T) (hc : t.minChain = []) : t.cutMin = t.dropMin := by
  induction t with
  | nil => rfl
  | node a l p v d c r ihl _ =>
    cases l with
    | nil =>
      have : c = [] := hc
      subst this
      rfl
    | node a2 l2 p2 v2 d2 c2 r2 =>
      rw [ATree.cutMin_left _ _ _ _ _ _ _ (by simp), ihl hc]
      rfl

theorem ATree.dropMin_entries (t : ATree T) (hc : t.minChain = []) :
    t.dropMin.entries = t.entries.tail := by
  induction t with
  | nil => rfl
  | node a l p v d c r ihl _ =>
    cases l with
    | nil =>
      have : c = [] := hc
      subst this
      simp [ATree.dropMin, ATree.entries]
    | node a2 l2 p2 v2 d2 c2 r2 =>
      have hne : (ATree.node a2 l2 p2 v2 d2 c2 r2).entries ≠ [] := by
        simp [ATree.entries]
      have unfold1 : (ATree.node a (ATree.node a2 l2 p2 v2 d2 c2 r2) p v d c r).dropMin =
          .node a (ATree.node a2 l2 p2 v2 d2 c2 r2).dropMin p v d c r := rfl
      have unfold2 : (ATree.node a (ATree.node a2 l2 p2 v2 d2 c2 r2) p v d c r).entries =
          (ATree.node a2 l2 p2 v2 d2 c2 r2).entries ++
            ((v, p) :: (c.map (fun e => (e.2, p)) ++ r.entries)) := rfl
      rw [unfold1, unfold2, ATree.entries, ihl hc, List.tail_append_of_ne_nil hne]

theorem ATree.entries_min (t : ATree T) (ne : t ≠ .nil) :
    ∃ (v : T) (p : Int) (rest : List (T × Int)),
      t.entries = (v, p) :: (t.minChain.map (fun e => (e.2, p)) ++ rest) := by
  induction t with
  | nil => exact absurd rfl ne
  | node a l p v d c r ihl _ =>
    cases l with
    | nil => exact ⟨v, p, r.entries, rfl⟩
    | node a2 l2 p2 v2 d2 c2 r2 =>
      obtain ⟨v', p', rest, e⟩ := ihl (by simp)
      refine ⟨v', p', rest ++ ((v, p) :: (c.map (fun e => (e.2, p)) ++ r.entries)), ?_⟩
      have unfold2 : (ATree.node a (ATree.node a2 l2 p2 v2 d2 c2 r2) p v d c r).entries =
          (ATree.node a2 l2 p2 v2 d2 c2 r2).entries ++
            ((v, p) :: (c.map (fun e => (e.2, p)) ++ r.entries)) := rfl
      have unfold3 : (ATree.node a (ATree.node a2 l2 p2 v2 d2 c2 r2) p v d c r).minChain =
          (ATree.node a2 l2 p2 v2 d2 c2 r2).minChain := rfl
      rw [unfold2, unfold3, e]
      simp

theorem ATree.insAll_root (es : List (T × Int)) :
    ∀ (n a : Nat) (l r : ATree T) (p : Int) (v : T) (d : Bool) (c : List (Nat × T)),
      ∃ l' c' r', ATree.insAll n (.node a l p v d c r) es = .node a l' p v d c' r' := by
  induction es with
  | nil => intro n a l r p v d c; exact ⟨l, c, r, rfl⟩
  | cons e es ih =>
    intro n a l r p v d c
    rw [ATree.insAll]
    by_cases e1 : e.2 = p
    · rw [e1, ATree.ins_eq]
      exact ih _ _ _ _ _ _ _ _
    · by_cases e2 : e.2 < p
      · rw [ATree.ins_lt _ _ _ _ _ _ _ _ e2]
        exact ih _ _ _ _ _ _ _ _
      · rw [ATree.ins_gt _ _ _ _ _ _ _ _ e1 e2]
        exact ih _ _ _ _ _ _ _ _

theorem ATree.dropMin_addrs (t : ATree T) : t.dropMin.addrs.Sublist t.addrs := by
  induction t with
  | nil => exact List.Sublist.refl _
  | node a l p v d c r ihl _ =>
    cases l with
    | nil =>
      simp only [ATree.dropMin, ATree.addrs, List.nil_append]
      exact ((List.sublist_append_right _ _)).cons _
    | node a2 l2 p2 v2 d2 c2 r2 =>
      have unfold1 : (ATree.node a (ATree.node a2 l2 p2 v2 d2 c2 r2) p v d c r).dropMin =
          .node a (ATree.node a2 l2 p2 v2 d2 c2 r2).dropMin p v d c r := rfl
      rw [unfold1]
      simp only [ATree.addrs] at ihl ⊢
      exact List.Sublist.cons₂ _
        (List.Sublist.append (List.Sublist.refl _) (List.Sublist.append ihl (List.Sublist.refl _)))

/-- The call `dequeue()` on a queue whose leftmost node lies below the root:
the root stays, the tree below it changes to `cutMin`, and the parent link of
the root is the one it had. -/
theorem dequeue_spec_inner {q : priorityqueue T} {par : Ptr} {a : Nat} {l r : ATree T} {p : Int}
    {v : T} {d : Bool} {c : List (Nat × T)}
    (R : Realizes q.heap par (.node a l p v d c r)) (nd : (ATree.node a l p v d c r).addrs.Nodup)
    (hr : q.root = some a) (ne : l ≠ .nil) :
    ∃ w q', dequeue q = .ok (w, q') ∧ l.minVal = some w ∧ q'.root = q.root ∧
      q'.size = wrapInt (q.size - 1) ∧ q'.curr = q.curr ∧
      Realizes q'.heap par (.node a l.cutMin p v d c r) := by
  have tne : ATree.node a l p v d c r ≠ .nil := by simp
  obtain ⟨m, n, k1, k2, _, _, _⟩ :=
    leftmost_spec _ par (q.heap.length + 1) tne R (le_trans (R.height_le nd) (Nat.le_succ _))
  have start : dequeue q = dequeueAt q (some m) := by
    simp only [dequeue, hr, reduceCtorEq, if_false, bind, Except.bind]
    rw [ATree.ptr_node] at k2
    rw [k2]
  obtain ⟨Ra, Rc, Rl, Rr⟩ := R
  have nda : (a :: l.addrs).Nodup := by
    simp only [ATree.addrs, List.nodup_cons, List.mem_append, List.mem_cons, not_or,
      List.nodup_append] at nd ⊢
    tauto
  have hroot : ∀ b ∈ l.addrs, some b ≠ q.root := by
    intro b hb e
    rw [hr] at e
    obtain rfl := Option.some.inj e
    exact (List.nodup_cons.mp nda).1 hb
  obtain ⟨m', v', h', e1, e2, e3, e4, e5, e6, e7⟩ := dequeueAt_sub q l a _ ne Rl nda Ra rfl hroot
  have out : ∀ b, b ≠ a → b ∉ l.addrs → h'[b]? = q.heap[b]? := by
    intro b b1 b2
    exact e7 b (by
      rw [List.mem_cons, not_or]
      exact ⟨b1, b2⟩)
  simp only [ATree.addrs, List.nodup_cons, List.mem_append, not_or, List.nodup_append,
    List.Disjoint] at nd
  obtain ⟨⟨hac, hal, har⟩, ndc, ⟨ndl, ndr, dlr⟩, dc⟩ := nd
  have hm : m' = m := by
    have : (ATree.node a l p v d c r).minAddr = l.minAddr := by
      cases l with
      | nil => exact absurd rfl ne
      | node => rfl
    rw [this] at k1
    exact Option.some.inj (e1.symm.trans k1)
  subst hm
  rw [start]
  refine ⟨v', ({ q with heap := h', size := wrapInt (q.size - 1) } : priorityqueue T), e3, e2, rfl, rfl, rfl,
    Realizes.mk e5 ?_ e4 ?_⟩
  · exact Rc.frame (fun b hb => out b (fun e => hac (e ▸ hb)) (fun hb' => dc hb (Or.inl hb')))
  · exact Rr.congr (fun b hb => out b (fun e => har (e ▸ hb)) (fun hb' => dlr hb' hb))

/-! ## Positions in the tree -/

theorem ATree.child_addrs (d : Dir) (t : ATree T) : (t.child d).addrs.Sublist t.addrs := by
  cases t with
  | nil => cases d <;> exact List.Sublist.refl _
  | node a l p v dd c r =>
    cases d with
    | L =>
      simp only [ATree.child, ATree.addrs]
      exact ((List.sublist_append_left _ _).trans (List.sublist_append_right _ _)).cons _
    | R =>
      simp only [ATree.child, ATree.addrs]
      exact ((List.sublist_append_right _ _).trans (List.sublist_append_right _ _)).cons _

theorem ATree.sub_addrs (t : ATree T) (c : List Dir) : (t.sub c).addrs.Sublist t.addrs := by
  induction c with
  | nil => exact List.Sublist.refl _
  | cons d c ih => exact (ATree.child_addrs d _).trans ih

theorem ATree.sub_nil_of_nil (c : List Dir) : ((.nil : ATree T)).sub c = .nil := by
  induction c with
  | nil => rfl
  | cons d c ih =>
    show (ATree.sub .nil c).child d = .nil
    rw [ih]
    cases d <;> rfl

theorem ATree.sub_parent_ne_nil {t : ATree T} {d : Dir} {c : List Dir}
    (ne : t.sub (d :: c) ≠ .nil) : t.sub c ≠ .nil := by
  intro h
  apply ne
  show (t.sub c).child d = .nil
  rw [h]
  cases d <;> rfl

theorem ATree.sub_drop_ne_nil {t : ATree T} (k : Nat) :
    ∀ {c : List Dir}, t.sub c ≠ .nil → t.sub (c.drop k) ≠ .nil := by
  induction k with
  | zero => intro c ne; simpa using ne
  | succ k ih =>
    intro c ne
    cases c with
    | nil => simpa using ne
    | cons d c =>
      rw [List.drop_succ_cons]
      exact ih (ATree.sub_parent_ne_nil ne)

theorem ATree.ptr_ne_none {t : ATree T} : t.ptr ≠ none ↔ t ≠ .nil := by
  cases t <;> simp [ATree.ptr]

theorem Realizes.child {h : Heap T} {par : Ptr} {t : ATree T} (d : Dir) (R : Realizes h par t) :
    Realizes h t.ptr (t.child d) := by
  cases t with
  | nil => cases d <;> trivial
  | node a l p v dd c r =>
    obtain ⟨_, _, Rl, Rr⟩ := R
    cases d with
    | L => exact Rl
    | R => exact Rr

theorem Realizes.at_pos {h : Heap T} {par : Ptr} {t : ATree T} (R : Realizes h par t) :
    ∀ c : List Dir, Realizes h (t.parAt par c) (t.sub c) := by
  intro c
  induction c with
  | nil => exact R
  | cons d c ih => exact ih.child d

/-- The cell of the node at a position: its fields as the view gives them. -/
theorem Realizes.cell {h : Heap T} {par : Ptr} {t : ATree T} (R : Realizes h par t)
    {c : List Dir} {a : Nat} {l r : ATree T} {p : Int} {v : T} {d : Bool} {ch : List (Nat × T)}
    (e : t.sub c = .node a l p v d ch r) :
    h[a]? = some (some
      { priority := p, value := v, dup := d, parent := t.parAt par c,
        link := chainPtr ch, left := (t.sub (.L :: c)).ptr, right := (t.sub (.R :: c)).ptr }) := by
  have R' := R.at_pos c
  rw [e] at R'
  have hl : t.sub (.L :: c) = l := by
    show (t.sub c).child .L = l
    rw [e]; rfl
  have hr : t.sub (.R :: c) = r := by
    show (t.sub c).child .R = r
    rw [e]; rfl
  rw [hl, hr]
  exact R'.1

theorem ATree.lmPos_spec (t : ATree T) :
    ∀ (s : ATree T) (c : List Dir), t.sub c = s → s ≠ .nil →
      (t.sub (s.lmPos c)).ptr = s.minAddr ∧ t.sub (s.lmPos c) ≠ .nil ∧
      t.sub (.L :: s.lmPos c) = .nil := by
  intro s
  induction s with
  | nil => intro c _ ne; exact absurd rfl ne
  | node a l p v d ch r ihl _ =>
    intro c e _
    cases l with
    | nil =>
      refine ⟨?_, ?_, ?_⟩
      · show (t.sub c).ptr = _
        rw [e]; rfl
      · show t.sub c ≠ .nil
        rw [e]; simp
      · show (t.sub c).child .L = .nil
        rw [e]; rfl
    | node a2 l2 p2 v2 d2 c2 r2 =>
      have e2 : t.sub (.L :: c) = .node a2 l2 p2 v2 d2 c2 r2 := by
        show (t.sub c).child .L = _
        rw [e]; rfl
      exact ihl (.L :: c) e2 (by simp)

/-- The loop `leftmost` started at the subtree at position `c` ends at the
node at position `lmPos`. -/
theorem leftmost_pos {h : Heap T} {par : Ptr} {t : ATree T} (R : Realizes h par t)
    (nd : t.addrs.Nodup) {c : List Dir} (ne : t.sub c ≠ .nil) :
    leftmost h (h.length + 1) (t.sub c).ptr = .ok (t.sub ((t.sub c).lmPos c)).ptr := by
  have Rs := R.at_pos c
  have nds : (t.sub c).addrs.Nodup := (ATree.sub_addrs t c).nodup nd
  obtain ⟨m, n, k1, k2, _, _, _⟩ := leftmost_spec (t.sub c) _ (h.length + 1) ne Rs
    (le_trans (Rs.height_le nds) (Nat.le_succ _))
  rw [k2, (ATree.lmPos_spec t (t.sub c) c rfl ne).1, k1]

theorem ATree.sub_height {t : ATree T} :
    ∀ {c : List Dir}, t.sub c ≠ .nil → (t.sub c).height + c.length ≤ t.height := by
  intro c
  induction c with
  | nil => intro _; simp [ATree.sub]
  | cons d c ih =>
    intro ne
    have pne := ATree.sub_parent_ne_nil ne
    have h1 := ih pne
    have h2 : (t.sub (d :: c)).height + 1 ≤ (t.sub c).height := by
      show ((t.sub c).child d).height + 1 ≤ _
      cases hs : t.sub c with
      | nil => exact absurd hs pne
      | node a l p v dd ch r =>
        cases d
        · simp only [ATree.child, ATree.height]; omega
        · simp only [ATree.child, ATree.height]; omega
    simp only [List.length_cons]
    omega

theorem ATree.pos_length_lt {h : Heap T} {par : Ptr} {t : ATree T} (R : Realizes h par t)
    (nd : t.addrs.Nodup) {c : List Dir} (ne : t.sub c ≠ .nil) : c.length < h.length := by
  have h1 := ATree.sub_height ne
  have h2 := R.height_le nd
  have h3 : 0 < (t.sub c).height := by
    cases hs : t.sub c with
    | nil => exact absurd hs ne
    | node => simp [ATree.height]
  omega

theorem rightRun_le_length (c : List Dir) : rightRun c ≤ c.length := by
  induction c with
  | nil => simp [rightRun]
  | cons d c ih =>
    cases d with
    | L => simp [rightRun]
    | R => simp [rightRun]; omega

theorem ATree.parAt_eq (t : ATree T) (c : List Dir) : t.parAt none c = t.ptrAt (parentPos c) := by
  cases c <;> rfl

theorem ATree.ptr_eq_none {t : ATree T} : t.ptr = none ↔ t = .nil := by
  cases t <;> simp [ATree.ptr]

theorem ATree.ptr_mem_addrs {t : ATree T} {b : Nat} (e : t.ptr = some b) : b ∈ t.addrs := by
  cases t with
  | nil => simp [ATree.ptr] at e
  | node a l p v d c r =>
    simp only [ATree.ptr, Option.some.injEq] at e
    subst e
    simp [ATree.addrs]

/-- The two children of a node have different addresses. -/
theorem ATree.left_ne_right {t : ATree T} (nd : t.addrs.Nodup) {c : List Dir}
    (ne : t.sub (.L :: c) ≠ .nil) : (t.sub (.L :: c)).ptr ≠ (t.sub (.R :: c)).ptr := by
  have nds : (t.sub c).addrs.Nodup := (ATree.sub_addrs t c).nodup nd
  show ((t.sub c).child .L).ptr ≠ ((t.sub c).child .R).ptr
  have ne' : (t.sub c).child .L ≠ .nil := ne
  cases hs : t.sub c with
  | nil => rw [hs] at ne'; exact absurd rfl ne'
  | node a l p v d ch r =>
    rw [hs] at nds ne'
    simp only [ATree.child] at ne' ⊢
    simp only [ATree.addrs, List.nodup_cons, List.nodup_append, List.Disjoint] at nds
    obtain ⟨_, _, ⟨_, _, dlr⟩, _⟩ := nds
    intro e
    cases hl : l.ptr with
    | none => exact ne' (ATree.ptr_eq_none.mp hl)
    | some b =>
      rw [hl] at e
      exact dlr (ATree.ptr_mem_addrs hl) (ATree.ptr_mem_addrs e.symm)

/-! ## `operator==` on the abstract view -/

theorem linkCompare_spec {neq : T → T → Bool} {ah bh : Heap T} {p : Int} :
    ∀ (c c' : List (Nat × T)) (fuel : Nat), ChainR ah p c → ChainR bh p c' → c.length ≤ fuel →
      linkCompare neq ah bh fuel (chainPtr c) (chainPtr c') =
        .ok (chainSame neq (c.map Prod.snd) (c'.map Prod.snd)) := by
  intro c
  induction c with
  | nil =>
    intro c' fuel _ _ _
    cases c' with
    | nil => cases fuel <;> simp [linkCompare, chainPtr_nil, chainSame, pure, Except.pure]
    | cons e' c' =>
      cases fuel <;>
        simp [linkCompare, chainPtr_nil, chainPtr_cons, chainSame, pure, Except.pure]
  | cons e c ih =>
    intro c' fuel R R' hf
    cases c' with
    | nil =>
      cases fuel <;>
        simp [linkCompare, chainPtr_nil, chainPtr_cons, chainSame, pure, Except.pure]
    | cons e' c' =>
      obtain ⟨f, rfl⟩ : ∃ f, fuel = f + 1 := ⟨fuel - 1, by simp at hf; omega⟩
      obtain ⟨R1, R2⟩ := R
      obtain ⟨R1', R2'⟩ := R'
      have := ih c' f R2 R2' (by simp at hf; omega)
      cases hv : neq e.2 e'.2 with
      | false =>
        simp [linkCompare, chainPtr_cons, deref_of R1, deref_of R1', bind, Except.bind, hv, this,
          chainSame]
      | true =>
        simp [linkCompare, chainPtr_cons, deref_of R1, deref_of R1', bind, Except.bind, hv, pure,
          Except.pure, chainSame]

theorem chainPtr_ne_none {c : List (Nat × T)} : chainPtr c ≠ none ↔ c ≠ [] := by
  cases c <;> simp [chainPtr]

theorem climb_spec {ah bh : Heap T} {ta tb : ATree T} (Ra : Realizes ah none ta)
    (Rb : Realizes bh none tb) (nda : ta.addrs.Nodup) :
    ∀ (c cb : List Dir) (fuel : Nat), ta.sub c ≠ .nil → tb.sub cb ≠ .nil →
      rightRun c ≤ cb.length → rightRun c < fuel →
      climb ah bh fuel (ta.sub c).ptr (tb.sub cb).ptr =
        .ok ((ta.sub (c.drop (rightRun c))).ptr, (tb.sub (cb.drop (rightRun c))).ptr) := by
  intro c
  induction c with
  | nil =>
    intro cb fuel ne _ _ hf
    obtain ⟨f, rfl⟩ : ∃ f, fuel = f + 1 := ⟨fuel - 1, by omega⟩
    cases hs : ta.sub [] with
    | nil => exact absurd hs ne
    | node a l p v d ch r =>
      have cell := Ra.cell hs
      simp only [climb, ATree.ptr_node, deref_of cell, ATree.parAt, bind, Except.bind, ne_eq,
        not_true_eq_false, if_false, rightRun, List.drop_zero, hs]
      rfl
  | cons x c ih =>
    intro cb fuel ne neb hj hf
    obtain ⟨f, rfl⟩ : ∃ f, fuel = f + 1 := ⟨fuel - 1, by omega⟩
    have pne := ATree.sub_parent_ne_nil ne
    cases hs : ta.sub (x :: c) with
    | nil => exact absurd hs ne
    | node a l p v d ch r =>
      have cell := Ra.cell hs
      cases hp : ta.sub c with
      | nil => exact absurd hp pne
      | node a2 l2 p2 v2 d2 ch2 r2 =>
        have pcell := Ra.cell hp
        have hpar : ta.parAt none (x :: c) = some a2 := by
          show (ta.sub c).ptr = some a2
          rw [hp]; rfl
        rw [hpar] at cell
        cases x with
        | L =>
          have hne := ATree.left_ne_right nda ne
          rw [hs, ATree.ptr_node] at hne
          simp only [climb, ATree.ptr_node, deref_of cell, deref_of pcell, bind, Except.bind,
            ne_eq, reduceCtorEq, not_false_eq_true, if_true, hne, if_false, rightRun,
            List.drop_zero, hs]
          rfl
        | R =>
          simp only [rightRun] at hj hf ⊢
          cases cb with
          | nil => simp at hj
          | cons y cb =>
            have pneb := ATree.sub_parent_ne_nil neb
            cases hsb : tb.sub (y :: cb) with
            | nil => exact absurd hsb neb
            | node b lb pb vb db chb rb =>
              have cellb := Rb.cell hsb
              have hparb : tb.parAt none (y :: cb) = (tb.sub cb).ptr := rfl
              rw [hparb] at cellb
              have := ih cb f pne pneb (by simp at hj; omega) (by omega)
              rw [hp, ATree.ptr_node] at this
              simp only [climb, ATree.ptr_node, deref_of cell, deref_of pcell, deref_of cellb,
                bind, Except.bind, ne_eq, reduceCtorEq, not_false_eq_true, if_true, hs,
                List.drop_succ_cons, this]

theorem chainCheck_spec (neq : T → T → Bool) {ah bh : Heap T} {p : Int} {ch chb : List (Nat × T)}
    {n o : NODE T} (Rc : ChainR ah p ch) (Rcb : ChainR bh p chb) (len : ch.length ≤ ah.length + 1)
    (hn : n.link = chainPtr ch) (ho : o.link = chainPtr chb) :
    chainCheck neq ah bh n o =
      .ok (if chainPtr ch ≠ none ∧ chainPtr chb ≠ none then
        chainSame neq (ch.map Prod.snd) (chb.map Prod.snd)
      else decide (n.dup = o.dup)) := by
  unfold chainCheck
  rw [hn, ho]
  by_cases h : chainPtr ch ≠ none ∧ chainPtr chb ≠ none
  · rw [if_pos h, if_pos h]
    exact linkCompare_spec ch chb _ Rc Rcb len
  · rw [if_neg h, if_neg h]
    rfl

theorem Realizes.chain_len {h : Heap T} {par : Ptr} {t : ATree T} (R : Realizes h par t)
    (nd : t.addrs.Nodup) {c : List Dir} {a : Nat} {l r : ATree T} {p : Int} {v : T} {d : Bool}
    {ch : List (Nat × T)} (e : t.sub c = .node a l p v d ch r) :
    ChainR h p ch ∧ ch.length ≤ h.length + 1 := by
  have R' := R.at_pos c
  have nds : (t.sub c).addrs.Nodup := (ATree.sub_addrs t c).nodup nd
  rw [e] at R' nds
  simp only [ATree.addrs, List.nodup_cons, List.nodup_append] at nds
  have := length_le_of_nodup_lt nds.2.1 R'.2.1.live
  simp at this
  exact ⟨R'.2.1, by omega⟩

theorem advance_spec {ah bh : Heap T} {ta tb : ATree T} (Ra : Realizes ah none ta)
    (Rb : Realizes bh none tb) (nda : ta.addrs.Nodup) (ndb : tb.addrs.Nodup)
    {c cb : List Dir} (ne : ta.sub c ≠ .nil) (neb : tb.sub cb ≠ .nil) {n o : NODE T}
    (hn : n.right = (ta.sub (.R :: c)).ptr) (ho : o.right = (tb.sub (.R :: cb)).ptr)
    (safe : (ta.sub (.R :: c)).ptr = none → (tb.sub (.R :: cb)).ptr = none →
      rightRun c ≤ cb.length) :
    advance ah bh (ta.sub c).ptr (tb.sub cb).ptr n o =
      .ok ((move ta tb c cb).map (fun pq => (ta.ptrAt pq.1, tb.ptrAt pq.2))) := by
  unfold advance move
  rw [hn, ho]
  by_cases h1 : (ta.sub (.R :: c)).ptr ≠ none ∧ (tb.sub (.R :: cb)).ptr ≠ none
  · rw [if_pos h1, if_pos h1]
    have e1 := leftmost_pos Ra nda (ATree.ptr_ne_none.mp h1.1)
    have e2 := leftmost_pos Rb ndb (ATree.ptr_ne_none.mp h1.2)
    simp only [e1, e2, bind, Except.bind, pure, Except.pure, Option.map, ATree.ptrAt]
  · rw [if_neg h1, if_neg h1]
    by_cases h2 : (ta.sub (.R :: c)).ptr ≠ none ∨ (tb.sub (.R :: cb)).ptr ≠ none
    · rw [if_pos h2, if_pos h2]
      rfl
    · rw [if_neg h2, if_neg h2]
      rw [not_or, not_not, not_not] at h2
      have hj := safe h2.1 h2.2
      have hf : rightRun c < ah.length + 1 := by
        have := rightRun_le_length c
        have := ATree.pos_length_lt Ra nda ne
        omega
      have e1 := climb_spec Ra Rb nda c cb _ ne neb hj hf
      have ne1 : ta.sub (c.drop (rightRun c)) ≠ .nil := ATree.sub_drop_ne_nil _ ne
      have ne2 : tb.sub (cb.drop (rightRun c)) ≠ .nil := ATree.sub_drop_ne_nil _ neb
      cases hs1 : ta.sub (c.drop (rightRun c)) with
      | nil => exact absurd hs1 ne1
      | node a1 l1 p1 v1 d1 ch1 r1 =>
        cases hs2 : tb.sub (cb.drop (rightRun c)) with
        | nil => exact absurd hs2 ne2
        | node a2 l2 p2 v2 d2 ch2 r2 =>
          have cell1 := Ra.cell hs1
          have cell2 := Rb.cell hs2
          rw [hs1, hs2] at e1
          simp only [ATree.ptr_node] at e1
          simp only [e1, deref_of cell1, deref_of cell2, bind, Except.bind, pure, Except.pure,
            Option.map, ATree.parAt_eq]

/-- One turn of the main loop of `operator==` at a pair of nodes that pass its
tests: the walk goes on from the pair of nodes that `move` gives. -/
theorem eqWalk_same {neq : T → T → Bool} {ah bh : Heap T} {ta tb : ATree T}
    (Ra : Realizes ah none ta) (Rb : Realizes bh none tb) (nda : ta.addrs.Nodup)
    (ndb : tb.addrs.Nodup)
    {c cb : List Dir} (ne : ta.sub c ≠ .nil) (neb : tb.sub cb ≠ .nil) (f : Nat)
    (hd : sameNode neq (ta.sub c) (tb.sub cb) = true)
    (safe : (ta.sub (.R :: c)).ptr = none → (tb.sub (.R :: cb)).ptr = none →
      rightRun c ≤ cb.length) :
    eqWalk neq ah bh (f + 1) (ta.sub c).ptr (tb.sub cb).ptr =
      match move ta tb c cb with
      | none => .ok false
      | some pq => eqWalk neq ah bh f (ta.ptrAt pq.1) (tb.ptrAt pq.2) := by
  cases hs : ta.sub c with
  | nil => exact absurd hs ne
  | node a l p v d ch r =>
    cases hsb : tb.sub cb with
    | nil => exact absurd hsb neb
    | node b lb pb vb db chb rb =>
      have cell := Ra.cell hs
      have cellb := Rb.cell hsb
      rw [hs, hsb] at hd
      simp only [sameNode, Bool.and_eq_true, decide_eq_true_eq, Bool.not_eq_true'] at hd
      obtain ⟨hp, hv, hc⟩ := hd
      subst hp
      obtain ⟨Rc, len⟩ := Ra.chain_len nda hs
      obtain ⟨Rcb, _⟩ := Rb.chain_len ndb hsb
      have cc := chainCheck_spec neq (n := ⟨p, v, d, ta.parAt none c, chainPtr ch,
        (ta.sub (.L :: c)).ptr, (ta.sub (.R :: c)).ptr⟩) (o := ⟨p, vb, db, tb.parAt none cb,
        chainPtr chb, (tb.sub (.L :: cb)).ptr, (tb.sub (.R :: cb)).ptr⟩) Rc Rcb len rfl rfl
      rw [hc] at cc
      have adv := advance_spec Ra Rb nda ndb ne neb (n := ⟨p, v, d, ta.parAt none c, chainPtr ch,
        (ta.sub (.L :: c)).ptr, (ta.sub (.R :: c)).ptr⟩) (o := ⟨p, vb, db, tb.parAt none cb,
        chainPtr chb, (tb.sub (.L :: cb)).ptr, (tb.sub (.R :: cb)).ptr⟩) rfl rfl safe
      rw [hs, hsb] at adv
      simp only [ATree.ptr_node] at adv
      simp only [eqWalk, ATree.ptr_node, deref_of cell, deref_of cellb, bind, Except.bind, ne_eq,
        reduceCtorEq, not_false_eq_true, and_self, if_true, not_true_eq_false, if_false, cc, adv,
        hv, Bool.false_eq_true]
      cases move ta tb c cb with
      | none => rfl
      | some pq => rfl

theorem eqWalk_none_none {neq : T → T → Bool} (ah bh : Heap T) (f : Nat) :
    eqWalk neq ah bh f none none = .ok true := by
  cases f <;> simp [eqWalk, pure, Except.pure]

theorem ATree.above_drop (t : ATree T) :
    ∀ c : List Dir, t.above (c.drop (rightRun c)) = t.above c := by
  intro c
  induction c with
  | nil => rfl
  | cons d c ih =>
    cases d with
    | L => rfl
    | R =>
      show t.above (c.drop (rightRun c)) = t.above c
      exact ih

theorem rightRun_drop_head {c c1 : List Dir} {d : Dir} (e : c.drop (rightRun c) = d :: c1) :
    d = .L := by
  induction c with
  | nil => simp at e
  | cons x c ih =>
    cases x with
    | L =>
      simp only [rightRun, List.drop_zero, List.cons.injEq] at e
      exact e.1.symm
    | R =>
      simp only [rightRun, List.drop_succ_cons] at e
      exact ih e

theorem ATree.after_lmPos (t : ATree T) :
    ∀ (s : ATree T) (c : List Dir), t.sub c = s → s ≠ .nil →
      t.after (s.lmPos c) + 1 = s.size + t.above c := by
  intro s
  induction s with
  | nil => intro c _ ne; exact absurd rfl ne
  | node a l p v d ch r ihl _ =>
    intro c e _
    have hl : t.sub (.L :: c) = l := by
      show (t.sub c).child .L = l
      rw [e]; rfl
    have hr : t.sub (.R :: c) = r := by
      show (t.sub c).child .R = r
      rw [e]; rfl
    cases l with
    | nil =>
      simp only [ATree.lmPos, ATree.after, hr, ATree.size]
      omega
    | node a1 l1 p1 v1 d1 ch1 r1 =>
      have := ihl (.L :: c) hl (by simp)
      simp only [ATree.lmPos]
      rw [this]
      simp only [ATree.above, hr, ATree.size]
      omega

/-- The step down of the in-order walk, to the leftmost node of the right
subtree, leaves one node less to visit. -/
theorem ATree.after_down (t : ATree T) {c : List Dir} (ne : t.sub (.R :: c) ≠ .nil) :
    t.after ((t.sub (.R :: c)).lmPos (.R :: c)) + 1 = t.after c := by
  rw [ATree.after_lmPos t _ _ rfl ne]
  rfl

/-- The step up of the in-order walk leaves one node less to visit. -/
theorem ATree.after_up (t : ATree T) {c c1 : List Dir} {d : Dir} (e : t.sub (.R :: c) = .nil)
    (hc : c.drop (rightRun c) = d :: c1) : t.after c1 + 1 = t.after c := by
  have hd := rightRun_drop_head hc
  subst hd
  have h1 := ATree.above_drop t c
  rw [hc] at h1
  simp only [ATree.after, e, ATree.size, ATree.above] at h1 ⊢
  omega

theorem ATree.size_le_addrs (t : ATree T) : t.size ≤ t.addrs.length := by
  induction t with
  | nil => simp [ATree.size]
  | node a l p v d c r ihl ihr =>
    simp only [ATree.size, ATree.addrs, List.length_cons, List.length_append, List.length_map]
    omega

theorem ATree.child_size (d : Dir) (t : ATree T) : (t.child d).size ≤ t.size := by
  cases t with
  | nil => cases d <;> simp [ATree.child, ATree.size]
  | node a l p v dd c r =>
    cases d with
    | L => simp only [ATree.child, ATree.size]; omega
    | R => simp only [ATree.child, ATree.size]; omega

/-- The fuel that `operator==` is given is enough for the walk from the root. -/
theorem ATree.after_root_lt {h : Heap T} {par : Ptr} {t : ATree T} (R : Realizes h par t)
    (nd : t.addrs.Nodup) (n : Nat) : t.after [] < (h.length + 1) * (n + 1) := by
  have h1 : t.after [] ≤ t.size := by
    simp only [ATree.after, ATree.above, Nat.add_zero]
    exact ATree.child_size .R t
  have h2 := ATree.size_le_addrs t
  have h3 := length_le_of_nodup_lt nd R.addr_lt
  have h4 : h.length + 1 ≤ (h.length + 1) * (n + 1) := Nat.le_mul_of_pos_right _ (Nat.succ_pos n)
  omega

/-! ### Trees of the same shape and contents -/

theorem ATree.anon_eq_nil {t : ATree T} : t.anon = .nil ↔ t = .nil := by
  cases t <;> simp [ATree.anon]

theorem ATree.anon_child (d : Dir) (t : ATree T) : (t.child d).anon = t.anon.child d := by
  cases t with
  | nil => cases d <;> rfl
  | node a l p v dd c r => cases d <;> rfl

theorem ATree.anon_sub (t : ATree T) (c : List Dir) : (t.sub c).anon = t.anon.sub c := by
  induction c with
  | nil => rfl
  | cons d c ih =>
    show ((t.sub c).child d).anon = (t.anon.sub c).child d
    rw [ATree.anon_child, ih]

theorem ATree.sub_anon_eq {ta tb : ATree T} (e : ta.anon = tb.anon) (c : List Dir) :
    (ta.sub c).anon = (tb.sub c).anon := by
  rw [ATree.anon_sub, ATree.anon_sub, e]

theorem ATree.nil_of_anon_eq {s u : ATree T} (e : s.anon = u.anon) : s = .nil ↔ u = .nil := by
  rw [← ATree.anon_eq_nil, e, ATree.anon_eq_nil]

theorem ATree.lmPos_anon :
    ∀ (s u : ATree T), s.anon = u.anon → ∀ c : List Dir, s.lmPos c = u.lmPos c := by
  intro s
  induction s with
  | nil =>
    intro u e c
    have : u = .nil := (ATree.nil_of_anon_eq e).mp rfl
    rw [this]
  | node a l p v d ch r ihl _ =>
    intro u e c
    cases u with
    | nil => simp [ATree.anon] at e
    | node a1 l1 p1 v1 d1 ch1 r1 =>
      simp only [ATree.anon, ATree.node.injEq] at e
      have el := e.2.1
      cases l with
      | nil =>
        have : l1 = .nil := (ATree.nil_of_anon_eq el).mp rfl
        subst this
        rfl
      | node a2 l2 p2 v2 d2 ch2 r2 =>
        cases l1 with
        | nil => simp [ATree.anon] at el
        | node a3 l3 p3 v3 d3 ch3 r3 =>
          simp only [ATree.lmPos]
          exact ihl _ el _

theorem chainSame_self {neq : T → T → Bool} (L : List T) (irr : ∀ x ∈ L, neq x x = false) :
    chainSame neq L L = true := by
  induction L with
  | nil => rfl
  | cons x L ih =>
    simp only [chainSame, irr x (List.mem_cons_self _ _), Bool.not_false, Bool.true_and]
    exact ih (fun y hy => irr y (List.mem_cons_of_mem _ hy))

theorem ATree.child_entries (d : Dir) (t : ATree T) : ∀ e ∈ (t.child d).entries, e ∈ t.entries := by
  cases t with
  | nil => cases d <;> simp [ATree.child, ATree.entries]
  | node a l p v dd c r =>
    cases d with
    | L => intro e he; simp only [ATree.child] at he; simp [ATree.entries, he]
    | R => intro e he; simp only [ATree.child] at he; simp [ATree.entries, he]

theorem ATree.sub_entries (t : ATree T) (c : List Dir) :
    ∀ e ∈ (t.sub c).entries, e ∈ t.entries := by
  induction c with
  | nil => intro e he; exact he
  | cons d c ih => intro e he; exact ih e (ATree.child_entries d _ e he)

/-- Two nodes with the same contents pass the tests of `operator==` when
every value stored at the node compares equal to itself. -/
theorem sameNode_anon {neq : T → T → Bool} {s u : ATree T} (e : s.anon = u.anon) (ne : s ≠ .nil)
    (irr : ∀ x ∈ s.entries, neq x.1 x.1 = false) : sameNode neq s u = true := by
  cases s with
  | nil => exact absurd rfl ne
  | node a l p v d ch r =>
    cases u with
    | nil => simp [ATree.anon] at e
    | node a1 l1 p1 v1 d1 ch1 r1 =>
      simp only [ATree.anon, ATree.node.injEq, true_and] at e
      obtain ⟨_, hp, hv, hd, hc, _⟩ := e
      have hm : ch.map Prod.snd = ch1.map Prod.snd := by
        have := congrArg (List.map Prod.snd) hc
        simpa [List.map_map, Function.comp_def] using this
      subst hp
      subst hv
      subst hd
      have i1 : neq v v = false := irr (v, p) (by simp [ATree.entries])
      have i2 : chainSame neq (ch.map Prod.snd) (ch.map Prod.snd) = true := by
        apply chainSame_self
        intro x hx
        obtain ⟨y, hy, rfl⟩ := List.mem_map.mp hx
        exact irr (y.2, p) (by
          simp only [ATree.entries, List.mem_append, List.mem_cons, List.mem_map]
          exact Or.inr (Or.inr (Or.inl ⟨y, hy, rfl⟩)))
      simp only [sameNode, decide_True, i1, Bool.not_false, Bool.true_and, ← hm, i2, ite_self]

/-- On two trees of the same shape with the same contents at every position
the walk of `operator==` from the same position of both returns true. -/
theorem eqWalk_same_shape {neq : T → T → Bool} {ah bh : Heap T} {ta tb : ATree T}
    (Ra : Realizes ah none ta) (Rb : Realizes bh none tb) (nda : ta.addrs.Nodup)
    (ndb : tb.addrs.Nodup) (e : ta.anon = tb.anon)
    (irr : ∀ x ∈ ta.entries, neq x.1 x.1 = false) :
    ∀ (f : Nat) (c : List Dir), ta.sub c ≠ .nil → ta.after c < f →
      eqWalk neq ah bh f (ta.sub c).ptr (tb.sub c).ptr = .ok true := by
  intro f
  induction f with
  | zero => intro c _ h; omega
  | succ f ih =>
    intro c ne hf
    have neb : tb.sub c ≠ .nil := fun h =>
      ne ((ATree.nil_of_anon_eq (ATree.sub_anon_eq e c)).mpr h)
    rw [eqWalk_same Ra Rb nda ndb ne neb f
      (sameNode_anon (ATree.sub_anon_eq e c) ne (fun x hx => irr x (ATree.sub_entries ta c x hx)))
      (fun _ _ => rightRun_le_length c)]
    have er := ATree.sub_anon_eq e (.R :: c)
    unfold move
    by_cases hr : ta.sub (.R :: c) = .nil
    · have hrb : tb.sub (.R :: c) = .nil := (ATree.nil_of_anon_eq er).mp hr
      have h1 : ¬((ta.sub (.R :: c)).ptr ≠ none ∧ (tb.sub (.R :: c)).ptr ≠ none) := by
        rw [hr]; simp [ATree.ptr_nil]
      have h2 : ¬((ta.sub (.R :: c)).ptr ≠ none ∨ (tb.sub (.R :: c)).ptr ≠ none) := by
        rw [hr, hrb]; simp [ATree.ptr_nil]
      rw [if_neg h1, if_neg h2]
      cases hc : c.drop (rightRun c) with
      | nil => exact eqWalk_none_none _ _ _
      | cons d c1 =>
        have n1 : ta.sub c1 ≠ .nil := by
          have := ATree.sub_drop_ne_nil (rightRun c) ne
          rw [hc] at this
          exact ATree.sub_parent_ne_nil this
        have := ATree.after_up ta hr hc
        exact ih c1 n1 (by omega)
    · have hrb : tb.sub (.R :: c) ≠ .nil := fun h => hr ((ATree.nil_of_anon_eq er).mpr h)
      have h1 : (ta.sub (.R :: c)).ptr ≠ none ∧ (tb.sub (.R :: c)).ptr ≠ none :=
        ⟨ATree.ptr_ne_none.mpr hr, ATree.ptr_ne_none.mpr hrb⟩
      rw [if_pos h1]
      have hl := ATree.lmPos_anon _ _ er (.R :: c)
      have n1 := (ATree.lmPos_spec ta _ (.R :: c) rfl hr).2.1
      have := ATree.after_down ta hr
      show eqWalk neq ah bh f (ta.sub _).ptr (tb.sub _).ptr = _
      rw [← hl]
      exact ih _ n1 (by omega)

/-- Two queues that realize trees of the same shape with the same contents at
every position, and have the same `size`, compare equal when every stored
value compares equal to itself. -/
theorem equals_same_shape {neq : T → T → Bool} {a b : priorityqueue T} {ta tb : ATree T}
    (Ra : Realizes a.heap none ta) (Rb : Realizes b.heap none tb) (nda : ta.addrs.Nodup)
    (ndb : tb.addrs.Nodup) (ra : a.root = ta.ptr) (rb : b.root = tb.ptr)
    (hs : a.size = b.size) (e : ta.anon = tb.anon)
    (irr : ∀ x ∈ ta.entries, neq x.1 x.1 = false) : equals neq a b = .ok true := by
  unfold equals
  rw [if_neg (by simpa using hs), ra, rb]
  by_cases hn : ta = .nil
  · have hnb : tb = .nil := (ATree.nil_of_anon_eq e).mp hn
    rw [hn, hnb]
    exact eqWalk_none_none _ _ _
  · exact eqWalk_same_shape Ra Rb nda ndb e irr _ [] hn (ATree.after_root_lt Ra nda _)

theorem ATree.anon_entries (t : ATree T) : t.anon.entries = t.entries := by
  induction t with
  | nil => rfl
  | node a l p v d c r ihl ihr =>
    simp only [ATree.anon, ATree.entries, ihl, ihr, List.map_map, Function.comp_def]

theorem ATree.ins_count (a : Nat) (v : T) (p : Int) (t : ATree T) :
    (t.ins a v p).entries.length = t.entries.length + 1 := by
  induction t with
  | nil => simp [ATree.ins, ATree.entries]
  | node b l q w d c r ihl ihr =>
    unfold ATree.ins
    split
    · simp only [ATree.entries, List.length_append, List.length_cons, List.length_map,
        List.length_nil]
      omega
    · split
      · simp only [ATree.entries, List.length_append, List.length_cons, ihl]
        omega
      · simp only [ATree.entries, List.length_append, List.length_cons, ihr]
        omega

theorem ATree.insAll_count (es : List (T × Int)) :
    ∀ (n : Nat) (t : ATree T), (ATree.insAll n t es).entries.length = t.entries.length + es.length := by
  induction es with
  | nil => intro n t; rfl
  | cons e es ih =>
    intro n t
    simp only [ATree.insAll, ih, ATree.ins_count, List.length_cons]
    omega

/-- Two runs of `enqueue` calls that build trees of the same shape and
contents have the same number of calls. -/
theorem ATree.insAll_anon_length {es1 es2 : List (T × Int)}
    (e : (ATree.insAll 0 .nil es1).anon = (ATree.insAll 0 .nil es2).anon) :
    es1.length = es2.length := by
  have h1 := ATree.insAll_count es1 0 .nil
  have h2 := ATree.insAll_count es2 0 .nil
  have h3 := congrArg (fun t => (ATree.entries t).length) e
  simp only [ATree.anon_entries] at h3
  simp only [ATree.entries, List.length_nil, Nat.zero_add] at h1 h2
  omega

/-! ### Positions as lists of steps -/

theorem enqueueAll_append (es1 es2 : List (T × Int)) :
    ∀ q : priorityqueue T,
      enqueueAll q (es1 ++ es2) = enqueueAll q es1 >>= fun q1 => enqueueAll q1 es2 := by
  induction es1 with
  | nil => intro q; rfl
  | cons e es ih =>
    intro q
    simp only [List.cons_append, enqueueAll, bind, Except.bind]
    cases enqueue q e.1 e.2 with
    | error x => rfl
    | ok q1 => exact ih q1

/-- On a tree without duplicate chains `copyTree` is the run of `enqueue`
calls with the entries of the tree nodes in pre-order. -/
theorem copyTree_eq_enqueueAll {oh : Heap T} :
    ∀ (t : ATree T) (par : Ptr) (fuel : Nat) (q : priorityqueue T), Realizes oh par t →
      t.plain → t.height ≤ fuel → copyTree oh fuel t.ptr q = enqueueAll q t.pre := by
  intro t
  induction t with
  | nil =>
    intro par fuel q _ _ _
    cases fuel <;> rfl
  | node a l p v d c r ihl ihr =>
    intro par fuel q R pl hf
    obtain ⟨Ra, _, Rl, Rr⟩ := R
    obtain ⟨hd, _, pll, plr⟩ := pl
    subst hd
    obtain ⟨f, rfl⟩ : ∃ f, fuel = f + 1 := ⟨fuel - 1, by simp [ATree.height] at hf; omega⟩
    simp only [ATree.height] at hf
    have e1 : enqueueAll q (ATree.pre (.node a l p v false c r)) =
        enqueue q v p >>= fun q1 => enqueueAll q1 l.pre >>= fun q3 => enqueueAll q3 r.pre := by
      simp only [ATree.pre, enqueueAll, bind, Except.bind]
      cases enqueue q v p with
      | error x => rfl
      | ok q1 => exact enqueueAll_append l.pre r.pre q1
    rw [e1]
    simp only [copyTree, ATree.ptr_node, deref_of Ra, bind, Except.bind, pure, Except.pure,
      Bool.false_eq_true, if_false]
    cases enqueue q v p with
    | error x => rfl
    | ok q1 =>
      simp only []
      rw [ihl (some a) f q1 Rl pll (by omega)]
      cases enqueueAll q1 l.pre with
      | error x => rfl
      | ok q3 =>
        simp only []
        exact ihr (some a) f q3 Rr plr (by omega)

theorem ATree.insAll_append (es1 es2 : List (T × Int)) :
    ∀ (n : Nat) (t : ATree T),
      ATree.insAll n t (es1 ++ es2) = ATree.insAll (n + es1.length) (ATree.insAll n t es1) es2 := by
  induction es1 with
  | nil => intro n t; rfl
  | cons e es ih =>
    intro n t
    show ATree.insAll (n + 1) (ATree.ins n e.1 e.2 t) (es ++ es2) =
      ATree.insAll (n + (es.length + 1)) (ATree.insAll (n + 1) (ATree.ins n e.1 e.2 t) es) es2
    rw [ih, show n + (es.length + 1) = n + 1 + es.length by omega]

/-- A run of `enqueue` calls with priorities below the priority of the root
builds in the left subtree. -/
theorem ATree.insAll_left (a : Nat) (r : ATree T) (p : Int) (v : T) (d : Bool)
    (c : List (Nat × T)) (es : List (T × Int)) :
    ∀ (n : Nat) (l : ATree T), (∀ e ∈ es, e.2 < p) →
      ATree.insAll n (.node a l p v d c r) es = .node a (ATree.insAll n l es) p v d c r := by
  induction es with
  | nil => intro n l _; rfl
  | cons e es ih =>
    intro n l h
    have h1 : e.2 < p := h e (List.mem_cons_self _ _)
    have h2 : ¬ e.2 = p := by omega
    simp only [ATree.insAll, ATree.ins, if_neg h2, if_pos h1]
    exact ih (n + 1) _ (fun x hx => h x (List.mem_cons_of_mem _ hx))

/-- A run of `enqueue` calls with priorities above the priority of the root
builds in the right subtree. -/
theorem ATree.insAll_right (a : Nat) (l : ATree T) (p : Int) (v : T) (d : Bool)
    (c : List (Nat × T)) (es : List (T × Int)) :
    ∀ (n : Nat) (r : ATree T), (∀ e ∈ es, p < e.2) →
      ATree.insAll n (.node a l p v d c r) es = .node a l p v d c (ATree.insAll n r es) := by
  induction es with
  | nil => intro n r _; rfl
  | cons e es ih =>
    intro n r h
    have h1 : p < e.2 := h e (List.mem_cons_self _ _)
    have h2 : ¬ e.2 = p := by omega
    have h3 : ¬ e.2 < p := by omega
    simp only [ATree.insAll, ATree.ins, if_neg h2, if_neg h3]
    exact ih (n + 1) _ (fun x hx => h x (List.mem_cons_of_mem _ hx))

theorem ATree.pre_prios (t : ATree T) : ∀ e ∈ t.pre, e.2 ∈ t.prios := by
  induction t with
  | nil => intro e he; simp [ATree.pre] at he
  | node a l p v d c r ihl ihr =>
    intro e he
    simp only [ATree.pre, List.mem_cons, List.mem_append] at he
    simp only [ATree.prios, List.mem_append, List.mem_cons]
    rcases he with rfl | he | he
    · exact Or.inr (Or.inl rfl)
    · exact Or.inl (ihl e he)
    · exact Or.inr (Or.inr (ihr e he))

/-- The run of `enqueue` calls with the entries of a search tree without
duplicate chains in pre-order builds a tree of the same shape and contents. -/
theorem ATree.insAll_pre :
    ∀ (t : ATree T) (n : Nat), t.BST → t.plain →
      (ATree.insAll n .nil t.pre).anon = t.anon := by
  intro t
  induction t with
  | nil => intro n _ _; rfl
  | node a l p v d c r ihl ihr =>
    intro n bst pl
    obtain ⟨bl, br, bstl, bstr⟩ := bst
    obtain ⟨hd, hc, pll, plr⟩ := pl
    subst hd
    subst hc
    have e1 : ATree.insAll n .nil (ATree.pre (.node a l p v false [] r)) =
        .node n (ATree.insAll (n + 1) .nil l.pre) p v false []
          (ATree.insAll (n + 1 + l.pre.length) .nil r.pre) := by
      simp only [ATree.pre, ATree.insAll, ATree.ins]
      rw [ATree.insAll_append,
        ATree.insAll_left n .nil p v false [] l.pre (n + 1) .nil
          (fun e he => bl _ (ATree.pre_prios l e he)),
        ATree.insAll_right n _ p v false [] r.pre _ .nil
          (fun e he => br _ (ATree.pre_prios r e he))]
    rw [e1]
    simp only [ATree.anon, List.map_nil, ihl _ bstl pll, ihr _ bstr plr]

theorem ATree.ins_plain (a : Nat) (v : T) (p : Int) :
    ∀ t : ATree T, t.plain → p ∉ t.prios → (t.ins a v p).plain := by
  intro t
  induction t with
  | nil => intro _ _; exact ⟨rfl, rfl, trivial, trivial⟩
  | node b l q w d c r ihl ihr =>
    intro pl hp
    obtain ⟨hd, hc, pll, plr⟩ := pl
    simp only [ATree.prios, List.mem_append, List.mem_cons, not_or] at hp
    obtain ⟨hl, hq, hr⟩ := hp
    unfold ATree.ins
    rw [if_neg hq]
    by_cases h : p < q
    · rw [if_pos h]
      exact ⟨hd, hc, ihl pll hl, plr⟩
    · rw [if_neg h]
      exact ⟨hd, hc, pll, ihr plr hr⟩

/-- A run of `enqueue` calls with pairwise distinct priorities builds a tree
without duplicate chains. -/
theorem ATree.insAll_plain (es : List (T × Int)) :
    ∀ (n : Nat) (t : ATree T), t.plain → (es.map Prod.snd).Nodup →
      (∀ e ∈ es, e.2 ∉ t.prios) → (ATree.insAll n t es).plain := by
  induction es with
  | nil => intro n t pl _ _; exact pl
  | cons e es ih =>
    intro n t pl nd h
    simp only [List.map_cons, List.nodup_cons] at nd
    refine ih (n + 1) _ (ATree.ins_plain n e.1 e.2 t pl (h e (List.mem_cons_self _ _))) nd.2 ?_
    intro x hx hm
    rcases ATree.ins_prios n e.1 e.2 t _ hm with h1 | h1
    · exact nd.1 (h1 ▸ List.mem_map_of_mem Prod.snd hx)
    · exact h x (List.mem_cons_of_mem _ hx) h1

/-- The assignment `b = a` from a queue `a` that holds a search tree without
duplicate chains, with a null cursor, to a queue that owns a well-formed tree
and has any cursor: `b` then holds a tree of the same shape and contents. -/
theorem assign_plain {b0 a : priorityqueue T} {ta : ATree T} (wb : WF b0) (cursor : Ptr)
    (Ra : Realizes a.heap none ta) (nda : ta.addrs.Nodup) (ra : a.root = ta.ptr)
    (ca : a.curr = none) (bst : ta.BST) (pl : ta.plain) :
    ∃ b tb, assign { b0 with curr := cursor } a = .ok b ∧ Realizes b.heap none tb ∧
      tb.addrs.Nodup ∧ b.root = tb.ptr ∧ b.size = a.size ∧ b.curr = none ∧
      tb.anon = ta.anon := by
  obtain ⟨q0, e0, r0, _, _, _⟩ := clear_spec wb
  have e0' : clear { b0 with curr := cursor } = .ok q0 := e0
  obtain ⟨q1, e1, r1, _, _, nd1, R1⟩ :=
    enqueueAll_spec ta.pre q0 .nil trivial List.nodup_nil r0
  have e2 : copyTree a.heap (a.heap.length + 1) a.root q0 = .ok q1 := by
    rw [ra, copyTree_eq_enqueueAll ta none _ q0 Ra pl (le_trans (Ra.height_le nda) (Nat.le_succ _))]
    exact e1
  refine ⟨({ q1 with size := a.size, curr := none } : priorityqueue T), _, ?_, R1, nd1, r1, rfl,
    rfl, ATree.insAll_pre ta _ bst pl⟩
  simp only [assign, e0', e2, ca, bind, Except.bind, ne_eq, not_true_eq_false, if_false]
  rfl

/-! ## The traversal with `next` from a null cursor -/

theorem nextClimb_spec {h : Heap T} {t : ATree T} (R : Realizes h none t) (nd : t.addrs.Nodup) :
    ∀ (c : List Dir) (fuel : Nat), t.sub c ≠ .nil → rightRun c < fuel →
      nextClimb h fuel (t.sub c).ptr (t.parAt none c) =
        .ok ((t.sub (c.drop (rightRun c))).ptr, t.parAt none (c.drop (rightRun c))) := by
  intro c
  induction c with
  | nil =>
    intro fuel _ hf
    obtain ⟨f, rfl⟩ : ∃ f, fuel = f + 1 := ⟨fuel - 1, by omega⟩
    simp only [nextClimb, ATree.parAt, ne_eq, not_true_eq_false, if_false, rightRun,
      List.drop_zero]
    rfl
  | cons x c ih =>
    intro fuel ne hf
    obtain ⟨f, rfl⟩ : ∃ f, fuel = f + 1 := ⟨fuel - 1, by omega⟩
    have pne := ATree.sub_parent_ne_nil ne
    cases hp : t.sub c with
    | nil => exact absurd hp pne
    | node a2 l2 p2 v2 d2 ch2 r2 =>
      have pcell := R.cell hp
      have hpar : t.parAt none (x :: c) = some a2 := by
        show (t.sub c).ptr = some a2
        rw [hp]; rfl
      cases x with
      | L =>
        have hne := ATree.left_ne_right nd ne
        simp only [nextClimb, hpar, deref_of pcell, bind, Except.bind, ne_eq, reduceCtorEq,
          not_false_eq_true, if_true, hne, if_false, rightRun, List.drop_zero]
        rfl
      | R =>
        simp only [rightRun] at hf ⊢
        have := ih f pne (by omega)
        rw [hp, ATree.ptr_node] at this
        simp only [nextClimb, hpar, deref_of pcell, bind, Except.bind, ne_eq, reduceCtorEq,
          not_false_eq_true, if_true, List.drop_succ_cons, this]

theorem ATree.here_of_ne_nil {s : ATree T} (ne : s ≠ .nil) :
    ∃ a l p v d c r, s = .node a l p v d c r ∧ s.here = [(v, p)] := by
  cases s with
  | nil => exact absurd rfl ne
  | node a l p v d c r => exact ⟨a, l, p, v, d, c, r, rfl, rfl⟩

/-- The first call of `next` with a null cursor returns true with the entry of
the leftmost node and puts the cursor there. -/
theorem next_first {q : priorityqueue T} {t : ATree T} (R : Realizes q.heap none t)
    (nd : t.addrs.Nodup) (hr : q.root = t.ptr) (hc : q.curr = none) (ne : t ≠ .nil) :
    ∃ e, (t.sub (t.lmPos [])).here = [e] ∧
      next q = .ok (some e, { q with curr := (t.sub (t.lmPos [])).ptr }) := by
  have n0 : t.sub [] ≠ .nil := ne
  have n1 := (ATree.lmPos_spec t t [] rfl ne).2.1
  obtain ⟨a, l, p, v, d, c, r, hs, hh⟩ := ATree.here_of_ne_nil n1
  have cell := R.cell hs
  have lm := leftmost_pos R nd n0
  have lm1 : leftmost q.heap (q.heap.length + 1) t.ptr = .ok (some a) := by
    have : (t.sub ((t.sub []).lmPos [])).ptr = some a := by
      show (t.sub (t.lmPos [])).ptr = some a
      rw [hs]; rfl
    rw [← this]
    exact lm
  refine ⟨(v, p), hh, ?_⟩
  have hrn : ¬ q.root = none := by rw [hr]; exact ATree.ptr_ne_none.mpr ne
  rw [← hr] at lm1
  simp only [next, if_neg hrn, hc, if_true, lm1, deref_of cell, bind, Except.bind, pure,
    Except.pure, hs, ATree.ptr_node]

/-- A call of `next` with the cursor on a node that has a right child returns
true with the entry of the leftmost node of the right subtree and puts the
cursor there. -/
theorem next_down {q : priorityqueue T} {t : ATree T} (R : Realizes q.heap none t)
    (nd : t.addrs.Nodup) (hr : q.root = t.ptr) {c : List Dir} (ne : t.sub c ≠ .nil)
    (hc : q.curr = (t.sub c).ptr) (hd : t.sub (.R :: c) ≠ .nil) :
    ∃ e, (t.sub ((t.sub (.R :: c)).lmPos (.R :: c))).here = [e] ∧
      next q = .ok (some e,
        { q with curr := (t.sub ((t.sub (.R :: c)).lmPos (.R :: c))).ptr }) := by
  have n1 := (ATree.lmPos_spec t _ (.R :: c) rfl hd).2.1
  obtain ⟨a, l, p, v, d, ch, r, hs, hh⟩ := ATree.here_of_ne_nil n1
  have cell := R.cell hs
  obtain ⟨a0, l0, p0, v0, d0, ch0, r0, hs0, _⟩ := ATree.here_of_ne_nil ne
  have cell0 := R.cell hs0
  have lm := leftmost_pos R nd hd
  rw [hs] at lm
  have tne : t ≠ .nil := fun h => ne (by rw [h]; exact ATree.sub_nil_of_nil c)
  have hrn : ¬ q.root = none := by rw [hr]; exact ATree.ptr_ne_none.mpr tne
  have hcn : ¬ q.curr = none := by rw [hc]; exact ATree.ptr_ne_none.mpr ne
  have hdn : ¬ (t.sub (.R :: c)).ptr = none := ATree.ptr_ne_none.mpr hd
  refine ⟨(v, p), hh, ?_⟩
  simp only [next, if_neg hrn, if_neg hcn, nextTarget, hc, hs0, ATree.ptr_node, deref_of cell0,
    bind, Except.bind, pure, Except.pure, ne_eq, hdn, not_false_eq_true, if_true, lm,
    reduceCtorEq, if_false, deref_of cell, hs]

/-- A call of `next` with the cursor on a node without right child walks up
as long as it comes from a right child: it returns true with the entry of the
parent reached, or false when it reaches the root this way, and then leaves
the cursor on the root. -/
theorem next_up {q : priorityqueue T} {t : ATree T} (R : Realizes q.heap none t)
    (nd : t.addrs.Nodup) (hr : q.root = t.ptr) {c : List Dir} (ne : t.sub c ≠ .nil)
    (hc : q.curr = (t.sub c).ptr) (hd : t.sub (.R :: c) = .nil) :
    (c.drop (rightRun c) = [] → next q = .ok (none, { q with curr := t.ptr })) ∧
    (∀ x c1, c.drop (rightRun c) = x :: c1 →
      ∃ e, (t.sub c1).here = [e] ∧ next q = .ok (some e, { q with curr := (t.sub c1).ptr })) := by
  obtain ⟨a0, l0, p0, v0, d0, ch0, r0, hs0, _⟩ := ATree.here_of_ne_nil ne
  have cell0 := R.cell hs0
  have tne : t ≠ .nil := fun h => ne (by rw [h]; exact ATree.sub_nil_of_nil c)
  have hrn : ¬ q.root = none := by rw [hr]; exact ATree.ptr_ne_none.mpr tne
  have hcn : ¬ q.curr = none := by rw [hc]; exact ATree.ptr_ne_none.mpr ne
  have hf : rightRun c < q.heap.length + 1 := by
    have := rightRun_le_length c
    have := ATree.pos_length_lt R nd ne
    omega
  have cl := nextClimb_spec R nd c _ ne hf
  rw [hs0, ATree.ptr_node] at cl
  have base : next q =
      (if t.parAt none (c.drop (rightRun c)) = none then
        .ok (none, { q with curr := (t.sub (c.drop (rightRun c))).ptr })
      else
        deref q.heap (t.parAt none (c.drop (rightRun c))) >>= fun cn =>
          pure (some (cn.value, cn.priority),
            { q with curr := t.parAt none (c.drop (rightRun c)) })) := by
    simp only [next, if_neg hrn, if_neg hcn, nextTarget, hc, hs0, ATree.ptr_node, deref_of cell0,
      bind, Except.bind, pure, Except.pure, ne_eq, hd, ATree.ptr_nil, not_true_eq_false, if_false,
      cl]
    rfl
  constructor
  · intro h0
    rw [base, h0]
    simp only [ATree.parAt, if_true]
    rfl
  · intro x c1 h1
    have n1 : t.sub c1 ≠ .nil := by
      have := ATree.sub_drop_ne_nil (rightRun c) ne
      rw [h1] at this
      exact ATree.sub_parent_ne_nil this
    obtain ⟨a, l, p, v, d, ch, r, hs, hh⟩ := ATree.here_of_ne_nil n1
    have cell := R.cell hs
    refine ⟨(v, p), hh, ?_⟩
    rw [base, h1]
    simp only [ATree.parAt, hs, ATree.ptr_node, reduceCtorEq, if_false, deref_of cell, bind,
      Except.bind, pure, Except.pure]

theorem ATree.rest_lmPos (t : ATree T) :
    ∀ (s : ATree T) (c : List Dir), t.sub c = s → s ≠ .nil →
      (t.sub (s.lmPos c)).here ++ t.rest (s.lmPos c) = s.nodes ++ t.restAbove c := by
  intro s
  induction s with
  | nil => intro c _ ne; exact absurd rfl ne
  | node a l p v d ch r ihl _ =>
    intro c e _
    have hl : t.sub (.L :: c) = l := by
      show (t.sub c).child .L = l
      rw [e]; rfl
    have hr : t.sub (.R :: c) = r := by
      show (t.sub c).child .R = r
      rw [e]; rfl
    cases l with
    | nil =>
      simp only [ATree.lmPos, ATree.rest, hr, e, ATree.here, ATree.nodes, List.nil_append,
        List.singleton_append, List.cons_append]
    | node a1 l1 p1 v1 d1 ch1 r1 =>
      have := ihl (.L :: c) hl (by simp)
      simp only [ATree.lmPos]
      rw [this]
      simp only [ATree.restAbove, hr, e, ATree.here, ATree.nodes, List.append_assoc,
        List.singleton_append, List.cons_append, List.nil_append]

theorem ATree.restAbove_drop (t : ATree T) :
    ∀ c : List Dir, t.restAbove (c.drop (rightRun c)) = t.restAbove c := by
  intro c
  induction c with
  | nil => rfl
  | cons d c ih =>
    cases d with
    | L => rfl
    | R =>
      show t.restAbove (c.drop (rightRun c)) = t.restAbove c
      exact ih

/-- The step of the in-order walk to the leftmost node of the right subtree
visits the next tree node. -/
theorem ATree.rest_down (t : ATree T) {c : List Dir} (ne : t.sub (.R :: c) ≠ .nil) :
    t.rest c = (t.sub ((t.sub (.R :: c)).lmPos (.R :: c))).here ++
      t.rest ((t.sub (.R :: c)).lmPos (.R :: c)) := by
  rw [ATree.rest_lmPos t _ _ rfl ne]
  rfl

/-- The step up of the in-order walk visits the next tree node. -/
theorem ATree.rest_up (t : ATree T) {c c1 : List Dir} {x : Dir} (e : t.sub (.R :: c) = .nil)
    (hc : c.drop (rightRun c) = x :: c1) : t.rest c = (t.sub c1).here ++ t.rest c1 := by
  have hx := rightRun_drop_head hc
  subst hx
  have h1 := ATree.restAbove_drop t c
  rw [hc] at h1
  simp only [ATree.rest, e, ATree.nodes, List.nil_append, ← h1, ATree.restAbove,
    List.append_assoc]

/-- When the step up of the in-order walk leaves the tree, no tree node is
left to visit. -/
theorem ATree.rest_end (t : ATree T) {c : List Dir} (e : t.sub (.R :: c) = .nil)
    (hc : c.drop (rightRun c) = []) : t.rest c = [] := by
  have h1 := ATree.restAbove_drop t c
  rw [hc] at h1
  simp only [ATree.rest, e, ATree.nodes, List.nil_append, ← h1, ATree.restAbove]

theorem ATree.nodes_start (t : ATree T) (ne : t ≠ .nil) :
    t.nodes = (t.sub (t.lmPos [])).here ++ t.rest (t.lmPos []) := by
  rw [ATree.rest_lmPos t t [] rfl ne]
  simp [ATree.restAbove]

/-- The successive calls of `next` from a cursor on a tree node, up to the
first call that returns false, return the entries of the tree nodes that
follow in the in-order walk. -/
theorem nextRun_from {t : ATree T} (nd : t.addrs.Nodup) :
    ∀ (fuel : Nat) (q : priorityqueue T) (c : List Dir), Realizes q.heap none t →
      q.root = t.ptr → t.sub c ≠ .nil → q.curr = (t.sub c).ptr → (t.rest c).length < fuel →
      ∃ q', nextRun fuel q = .ok (t.rest c, q') := by
  intro fuel
  induction fuel with
  | zero => intro q c _ _ _ _ h; omega
  | succ f ih =>
    intro q c R hr ne hc hf
    by_cases hd : t.sub (.R :: c) = .nil
    · obtain ⟨h0, h1⟩ := next_up R nd hr ne hc hd
      cases hdrop : c.drop (rightRun c) with
      | nil =>
        refine ⟨{ q with curr := t.ptr }, ?_⟩
        simp only [nextRun, h0 hdrop, bind, Except.bind, pure, Except.pure,
          ATree.rest_end t hd hdrop]
      | cons x c1 =>
        obtain ⟨e, he, hn⟩ := h1 x c1 hdrop
        have n1 : t.sub c1 ≠ .nil := by
          intro h
          rw [h] at he
          simp [ATree.here] at he
        have er := ATree.rest_up t hd hdrop
        rw [he] at er
        obtain ⟨q', hq'⟩ := ih { q with curr := (t.sub c1).ptr } c1 R hr n1 rfl (by
          rw [er] at hf
          simp at hf
          omega)
        refine ⟨q', ?_⟩
        simp only [nextRun, hn, hq', bind, Except.bind, pure, Except.pure, er,
          List.singleton_append]
    · obtain ⟨e, he, hn⟩ := next_down R nd hr ne hc hd
      have n1 := (ATree.lmPos_spec t _ (.R :: c) rfl hd).2.1
      have er := ATree.rest_down t hd
      rw [he] at er
      obtain ⟨q', hq'⟩ := ih { q with curr := (t.sub ((t.sub (.R :: c)).lmPos (.R :: c))).ptr } _
        R hr n1 rfl (by
          rw [er] at hf
          simp at hf
          omega)
      refine ⟨q', ?_⟩
      rw [er]
      simp only [nextRun, hn, hq', bind, Except.bind, pure, Except.pure, List.singleton_append]

/-- The successive calls of `next` from a null cursor, up to the first call
that returns false, return the entries of all tree nodes in the order of the
in-order walk. -/
theorem nextRun_spec {q : priorityqueue T} {t : ATree T} (R : Realizes q.heap none t)
    (nd : t.addrs.Nodup) (hr : q.root = t.ptr) (hc : q.curr = none) (fuel : Nat)
    (hf : t.nodes.length < fuel) : ∃ q', nextRun fuel q = .ok (t.nodes, q') := by
  obtain ⟨f, rfl⟩ : ∃ f, fuel = f + 1 := ⟨fuel - 1, by omega⟩
  by_cases ne : t = .nil
  · subst ne
    refine ⟨q, ?_⟩
    have : q.root = none := hr
    simp only [nextRun, next, this, if_true, bind, Except.bind, pure, Except.pure, ATree.nodes]
  · obtain ⟨e, he, hn⟩ := next_first R nd hr hc ne
    have n1 := (ATree.lmPos_spec t t [] rfl ne).2.1
    have es := ATree.nodes_start t ne
    rw [he] at es
    obtain ⟨q', hq'⟩ := nextRun_from nd f { q with curr := (t.sub (t.lmPos [])).ptr } _ R hr n1
      rfl (by
        rw [es] at hf
        simp at hf
        omega)
    refine ⟨q', ?_⟩
    rw [es]
    simp only [nextRun, hn, hq', bind, Except.bind, pure, Except.pure, List.singleton_append]

/-! ### The entries of the tree nodes of a run of `enqueue` calls -/

theorem ATree.nodes_prios (t : ATree T) : t.nodes.map Prod.snd = t.prios := by
  induction t with
  | nil => rfl
  | node a l p v d c r ihl ihr => simp [ATree.nodes, ATree.prios, ihl, ihr]

theorem ATree.nodes_length (t : ATree T) : t.nodes.length = t.size := by
  induction t with
  | nil => rfl
  | node a l p v d c r ihl ihr =>
    simp only [ATree.nodes, ATree.size, List.length_append, List.length_cons, ihl, ihr]
    omega

theorem ATree.nodes_le_entries (t : ATree T) : t.nodes.length ≤ t.entries.length := by
  induction t with
  | nil => simp [ATree.nodes]
  | node a l p v d c r ihl ihr =>
    simp only [ATree.nodes, ATree.entries, List.length_append, List.length_cons, List.length_map]
    omega

theorem ATree.nodes_head (t : ATree T) : t.nodes.head? = t.entries.head? := by
  induction t with
  | nil => rfl
  | node a l p v d c r ihl _ =>
    simp only [ATree.nodes, ATree.entries, List.head?_append, ihl, List.head?_cons]

theorem ATree.ins_prios_sup (a : Nat) (v : T) (p : Int) (t : ATree T) :
    ∀ x, x = p ∨ x ∈ t.prios → x ∈ (t.ins a v p).prios := by
  induction t with
  | nil =>
    intro x hx
    rcases hx with rfl | hx
    · simp [ATree.ins, ATree.prios]
    · simp [ATree.prios] at hx
  | node b l q w d c r ihl ihr =>
    intro x hx
    unfold ATree.ins
    by_cases h1 : p = q
    · rw [if_pos h1]
      simp only [ATree.prios, List.mem_append, List.mem_cons] at hx ⊢
      rcases hx with rfl | hx
      · exact Or.inr (Or.inl h1)
      · exact hx
    · rw [if_neg h1]
      by_cases h2 : p < q
      · rw [if_pos h2]
        simp only [ATree.prios, List.mem_append, List.mem_cons] at hx ⊢
        rcases hx with rfl | hx | hx | hx
        · exact Or.inl (ihl _ (Or.inl rfl))
        · exact Or.inl (ihl _ (Or.inr hx))
        · exact Or.inr (Or.inl hx)
        · exact Or.inr (Or.inr hx)
      · rw [if_neg h2]
        simp only [ATree.prios, List.mem_append, List.mem_cons] at hx ⊢
        rcases hx with rfl | hx | hx | hx
        · exact Or.inr (Or.inr (ihr _ (Or.inl rfl)))
        · exact Or.inl hx
        · exact Or.inr (Or.inl hx)
        · exact Or.inr (Or.inr (ihr _ (Or.inr hx)))

/-- A call of `enqueue` on a search tree leaves the tree nodes as they are, or
adds one tree node with the new entry when the priority is not in the tree. -/
theorem ATree.nodes_ins (a : Nat) (v : T) (p : Int) :
    ∀ t : ATree T, t.BST → ∀ e ∈ (t.ins a v p).nodes, e ∈ t.nodes ∨ (e = (v, p) ∧ p ∉ t.prios) := by
  intro t
  induction t with
  | nil =>
    intro _ e he
    simp only [ATree.ins, ATree.nodes, List.nil_append, List.mem_singleton] at he
    exact Or.inr ⟨he, by simp [ATree.prios]⟩
  | node b l q w d c r ihl ihr =>
    intro bst e he
    obtain ⟨bl, br, bstl, bstr⟩ := bst
    unfold ATree.ins at he
    by_cases h1 : p = q
    · rw [if_pos h1] at he
      exact Or.inl he
    · rw [if_neg h1] at he
      by_cases h2 : p < q
      · rw [if_pos h2] at he
        simp only [ATree.nodes, List.mem_append, List.mem_cons] at he ⊢
        rcases he with he | he | he
        · rcases ihl bstl e he with h | ⟨h, hn⟩
          · exact Or.inl (Or.inl h)
          · refine Or.inr ⟨h, ?_⟩
            simp only [ATree.prios, List.mem_append, List.mem_cons, not_or]
            exact ⟨hn, h1, fun hr => by have := br p hr; omega⟩
        · exact Or.inl (Or.inr (Or.inl he))
        · exact Or.inl (Or.inr (Or.inr he))
      · rw [if_neg h2] at he
        simp only [ATree.nodes, List.mem_append, List.mem_cons] at he ⊢
        rcases he with he | he | he
        · exact Or.inl (Or.inl he)
        · exact Or.inl (Or.inr (Or.inl he))
        · rcases ihr bstr e he with h | ⟨h, hn⟩
          · exact Or.inl (Or.inr (Or.inr h))
          · refine Or.inr ⟨h, ?_⟩
            simp only [ATree.prios, List.mem_append, List.mem_cons, not_or]
            exact ⟨fun hl => by have := bl p hl; omega, h1, hn⟩

/-- The entry of every tree node is the first entry of its priority in the
run of `enqueue` calls. -/
theorem ATree.nodes_first (es : List (T × Int)) :
    ∀ (n : Nat) (t : ATree T) (pre : List (T × Int)), t.BST →
      (∀ e ∈ t.nodes, pre.find? (fun x => decide (x.2 = e.2)) = some e) →
      (∀ x ∈ pre, x.2 ∈ t.prios) →
      ∀ e ∈ (ATree.insAll n t es).nodes,
        (pre ++ es).find? (fun x => decide (x.2 = e.2)) = some e := by
  induction es with
  | nil =>
    intro n t pre _ h1 _ e he
    rw [List.append_nil]
    exact h1 e he
  | cons x es ih =>
    intro n t pre bst h1 h2 e he
    have := ih (n + 1) (t.ins n x.1 x.2) (pre ++ [x]) (ATree.ins_BST n x.1 x.2 bst) ?_ ?_ e he
    · simpa using this
    · intro e' he'
      rw [List.find?_append]
      rcases ATree.nodes_ins n x.1 x.2 t bst e' he' with h | ⟨h, hn⟩
      · rw [h1 e' h]
        rfl
      · have hnone : pre.find? (fun y => decide (y.2 = e'.2)) = none := by
          rw [List.find?_eq_none]
          intro y hy
          have := h2 y hy
          simp only [decide_eq_true_eq]
          intro hh
          rw [h] at hh
          exact hn (hh ▸ this)
        rw [hnone, h]
        simp
    · intro y hy
      rw [List.mem_append, List.mem_singleton] at hy
      rcases hy with hy | rfl
      · exact ATree.ins_prios_sup n x.1 x.2 t _ (Or.inr (h2 y hy))
      · exact ATree.ins_prios_sup n y.1 y.2 t _ (Or.inl rfl)

/-! ## Long runs: the `int` member `size` wraps around -/

theorem countEnq_replicate_deq (n : Nat) : countEnq (List.replicate n (Op.deq : Op T)) = 0 := by
  induction n with
  | zero => rfl
  | succ n ih => rw [List.replicate_succ]; exact ih

theorem countDeq_replicate_deq (n : Nat) : countDeq (List.replicate n (Op.deq : Op T)) = n := by
  induction n with
  | zero => rfl
  | succ n ih =>
    rw [List.replicate_succ]
    show countDeq (List.replicate n (Op.deq : Op T)) + 1 = ((n + 1 : Nat) : Int)
    rw [ih]
    push_cast
    rfl

/-- On the queue that holds one node, the root without children and without
chain, `dequeue` returns the value of the root, leaves the node in place and
lowers `size`: `removeNode` returns at once for the root. -/
theorem dequeue_lone_root (s : Int) :
    dequeue (loneRoot s) = .ok ("a", loneRoot (wrapInt (s - 1))) :=
  rfl

theorem run_lone_root :
    ∀ (n : Nat) (s : Int),
      run (loneRoot (wrapInt s)) (List.replicate n Op.deq) = .ok (loneRoot (wrapInt (s - n))) := by
  intro n
  induction n with
  | zero =>
    intro s
    show Except.ok _ = Except.ok _
    simp
  | succ n ih =>
    intro s
    rw [List.replicate_succ]
    simp only [run, step, dequeue_lone_root, bind, Except.bind, pure, Except.pure]
    have h : wrapInt (wrapInt s - 1) = wrapInt (s - 1) := by
      unfold wrapInt
      omega
    rw [h, ih (s - 1)]
    have h2 : s - 1 - (n : Int) = s - ((n + 1 : Nat) : Int) := by
      push_cast
      ring
    rw [h2]

/-- The run of one `enqueue` and `n` calls of `dequeue` on a new queue: no
call throws, and `size` is `1 - n` as an `int`. -/
theorem run_enqueue_dequeues (n : Nat) :
    run (new : priorityqueue String) (Op.enq "a" 1 :: List.replicate n Op.deq) =
      .ok (loneRoot (wrapInt (1 - n))) := by
  have h := run_lone_root n 1
  simp only [run, step, bind, Except.bind]
  exact h

theorem wrapInt_long : wrapInt (1 - ((2147483650 : Nat) : Int)) = 2147483647 := by
  unfold wrapInt
  omega

theorem count_enqueue_dequeues (n : Nat) :
    countEnq (Op.enq "a" 1 :: List.replicate n (Op.deq : Op String)) -
      countDeq (Op.enq "a" 1 :: List.replicate n (Op.deq : Op String)) = 1 - (n : Int) := by
  simp only [countEnq, countDeq, countEnq_replicate_deq, countDeq_replicate_deq]
  ring

theorem mem_entries_build {es : List (T × Int)} {x : T × Int}
    (hx : x ∈ (ATree.insAll 0 (.nil : ATree T) es).entries) : x ∈ es := by
  rw [ATree.insAll_entries] at hx
  exact (sortedEntries_stable es).2.1.subset hx

/-- C1, evaluated at a failing input.  After `enqueue("a", 1)`, `enqueue("b", 1)`,
`enqueue("c", 2)` on a new queue three `dequeue` calls return `a`, `b`, `b`:
the entry `c` is never returned and `b` is returned twice, while the stable
sort of the entries by priority is `a`, `b`, `c`. -/
theorem C1_dequeue_run_not_sorted :
    Except.map Prod.fst (build [("a", (1 : Int)), ("b", 1), ("c", 2)] >>= dequeueN 3) =
      .ok ["a", "b", "b"] ∧
    (sortedEntries [("a", (1 : Int)), ("b", 1), ("c", 2)]).map Prod.fst = ["a", "b", "c"] :=
  ⟨rfl, rfl⟩

/-- C2.  On the queue of a non-empty run of `enqueue` calls on a new queue,
`dequeue` returns the value of the entry of smallest priority and, among the
entries of that priority, of the one enqueued first. -/
theorem C2_dequeue_returns_first_min (es : List (T × Int)) (ne : es ≠ []) :
    ∃ q v p q', build es = .ok q ∧ firstMin es = some (v, p) ∧ dequeue q = .ok (v, q') := by
  obtain ⟨q, v, p, q', h1, h2, _, h4, _⟩ := build_min ne
  exact ⟨q, v, p, q', h1, h2, h4⟩

theorem C2_dequeue_returns_first_min_witness :
    [("a", (2 : Int)), ("b", 1), ("c", 1)] ≠ [] ∧
    ∃ q v p q', build [("a", (2 : Int)), ("b", 1), ("c", 1)] = .ok q ∧
      firstMin [("a", (2 : Int)), ("b", 1), ("c", 1)] = some (v, p) ∧ dequeue q = .ok (v, q') :=
  ⟨by decide, C2_dequeue_returns_first_min _ (by decide)⟩

/-- C3, evaluated at two failing inputs.  Without a chain: after `enqueue("a", 1)`
the text of `toString` is the same before and after `dequeue`, the entry is
not removed.  With a chain: after `enqueue("a", 1)`, `enqueue("b", 1)`,
`enqueue("c", 2)` a `dequeue` takes the line of `c` away together with the
line of `a`. -/
theorem C3_dequeue_keeps_or_drops_entries :
    (build [("a", (1 : Int))] >>= toString id) = .ok "1 value: a\n" ∧
    (build [("a", (1 : Int))] >>= dequeue >>= fun r => toString id r.2) = .ok "1 value: a\n" ∧
    (build [("a", (1 : Int)), ("b", 1), ("c", 2)] >>= toString id) =
      .ok "1 value: a\n1 value: b\n2 value: c\n" ∧
    (build [("a", (1 : Int)), ("b", 1), ("c", 2)] >>= dequeue >>= fun r => toString id r.2) =
      .ok "1 value: b\n" :=
  ⟨rfl, rfl, rfl, rfl⟩

/-- C4 fails at an explicit input.  After `enqueue("a", 1)` and 2147483650
calls of `dequeue` on a new queue, none of which throws, `Size()` is
2147483647, while the number of `enqueue` calls minus the number of `dequeue`
calls is -2147483649, below the range of the `int` member `size`. -/
theorem C4_size_wraps_on_long_run :
    ∃ q, run (new : priorityqueue String)
        (Op.enq "a" 1 :: List.replicate 2147483650 Op.deq) = .ok q ∧
      Size q = 2147483647 ∧
      countEnq (Op.enq "a" 1 :: List.replicate 2147483650 (Op.deq : Op String)) -
        countDeq (Op.enq "a" 1 :: List.replicate 2147483650 (Op.deq : Op String)) =
          -2147483649 :=
  ⟨_, run_enqueue_dequeues 2147483650, wrapInt_long,
    (count_enqueue_dequeues 2147483650).trans (by norm_num)⟩

/-- C4 as amended: a run of fewer than `2 ^ 31 - 1` calls of `enqueue` and
`dequeue` on a new queue either contains a `dequeue` that throws, or it returns
with `Size()` equal to the number of `enqueue` calls minus the number of
`dequeue` calls, between minus and plus the number of calls, and a further
`enqueue` with any value and priority returns and raises `Size()` by one. -/
theorem C4_size_counts_calls (ops : List (Op T)) (hb : ops.length < 2147483647) :
    (∃ q, run new ops = .ok q ∧ Size q = countEnq ops - countDeq ops ∧
      -(ops.length : Int) ≤ Size q ∧ Size q ≤ ops.length ∧
      ∀ (v : T) (p : Int), ∃ q', enqueue q v p = .ok q' ∧ Size q' = Size q + 1) ∨
    run new ops = .error .emptyQueue := by
  rcases run_spec ops (new : priorityqueue T) WF_new rfl with ⟨q, e, w, s⟩ | e
  · obtain ⟨b1, b2, b3⟩ := count_bounds ops
    have hs : Size q = countEnq ops - countDeq ops := by
      rw [Size, s]
      simp only [new, Int.zero_add]
      exact wrapInt_of_range (by omega) (by omega)
    refine Or.inl ⟨q, e, hs, by omega, by omega, fun v p => ?_⟩
    obtain ⟨q', e', _, s'⟩ := WF_enqueue w v p
    refine ⟨q', e', ?_⟩
    rw [Size, s']
    exact wrapInt_of_range (by rw [Size] at hs; omega) (by rw [Size] at hs; omega)
  · exact Or.inr e

/-- C4 as amended, at the run `enqueue("a", 1)`, `enqueue("b", 1)`,
`dequeue()`. -/
theorem C4_size_counts_calls_witness :
    [Op.enq "a" 1, Op.enq "b" 1, Op.deq].length < 2147483647 ∧
    ((∃ q, run new [Op.enq "a" 1, Op.enq "b" 1, Op.deq] = .ok q ∧
      Size q = countEnq [Op.enq "a" 1, Op.enq "b" 1, Op.deq] -
        countDeq [Op.enq "a" 1, Op.enq "b" 1, Op.deq] ∧
      -([Op.enq "a" 1, Op.enq "b" 1, Op.deq].length : Int) ≤ Size q ∧
      Size q ≤ [Op.enq "a" 1, Op.enq "b" 1, Op.deq].length ∧
      ∀ (v : String) (p : Int), ∃ q', enqueue q v p = .ok q' ∧ Size q' = Size q + 1) ∨
    run new [Op.enq "a" 1, Op.enq "b" 1, Op.deq] = .error .emptyQueue) :=
  ⟨by decide, C4_size_counts_calls _ (by decide)⟩

/-- C5.  After a run of `enqueue` calls on a new queue `toString` returns one
line `<priority> value: <value>` with its line terminator per entry, the
entries in ascending priority and, within one priority, in call order; after
`enqueue("e1", 5)`, `enqueue("e2", 3)`, `enqueue("e3", 3)` the text is
`3 value: e2`, `3 value: e3`, `5 value: e1`, one per line. -/
theorem C5_toString_sorted_lines (render : T → String) (es : List (T × Int)) :
    (∃ q, build es = .ok q ∧
      toString render q = .ok (String.join ((sortedEntries es).map
        (fun e => ToString.toString e.2 ++ " value: " ++ render e.1 ++ "\n")))) ∧
    (sortedEntries es).Pairwise (fun x y => x.2 ≤ y.2) ∧ (sortedEntries es).Perm es ∧
    (∀ p : Int, (sortedEntries es).filter (fun x => decide (x.2 = p)) =
      es.filter (fun x => decide (x.2 = p))) ∧
    (build [("e1", (5 : Int)), ("e2", 3), ("e3", 3)] >>= toString id) =
      .ok "3 value: e2\n3 value: e3\n5 value: e1\n" := by
  obtain ⟨q, e, r1, _, _, r4, r5⟩ := build_spec es
  obtain ⟨s1, s2, s3⟩ := sortedEntries_stable es
  refine ⟨⟨q, e, ?_⟩, s1, s2, s3, rfl⟩
  rw [toString_spec render r5 r4 r1, ATree.insAll_entries, renderEntries_eq_join]

/-- C6.  A new queue has `Size()` 0 and its `dequeue` throws the empty-queue
error; on every reachable queue `clear()` returns and leaves a queue with
`Size()` 0, no root and the empty text, whose `dequeue` throws the empty-queue
error (the throw is the first statement, nothing is changed before it). -/
theorem C6_empty_queue_dequeue_throws {q : priorityqueue T} (r : Reachable q)
    (render : T → String) :
    Size (new : priorityqueue T) = 0 ∧
    dequeue (new : priorityqueue T) = .error .emptyQueue ∧
    ∃ q', clear q = .ok q' ∧ Size q' = 0 ∧ q'.root = none ∧ toString render q' = .ok "" ∧
      dequeue q' = .error .emptyQueue := by
  obtain ⟨q', e, h1, h2, _, _⟩ := clear_spec r.wf
  refine ⟨rfl, rfl, q', e, h2, h1, ?_, ?_⟩
  · cases hq : q'.heap.length <;> simp [toString, h1, inorderPrint, pure, Except.pure]
  · simp [dequeue, h1]

theorem C6_empty_queue_dequeue_throws_witness :
    Reachable ({ heap := [some (freshNODE "a" 1)], root := some 0, size := 1, curr := none } :
      priorityqueue String) ∧
    (Size (new : priorityqueue String) = 0 ∧
    dequeue (new : priorityqueue String) = .error .emptyQueue ∧
    ∃ q', clear ({ heap := [some (freshNODE "a" 1)], root := some 0, size := 1, curr := none } :
        priorityqueue String) = .ok q' ∧ Size q' = 0 ∧ q'.root = none ∧
      toString id q' = .ok "" ∧ dequeue q' = .error .emptyQueue) :=
  ⟨Reachable.enqueue "a" 1 Reachable.new rfl,
    C6_empty_queue_dequeue_throws (Reachable.enqueue "a" 1 Reachable.new rfl) id⟩

/-- C7, evaluated at a failing input.  After `enqueue("a", 1)` and one
`dequeue` the size is 0, yet one further `dequeue` does not throw: it returns
`a` a second time and leaves `Size()` at -1. -/
theorem C7_dequeue_after_last_entry_returns :
    (build [("a", (1 : Int))] >>= dequeueN 1 >>= fun r =>
      dequeue r.2 >>= fun r2 => pure (r.1, Size r.2, r2.1, Size r2.2)) =
      .ok (["a"], 0, "a", -1) :=
  rfl

/-- C8.  On the queue of a non-empty run of `enqueue` calls on a new queue,
`peek` returns the value the next `dequeue` returns, the value of the entry of
smallest priority enqueued first, and leaves the queue as it is, `Size()` and
the text of `toString` included. -/
theorem C8_peek_returns_min_and_keeps_queue (es : List (T × Int)) (ne : es ≠ [])
    (render : T → String) :
    ∃ q v p q1 q2, build es = .ok q ∧ firstMin es = some (v, p) ∧ peek q = .ok (v, q1) ∧
      dequeue q = .ok (v, q2) ∧ q1 = q ∧ Size q1 = Size q ∧
      toString render q1 = toString render q := by
  obtain ⟨q, v, p, q', h1, h2, h3, h4, _⟩ := build_min ne
  exact ⟨q, v, p, q, q', h1, h2, h3, h4, rfl, rfl, rfl⟩

theorem C8_peek_returns_min_and_keeps_queue_witness :
    [("x", (3 : Int)), ("y", 2), ("z", 2)] ≠ [] ∧
    ∃ q v p q1 q2, build [("x", (3 : Int)), ("y", 2), ("z", 2)] = .ok q ∧
      firstMin [("x", (3 : Int)), ("y", 2), ("z", 2)] = some (v, p) ∧ peek q = .ok (v, q1) ∧
      dequeue q = .ok (v, q2) ∧ q1 = q ∧ Size q1 = Size q ∧
      toString id q1 = toString id q :=
  ⟨by decide, C8_peek_returns_min_and_keeps_queue _ (by decide) id⟩

/-- C9, evaluated at the failing inputs.  On a new queue and on a cleared
queue `peek` dereferences the null `root` (`currNode->left` with `currNode`
null) where `dequeue` throws the empty-queue error. -/
theorem C9_peek_on_empty_dereferences_null :
    peek (new : priorityqueue T) = .error .badDeref ∧
    dequeue (new : priorityqueue T) = .error .emptyQueue ∧
    (build [("a", (1 : Int))] >>= clear >>= peek) = .error .badDeref :=
  ⟨rfl, rfl, rfl⟩

/-- C10, evaluated at a failing input.  With `A` the queue after
`enqueue("a", 1)`, `enqueue("b", 1)` and `B` a new queue, after `B = A` the
text of `B` has the line of `a` only, the chain member `b` is not copied, and
`B.Size()` is 2. -/
theorem C10_assign_drops_chain :
    (build [("a", (1 : Int)), ("b", 1)] >>= toString id) = .ok "1 value: a\n1 value: b\n" ∧
    (build [("a", (1 : Int)), ("b", 1)] >>= assign new >>= toString id) = .ok "1 value: a\n" ∧
    Except.map Size (build [("a", (1 : Int)), ("b", 1)] >>= assign new) = .ok 2 :=
  ⟨rfl, rfl, rfl⟩

/-- C11 fails at an explicit input, for an element type with a value that is
unequal to itself.  With `a` and `b` the queues after `enqueue(NaN, 1)` on a
new queue, both `a == b` and `a == a` return false: `operator==` compares the
values with `operator!=` of the element type. -/
theorem C11_queue_with_nan_differs_from_itself :
    (build [(Flt.nan, (1 : Int))] >>= fun a => build [(Flt.nan, (1 : Int))] >>= fun b =>
      equals Flt.neq a b >>= fun x => equals Flt.neq a a >>= fun y => pure (x, y)) =
      .ok (false, false) :=
  rfl

/-- C11 as amended: for every element type with its `operator!=`, and every
finite run of `enqueue(value, priority)` calls in which every value compares
equal to itself (`v != v` is false), the two queues that the run builds from a
new queue compare equal: `operator==` returns true on them, in particular on
the queue and itself.  In the model the addresses that a run of calls takes in
the node store are fixed by the run; `operator==` never compares a pointer of
one queue with a pointer of the other, and `equals_same_shape` is the same
result for any two node stores. -/
theorem C11_same_enqueue_run_compares_equal (neq : T → T → Bool) (es : List (T × Int))
    (irr : ∀ e ∈ es, neq e.1 e.1 = false) :
    ∃ a b, build es = .ok a ∧ build es = .ok b ∧ equals neq a b = .ok true ∧
      equals neq a a = .ok true := by
  obtain ⟨a, e, ra, _, _, nd, R⟩ := build_spec es
  have h : equals neq a a = .ok true :=
    equals_same_shape R R nd nd ra ra rfl rfl (fun x hx => irr x (mem_entries_build hx))
  exact ⟨a, a, e, e, h, h⟩

/-- C11 as amended, at the run `enqueue(3, 1)`, `enqueue(4, 1)`,
`enqueue(3, 2)` of values of the type with NaN. -/
theorem C11_same_enqueue_run_compares_equal_witness :
    (∀ e ∈ [(Flt.num 3, (1 : Int)), (Flt.num 4, 1), (Flt.num 3, 2)],
      Flt.neq e.1 e.1 = false) ∧
    ∃ a b, build [(Flt.num 3, (1 : Int)), (Flt.num 4, 1), (Flt.num 3, 2)] = .ok a ∧
      build [(Flt.num 3, (1 : Int)), (Flt.num 4, 1), (Flt.num 3, 2)] = .ok b ∧
      equals Flt.neq a b = .ok true ∧ equals Flt.neq a a = .ok true :=
  ⟨by decide, C11_same_enqueue_run_compares_equal Flt.neq _ (by decide)⟩

/-- C12, evaluated at the failing input of the test "Operator== returns false
if two queues are not equal", with the `operator!=` of `int`.  With `a` the
queue after `enqueue(2, 10)`, `enqueue(4, 5)` and `b` the queue after
`enqueue(2, 10)`, `enqueue(6, 5)`, the two queues differ in the value stored
under priority 5, as their texts show, and `a == b` returns true: the walk
starts at the root and never visits the left subtree of the root. -/
theorem C12_equals_true_on_different_queues :
    (build [((2 : Int), (10 : Int)), (4, 5)] >>= fun a =>
      build [((2 : Int), (10 : Int)), (6, 5)] >>= fun b =>
        equals (fun x y => decide (x ≠ y)) a b) = .ok true ∧
    (build [((2 : Int), (10 : Int)), (4, 5)] >>= toString (fun v => ToString.toString v)) =
      .ok "5 value: 4\n10 value: 2\n" ∧
    (build [((2 : Int), (10 : Int)), (6, 5)] >>= toString (fun v => ToString.toString v)) =
      .ok "5 value: 6\n10 value: 2\n" :=
  ⟨rfl, rfl, rfl⟩

/-- C13 fails at an explicit input.  The queue after `enqueue("x", 1)`,
`enqueue("y", 2)` and the queue after `enqueue("y", 2)`, `enqueue("x", 1)`
have the same size and the same text, so the same in-order sequence of
entries, and `operator==`, with the `operator!=` of strings, returns false on
them. -/
theorem C13_equals_false_on_same_entries :
    (build [("x", (1 : Int)), ("y", 2)] >>= fun a =>
      build [("y", (2 : Int)), ("x", 1)] >>= fun b =>
        equals (fun x y => decide (x ≠ y)) a b) = .ok false ∧
    (build [("x", (1 : Int)), ("y", 2)] >>= toString id) =
      (build [("y", (2 : Int)), ("x", 1)] >>= toString id) ∧
    Except.map Size (build [("x", (1 : Int)), ("y", 2)]) =
      Except.map Size (build [("y", (2 : Int)), ("x", 1)]) :=
  ⟨rfl, rfl, rfl⟩

/-- C13 as amended: for every element type with its `operator!=`, and all
queues `a` and `b` built from new queues by `enqueue` calls whose trees have
the same shape and, at every tree position, the same priority, value, flag and
chain values, every value comparing equal to itself (`v != v` is false),
`a == b` returns true.  The trees are the ones the two node stores hold at the
roots. -/
theorem C13_equals_true_on_same_shape (neq : T → T → Bool) (es1 es2 : List (T × Int))
    (h : (ATree.insAll 0 .nil es1).anon = (ATree.insAll 0 .nil es2).anon)
    (irr : ∀ e ∈ es1, neq e.1 e.1 = false) :
    ∃ a b, build es1 = .ok a ∧ build es2 = .ok b ∧
      Realizes a.heap none (ATree.insAll 0 .nil es1) ∧ a.root = (ATree.insAll 0 .nil es1).ptr ∧
      Realizes b.heap none (ATree.insAll 0 .nil es2) ∧ b.root = (ATree.insAll 0 .nil es2).ptr ∧
      equals neq a b = .ok true := by
  obtain ⟨a, ea, ra, sa, _, nda, Ra⟩ := build_spec es1
  obtain ⟨b, eb, rb, sb, _, ndb, Rb⟩ := build_spec es2
  have hs : a.size = b.size := by rw [sa, sb, ATree.insAll_anon_length h]
  exact ⟨a, b, ea, eb, Ra, ra, Rb, rb, equals_same_shape Ra Rb nda ndb ra rb hs h
    (fun x hx => irr x (mem_entries_build hx))⟩

/-- C13 as amended, at the run `enqueue("m", 2)`, `enqueue("l", 1)`,
`enqueue("r", 3)` and the run `enqueue("m", 2)`, `enqueue("r", 3)`,
`enqueue("l", 1)`, with the `operator!=` of strings. -/
theorem C13_equals_true_on_same_shape_witness :
    ((ATree.insAll 0 .nil [("m", (2 : Int)), ("l", 1), ("r", 3)]).anon =
      (ATree.insAll 0 .nil [("m", (2 : Int)), ("r", 3), ("l", 1)]).anon ∧
    ∀ e ∈ [("m", (2 : Int)), ("l", 1), ("r", 3)],
      (fun (x y : String) => decide (x ≠ y)) e.1 e.1 = false) ∧
    ∃ a b, build [("m", (2 : Int)), ("l", 1), ("r", 3)] = .ok a ∧
      build [("m", (2 : Int)), ("r", 3), ("l", 1)] = .ok b ∧
      Realizes a.heap none (ATree.insAll 0 .nil [("m", (2 : Int)), ("l", 1), ("r", 3)]) ∧
      a.root = (ATree.insAll 0 .nil [("m", (2 : Int)), ("l", 1), ("r", 3)]).ptr ∧
      Realizes b.heap none (ATree.insAll 0 .nil [("m", (2 : Int)), ("r", 3), ("l", 1)]) ∧
      b.root = (ATree.insAll 0 .nil [("m", (2 : Int)), ("r", 3), ("l", 1)]).ptr ∧
      equals (fun x y => decide (x ≠ y)) a b = .ok true :=
  ⟨⟨by rfl, by simp⟩, C13_equals_true_on_same_shape _ _ _ (by rfl) (by simp)⟩

/-- C15, evaluated at the failing input of the claim.  After `enqueue("a", 1)`,
`enqueue("b", 1)`, `enqueue("c", 2)` and `begin()`, the first call of `next`
returns true with value `c` and priority 2, the second in-order node: the
first in-order node, priority 1, is not returned at all, and the second call
returns false. -/
theorem C15_next_after_begin_skips_first :
    (build [("a", (1 : Int)), ("b", 1), ("c", 2)] >>= begin >>= fun q0 =>
      next q0 >>= fun r1 => next r1.2 >>= fun r2 => pure (q0.curr, r1.1, r2.1)) =
      .ok (some 0, some ("c", 2), none) :=
  rfl

/-- C16, evaluated at a failing input.  After `enqueue("a", 1)`,
`enqueue("b", 2)` and `begin()`, the second call of `next` returns false and
leaves the cursor on the root, and the third call returns true again, with
value `b` and priority 2. -/
theorem C16_next_after_false_returns_true :
    (build [("a", (1 : Int)), ("b", 2)] >>= begin >>= fun q0 =>
      next q0 >>= fun r1 => next r1.2 >>= fun r2 => next r2.2 >>= fun r3 =>
        pure (r1.1, r2.1, r2.2.curr, r3.1)) =
      .ok (some ("b", 2), none, some 0, some ("b", 2)) :=
  rfl

/-- C17.  In every queue reachable from a new queue by calls of `enqueue`,
`dequeue` and `clear` (and by assignments between such queues) the node store
holds at `root` a tree in which, at every node, all priorities of the left
subtree are smaller and all priorities of the right subtree are greater than
the priority of the node; so the priorities at the tree positions are pairwise
different. -/
theorem C17_reachable_queue_is_search_tree {q : priorityqueue T} (r : Reachable q) :
    ∃ (par : Ptr) (t : ATree T), Realizes q.heap par t ∧ q.root = t.ptr ∧ t.BST ∧
      t.prios.Pairwise (fun x y => x < y) := by
  obtain ⟨par, t, R, _, hr, _, bst⟩ := Reachable_ordered r
  exact ⟨par, t, R, hr, bst, ATree.BST_prios_sorted bst⟩

theorem C17_reachable_queue_is_search_tree_witness :
    Reachable exampleQueue ∧
    ∃ (par : Ptr) (t : ATree String), Realizes exampleQueue.heap par t ∧
      exampleQueue.root = t.ptr ∧ t.BST ∧ t.prios.Pairwise (fun x y => x < y) :=
  ⟨exampleQueue_reachable, C17_reachable_queue_is_search_tree exampleQueue_reachable⟩

/-- C18, evaluated at three failing inputs.  After `enqueue("a", 1)` and
`dequeue()` the size is 0 and one node hangs at the root; after
`enqueue("a", 1)`, `enqueue("b", 1)`, `enqueue("c", 2)` and `dequeue()` the
size is 2 and one node is reachable; after the assignment of the queue of
`enqueue("a", 1)`, `enqueue("b", 1)` to a new queue the size is 2 and one node
is reachable. -/
theorem C18_size_differs_from_node_count :
    (build [("a", (1 : Int))] >>= dequeue >>= fun r =>
      nodeCount r.2.heap (r.2.heap.length + 1) r.2.root >>= fun n => pure (Size r.2, n)) =
      .ok (0, 1) ∧
    (build [("a", (1 : Int)), ("b", 1), ("c", 2)] >>= dequeue >>= fun r =>
      nodeCount r.2.heap (r.2.heap.length + 1) r.2.root >>= fun n => pure (Size r.2, n)) =
      .ok (2, 1) ∧
    (build [("a", (1 : Int)), ("b", 1)] >>= assign new >>= fun q =>
      nodeCount q.heap (q.heap.length + 1) q.root >>= fun n => pure (Size q, n)) =
      .ok (2, 1) :=
  ⟨rfl, rfl, rfl⟩

/-- C19.  On the queue of a run of `enqueue` calls on a new queue, `enqueue(v, p)`
with a priority `p` of that run returns and leaves every tree position as it
is: the tree nodes, with their addresses, priorities, values, flags and
children, are the same before and after, and so is the chain of every other
priority; the chain of `p` has one more member at its end, the new node, which
holds `v`, is marked `dup` and has no parent, link or child. -/
theorem C19_enqueue_present_priority_appends_to_chain (es : List (T × Int)) (v : T) (p : Int)
    (hp : p ∈ es.map Prod.snd) :
    ∃ q q', build es = .ok q ∧ enqueue q v p = .ok q' ∧ q'.root = q.root ∧
      Realizes q.heap none (ATree.insAll 0 .nil es) ∧
      Realizes q'.heap none ((ATree.insAll 0 .nil es).ins q.heap.length v p) ∧
      ((ATree.insAll 0 .nil es).ins q.heap.length v p).skeleton =
        (ATree.insAll 0 .nil es).skeleton ∧
      ((ATree.insAll 0 .nil es).ins q.heap.length v p).chainOf p =
        (ATree.insAll 0 .nil es).chainOf p ++ [(q.heap.length, v)] ∧
      (∀ p', p' ≠ p → ((ATree.insAll 0 .nil es).ins q.heap.length v p).chainOf p' =
        (ATree.insAll 0 .nil es).chainOf p') ∧
      q'.heap[q.heap.length]? = some (some
        { priority := p, value := v, dup := true, parent := none,
          link := none, left := none, right := none }) := by
  obtain ⟨q, e, r1, _, _, r4, r5⟩ := build_spec es
  obtain ⟨q', e', s1, _, _, _, _, par', s6, s7⟩ := enqueue_spec r5 r4 r1 v p
  obtain rfl := s7 rfl
  have bst := (ATree.insAll_spec es 0 (.nil : ATree T) trivial).1
  obtain ⟨i1, i2, i3⟩ := ATree.ins_present q.heap.length v p bst (mem_prios_build hp)
  refine ⟨q, q', e, e', ?_, r5, s6, i1, i2, i3, ?_⟩
  · rw [s1, r1]
    have := congrArg ATree.ptr i1
    cases h1 : (ATree.insAll 0 .nil es).ins q.heap.length v p <;>
      cases h2 : ATree.insAll 0 (.nil : ATree T) es <;> simp_all [ATree.skeleton, ATree.ptr]
  · have := Realizes.chain_realized p s6
    rw [i2] at this
    exact this.last

theorem C19_enqueue_present_priority_appends_to_chain_witness :
    (5 : Int) ∈ [("a", (5 : Int)), ("b", 3), ("c", 5)].map Prod.snd ∧
    ∃ q q', build [("a", (5 : Int)), ("b", 3), ("c", 5)] = .ok q ∧ enqueue q "d" 5 = .ok q' ∧
      q'.root = q.root ∧
      Realizes q.heap none (ATree.insAll 0 .nil [("a", (5 : Int)), ("b", 3), ("c", 5)]) ∧
      Realizes q'.heap none
        ((ATree.insAll 0 .nil [("a", (5 : Int)), ("b", 3), ("c", 5)]).ins q.heap.length "d" 5) ∧
      ((ATree.insAll 0 .nil [("a", (5 : Int)), ("b", 3), ("c", 5)]).ins q.heap.length
          "d" 5).skeleton =
        (ATree.insAll 0 .nil [("a", (5 : Int)), ("b", 3), ("c", 5)]).skeleton ∧
      ((ATree.insAll 0 .nil [("a", (5 : Int)), ("b", 3), ("c", 5)]).ins q.heap.length
          "d" 5).chainOf 5 =
        (ATree.insAll 0 .nil [("a", (5 : Int)), ("b", 3), ("c", 5)]).chainOf 5 ++
          [(q.heap.length, "d")] ∧
      (∀ p', p' ≠ 5 →
        ((ATree.insAll 0 .nil [("a", (5 : Int)), ("b", 3), ("c", 5)]).ins q.heap.length
          "d" 5).chainOf p' =
        (ATree.insAll 0 .nil [("a", (5 : Int)), ("b", 3), ("c", 5)]).chainOf p') ∧
      q'.heap[q.heap.length]? = some (some
        { priority := 5, value := "d", dup := true, parent := none,
          link := none, left := none, right := none }) :=
  ⟨by decide, C19_enqueue_present_priority_appends_to_chain _ "d" 5 (by decide)⟩

/-- C20.  Let a run of `enqueue` calls on a new queue start with the entry
`e0`, which takes the root, and let `m`, the entry of smallest priority
enqueued first, have a smaller priority than `e0` and be the only entry of its
priority: the leftmost node is then not the root and has no chain.  `dequeue`
returns the value of `m`, keeps the root, and leaves the tree without its
leftmost node, a leaf being detached and a right child taking the place of its
parent, every other node and chain where it was and every parent link in
place; the text of `toString` loses its first line and nothing else.  `size` is
lowered by one as an `int`, which is one less for every run of fewer than
`2 ^ 31` calls. -/
theorem C20_dequeue_removes_inner_min_node (e0 : T × Int) (rest : List (T × Int)) (m : T × Int)
    (render : T → String) (hm : firstMin (e0 :: rest) = some m) (hlt : m.2 < e0.2)
    (hone : ((e0 :: rest).filter (fun x => decide (x.2 = m.2))).length = 1) :
    ∃ q q', build (e0 :: rest) = .ok q ∧ dequeue q = .ok (m.1, q') ∧ q'.root = q.root ∧
      Size q' = wrapInt (Size q - 1) ∧ (rest.length < 2147483647 → Size q' = Size q - 1) ∧
      Realizes q.heap none (ATree.insAll 0 .nil (e0 :: rest)) ∧
      Realizes q'.heap none (ATree.insAll 0 .nil (e0 :: rest)).dropMin ∧
      toString render q = .ok (renderEntries render (sortedEntries (e0 :: rest))) ∧
      toString render q' = .ok (renderEntries render (sortedEntries (e0 :: rest)).tail) := by
  obtain ⟨q, e, r1, r2, _, r4, r5⟩ := build_spec (e0 :: rest)
  have bst := (ATree.insAll_spec (e0 :: rest) 0 (.nil : ATree T) trivial).1
  have hent := ATree.insAll_entries (e0 :: rest)
  obtain ⟨l, c, r, ht⟩ : ∃ l c r, ATree.insAll 0 (.nil : ATree T) (e0 :: rest) =
      .node 0 l e0.2 e0.1 false c r := ATree.insAll_root rest 1 0 .nil .nil e0.2 e0.1 false []
  have hhead : (ATree.insAll 0 (.nil : ATree T) (e0 :: rest)).entries.head? = some m := by
    rw [hent, head?_sortedEntries, hm]
  have hfilter : ((ATree.insAll 0 (.nil : ATree T) (e0 :: rest)).entries.filter
      (fun x => decide (x.2 = m.2))).length = 1 := by
    rw [hent, (sortedEntries_stable (e0 :: rest)).2.2 m.2]
    exact hone
  have tne : ATree.insAll 0 (.nil : ATree T) (e0 :: rest) ≠ .nil := by
    rw [ht]; simp
  -- the leftmost node has no chain
  have hchain : (ATree.insAll 0 (.nil : ATree T) (e0 :: rest)).minChain = [] := by
    obtain ⟨v, p, rest', he⟩ := ATree.entries_min _ tne
    rw [he] at hhead hfilter
    simp only [List.head?_cons, Option.some.injEq] at hhead
    subst hhead
    cases hmc : (ATree.insAll 0 (.nil : ATree T) (e0 :: rest)).minChain with
    | nil => rfl
    | cons x xs =>
      rw [hmc] at hfilter
      simp [List.filter_cons] at hfilter
  rw [ht] at r5 r4 r1 bst hhead hchain
  -- the leftmost node is not the root
  have lne : l ≠ .nil := by
    intro hl
    subst hl
    simp only [ATree.entries, List.nil_append, List.head?_cons, Option.some.injEq] at hhead
    rw [← hhead] at hlt
    exact lt_irrefl _ hlt
  obtain ⟨w, q', d1, d2, d3, d4, _, d6⟩ := dequeue_spec_inner r5 r4 r1 lne
  have hcut : (ATree.node 0 l e0.2 e0.1 false c r).dropMin = .node 0 l.cutMin e0.2 e0.1 false c r := by
    rw [← ATree.cutMin_eq_dropMin _ hchain, ATree.cutMin_left _ _ _ _ _ _ _ lne]
  have hw : w = m.1 := by
    have h1 : (ATree.node 0 l e0.2 e0.1 false c r).minVal = l.minVal := by
      cases l with
      | nil => exact absurd rfl lne
      | node => rfl
    have h2 := ATree.minVal_eq (ATree.node 0 l e0.2 e0.1 false c r)
    rw [h1, d2, hhead] at h2
    exact Option.some.inj h2
  subst hw
  have nd' : (ATree.node 0 l e0.2 e0.1 false c r).dropMin.addrs.Nodup :=
    (ATree.dropMin_addrs _).nodup r4
  rw [ht]
  refine ⟨q, q', e, d1, d3, d4, ?_, r5, ?_, ?_, ?_⟩
  · intro hlen
    have hq : q.size = (rest.length : Int) + 1 := by
      rw [r2, List.length_cons]
      push_cast
      exact wrapInt_of_range (by omega) (by omega)
    show q'.size = q.size - 1
    rw [d4, hq]
    exact wrapInt_of_range (by omega) (by omega)
  · rw [hcut]; exact d6
  · rw [toString_spec render r5 r4 r1, ← hent, ht]
  · rw [← hcut] at d6
    rw [toString_spec render d6 nd' (by rw [d3, r1, hcut]; rfl),
      ATree.dropMin_entries _ hchain, ← hent, ht]

theorem C20_dequeue_removes_inner_min_node_witness :
    (firstMin [("r", (5 : Int)), ("x", 2), ("y", 3), ("z", 7)] = some ("x", 2) ∧
      (2 : Int) < 5 ∧
      ([("r", (5 : Int)), ("x", 2), ("y", 3), ("z", 7)].filter
        (fun x => decide (x.2 = 2))).length = 1) ∧
    ∃ q q', build [("r", (5 : Int)), ("x", 2), ("y", 3), ("z", 7)] = .ok q ∧
      dequeue q = .ok ("x", q') ∧ q'.root = q.root ∧ Size q' = wrapInt (Size q - 1) ∧
      ([("x", (2 : Int)), ("y", 3), ("z", 7)].length < 2147483647 → Size q' = Size q - 1) ∧
      Realizes q.heap none (ATree.insAll 0 .nil [("r", (5 : Int)), ("x", 2), ("y", 3), ("z", 7)]) ∧
      Realizes q'.heap none
        (ATree.insAll 0 .nil [("r", (5 : Int)), ("x", 2), ("y", 3), ("z", 7)]).dropMin ∧
      toString id q =
        .ok (renderEntries id (sortedEntries [("r", (5 : Int)), ("x", 2), ("y", 3), ("z", 7)])) ∧
      toString id q' =
        .ok (renderEntries id
          (sortedEntries [("r", (5 : Int)), ("x", 2), ("y", 3), ("z", 7)]).tail) :=
  ⟨⟨by decide, by decide, by decide⟩,
    C20_dequeue_removes_inner_min_node ("r", 5) [("x", 2), ("y", 3), ("z", 7)] ("x", 2) id
      (by decide) (by decide) (by decide)⟩

/-- C21 fails at an explicit input, for an element type with a value that is
unequal to itself.  With `a` the queue after `enqueue(NaN, 1)` on a new queue
and `b` a new queue, after `b = a` the two queues have the same text and the
same size, and `b == a` returns false. -/
theorem C21_copy_with_nan_compares_unequal :
    (build [(Flt.nan, (1 : Int))] >>= fun a => assign new a >>= fun b =>
      equals Flt.neq b a >>= fun x => toString (fun _ => "NaN") a >>= fun s =>
        toString (fun _ => "NaN") b >>= fun t => pure (x, s, t, Size a, Size b)) =
      .ok (false, "1 value: NaN\n", "1 value: NaN\n", 1, 1) :=
  rfl

/-- C21 as amended: for every queue `a` built from a new queue by `enqueue`
calls with pairwise distinct priorities and every queue `b` (any queue
reachable by `enqueue`, `dequeue`, `clear` and assignments, with any cursor),
the assignment `b = a` returns and leaves in `b` a tree of the same shape with
the same priority and value (and flag, and no chain) at every position as the
tree of `a`; `b.toString()` and `a.toString()` are the same text, `b.Size()`
is `a.Size()`; and `b == a` returns true when every value of the run compares
equal to itself under `operator!=` of the element type (`v != v` is false). -/
theorem C21_assign_rebuilds_same_tree (neq : T → T → Bool) (render : T → String)
    (es : List (T × Int)) (b0 : priorityqueue T) (cursor : Ptr)
    (hd : (es.map Prod.snd).Nodup) (rb : Reachable b0) :
    ∃ a b tb s, build es = .ok a ∧ assign { b0 with curr := cursor } a = .ok b ∧
      Realizes a.heap none (ATree.insAll 0 .nil es) ∧ a.root = (ATree.insAll 0 .nil es).ptr ∧
      Realizes b.heap none tb ∧ b.root = tb.ptr ∧
      tb.anon = (ATree.insAll 0 .nil es).anon ∧
      toString render a = .ok s ∧ toString render b = .ok s ∧ Size b = Size a ∧
      ((∀ e ∈ es, neq e.1 e.1 = false) → equals neq b a = .ok true) := by
  obtain ⟨a, ea, ra, _, ca, nda, Ra⟩ := build_spec es
  have bst := (ATree.insAll_spec es 0 .nil trivial).1
  have pl := ATree.insAll_plain es 0 .nil trivial hd (fun _ _ h => by simp [ATree.prios] at h)
  obtain ⟨b, tb, eb, Rb, ndb, hrb, sb, _, an⟩ := assign_plain rb.wf cursor Ra nda ra ca bst pl
  refine ⟨a, b, tb, _, ea, eb, Ra, ra, Rb, hrb, an, toString_spec render Ra nda ra, ?_, ?_,
    fun irr => equals_same_shape Rb Ra ndb nda hrb ra sb an ?_⟩
  · rw [toString_spec render Rb ndb hrb, ← ATree.anon_entries tb, an, ATree.anon_entries]
  · simp only [Size, sb]
  · intro x hx
    rw [← ATree.anon_entries tb, an, ATree.anon_entries] at hx
    exact irr x (mem_entries_build hx)

/-- C21 as amended, at the run `enqueue("m", 2)`, `enqueue("l", 1)`,
`enqueue("r", 3)` for `a`, and for `b` the queue after `enqueue("a", 1)`,
`enqueue("b", 0)`, `enqueue("c", -1)` and one `dequeue()`, with its cursor on
the node at address 1, with the `operator!=` of strings. -/
theorem C21_assign_rebuilds_same_tree_witness :
    ([("m", (2 : Int)), ("l", 1), ("r", 3)].map Prod.snd).Nodup ∧ Reachable exampleQueue ∧
    ∃ a b tb s, build [("m", (2 : Int)), ("l", 1), ("r", 3)] = .ok a ∧
      assign { exampleQueue with curr := some 1 } a = .ok b ∧
      Realizes a.heap none (ATree.insAll 0 .nil [("m", (2 : Int)), ("l", 1), ("r", 3)]) ∧
      a.root = (ATree.insAll 0 .nil [("m", (2 : Int)), ("l", 1), ("r", 3)]).ptr ∧
      Realizes b.heap none tb ∧ b.root = tb.ptr ∧
      tb.anon = (ATree.insAll 0 .nil [("m", (2 : Int)), ("l", 1), ("r", 3)]).anon ∧
      toString id a = .ok s ∧ toString id b = .ok s ∧ Size b = Size a ∧
      equals (fun x y => decide (x ≠ y)) b a = .ok true := by
  obtain ⟨a, b, tb, s, h1, h2, h3, h4, h5, h6, h7, h8, h9, h10, h11⟩ :=
    C21_assign_rebuilds_same_tree (fun (x y : String) => decide (x ≠ y)) id
      [("m", (2 : Int)), ("l", 1), ("r", 3)] exampleQueue (some 1) (by decide)
      exampleQueue_reachable
  exact ⟨by decide, exampleQueue_reachable, a, b, tb, s, h1, h2, h3, h4, h5, h6, h7, h8, h9, h10,
    h11 (by simp)⟩

/-- C22: for every queue built from a new queue by `enqueue` calls, whose
cursor is null, the successive `next()` calls up to the first one that returns
false return (whatever the budget above the number of calls) a list `L` of
outputs in which the priorities are strictly ascending and are exactly the
stored priorities, every output is the first entry of its priority in the run
of `enqueue` calls, and the first output is the earliest entry of the smallest
priority; the number of calls that return true is the number of tree nodes. -/
theorem C22_next_run_visits_tree_nodes_in_order (es : List (T × Int)) :
    ∃ a L, build es = .ok a ∧ a.curr = none ∧
      (∀ fuel, es.length < fuel → ∃ q', nextRun fuel a = .ok (L, q')) ∧
      (L.map Prod.snd).Pairwise (fun x y => x < y) ∧
      (∀ p, p ∈ L.map Prod.snd ↔ p ∈ es.map Prod.snd) ∧
      (∀ e ∈ L, es.find? (fun x => decide (x.2 = e.2)) = some e) ∧
      L.head? = firstMin es ∧
      Realizes a.heap none (ATree.insAll 0 .nil es) ∧ a.root = (ATree.insAll 0 .nil es).ptr ∧
      L.length = (ATree.insAll 0 .nil es).size := by
  obtain ⟨a, ea, ra, _, ca, nda, Ra⟩ := build_spec es
  have bst := (ATree.insAll_spec es 0 .nil trivial).1
  have first := ATree.nodes_first es 0 .nil [] trivial
    (fun e he => by simp [ATree.nodes] at he) (fun x hx => by simp at hx)
  simp only [List.nil_append] at first
  have len : (ATree.insAll 0 .nil es).nodes.length ≤ es.length := by
    have h1 := ATree.nodes_le_entries (ATree.insAll 0 .nil es)
    have h2 := ATree.insAll_count es 0 .nil
    simp only [ATree.entries, List.length_nil, Nat.zero_add] at h2
    omega
  refine ⟨a, (ATree.insAll 0 .nil es).nodes, ea, ca, ?_, ?_, ?_, first, ?_, Ra, ra,
    ATree.nodes_length _⟩
  · intro fuel hf
    exact nextRun_spec Ra nda ra ca fuel (by omega)
  · rw [ATree.nodes_prios]
    exact ATree.BST_prios_sorted bst
  · intro p
    constructor
    · intro hp
      obtain ⟨e, he, rfl⟩ := List.mem_map.mp hp
      exact List.mem_map_of_mem Prod.snd (List.mem_of_find?_eq_some (first e he))
    · intro hp
      rw [ATree.nodes_prios]
      exact mem_prios_build hp
  · rw [ATree.nodes_head, ATree.insAll_entries, head?_sortedEntries]

end PQ
